import Mathlib

/-!
# Thread-pool work queues of `util/thread/queue.cpp`

A shallow embedding of `TMtpQueue` (the fixed pool with an optional bounded
FIFO) and of `TAdaptiveMtpQueue` (the hand-off slot with threads created on
demand), followed by the properties established about them.

Conventions of the embedding.

* The C++ member data of each `TImpl` is a structure with the member names of
  the source.  Mutexes and condition variables carry no data: a region run
  under a mutex is one atomic step, and a `while (c) cond.Wait(mutex)` loop is
  a step that is enabled only when `c` is false (the condition is re-tested
  under the mutex after every wake-up, so this is exactly when the loop is
  left).
* A call either returns a value, raises an exception (carrying its message),
  or is suspended on a condition variable: `Call`.
* What a call does on the calling thread besides changing member data is
  returned as a list of `Effect`s: invocations of `Process` and threads
  handed to `Pool()->Run`.
* The concurrent behaviour is a step function over `System`, which adds to the
  member data the program counter of every thread and the observation logs.
-/

namespace MtpQueue

/-- Number of values of a `size_t` on the supported 64-bit targets, `2 ^ 64`. -/
def SizeMod : Nat := 18446744073709551616

/-- The decrement `--x` of a `size_t`: `0` wraps to `2 ^ 64 - 1` (for `x` in
range this is `(x + (2 ^ 64 - 1)) % 2 ^ 64`). -/
def decrSize (x : Nat) : Nat := if x = 0 then SizeMod - 1 else x - 1

/-- The increment `++x` of a `size_t`: `2 ^ 64 - 1` wraps to `0` (for `x` in
range this is `(x + 1) % 2 ^ 64`). -/
def incrSize (x : Nat) : Nat := if x + 1 = SizeMod then 0 else x + 1

/-- The conversion `(size_t)x` of a signed machine word: `x` modulo `2 ^ 64`. -/
def toSize (x : Int) : Nat := (x % (SizeMod : Int)).toNat

/-- A work item, `IObjectInQueue`: its identity and what its `Process` does
when called (`raises = some msg`: it throws an exception with message `msg`). -/
structure IObjectInQueue where
  id : Nat
  raises : Option String
deriving DecidableEq, Repr

/-- Result of calling `obj->Process(tsr)`. -/
def IObjectInQueue.Process (obj : IObjectInQueue) : Except String Unit :=
  match obj.raises with
  | none => Except.ok ()
  | some msg => Except.error msg

/-- How a call ends: it returns, it raises, or it is suspended on a condition
variable (and resumes from the same wait loop later). -/
inductive Call (α : Type) where
  | returned (a : α)
  | raised (msg : String)
  | blocked
deriving DecidableEq, Repr

/-- Things a call does on the calling thread that are visible outside the
queue object. -/
inductive Effect where
  | process (obj : IObjectInQueue)
  | run
deriving DecidableEq, Repr

/-- The two nested `try` blocks around `Process` in both worker loops:
`try { try { job->Process(tsr); } catch (...) { Cdbg << name << msg; } } catch (...) {}`.
`cdbgOk` tells whether writing to `Cdbg` succeeds.  The result is the outcome
seen by the loop body and the lines written to `Cdbg`. -/
def guardedProcess (name : String) (job : IObjectInQueue) (cdbgOk : Bool) :
    Except String Unit × List String :=
  let inner : Except String Unit × List String :=
    match job.Process with
    | Except.ok () => (Except.ok (), [])
    | Except.error msg =>
        if cdbgOk then (Except.ok (), [name ++ " " ++ msg])
        else (Except.error "Cdbg write failed", [])
  match inner.1 with
  | Except.ok () => (Except.ok (), inner.2)
  | Except.error _ => (Except.ok (), inner.2)

/-! ## `TMtpQueue::TImpl` -/

namespace TMtpQueue

/-- Member data of `TMtpQueue::TImpl` (`Parent_`, the mutexes and the
condition variables carry no data). `Tharr` holds one handle per thread
returned by `Pool()->Run(this)`. -/
structure TImpl where
  Blocking : Bool
  Queue : List IObjectInQueue
  Tharr : List Nat
  ShouldTerminate : Bool
  MaxQueueSize : Nat
  ThreadCountExpected : Nat
  ThreadCountReal : Nat
  Forked : Bool
deriving DecidableEq, Repr

namespace TImpl

/-- Member initialisers of the constructor (before `Start` is called). -/
def initial (blocking : Bool) : TImpl :=
  { Blocking := blocking, Queue := [], Tharr := [], ShouldTerminate := true,
    MaxQueueSize := 0, ThreadCountExpected := 0, ThreadCountReal := 0, Forked := false }

/-- `TImpl::Start(num, maxque)`: clears the shutdown flag, records the limits
and runs `num` threads. -/
def Start (s : TImpl) (num maxque : Nat) : TImpl × List Effect :=
  let tharr := s.Tharr ++ List.range num
  ({ s with ShouldTerminate := false, MaxQueueSize := maxque, ThreadCountExpected := num,
            Tharr := tharr, ThreadCountReal := tharr.length },
   List.replicate num Effect.run)

/-- The constructor `TImpl(parent, thrnum, maxqueue, blocking)`. -/
def create (thrnum maxqueue : Nat) (blocking : Bool) : TImpl × List Effect :=
  Start (initial blocking) thrnum maxqueue

/-- `TImpl::Size()`. -/
def Size (s : TImpl) : Nat := s.Queue.length

/-- `TImpl::GetMaxQueueSize()`. -/
def GetMaxQueueSize (s : TImpl) : Nat := s.MaxQueueSize

/-- `TImpl::GetThreadCountExpected()`. -/
def GetThreadCountExpected (s : TImpl) : Nat := s.ThreadCountExpected

/-- `TImpl::AtforkAction()`. -/
def AtforkAction (s : TImpl) : TImpl := { s with Forked := true }

/-- `TImpl::NeedRestart()`. -/
def NeedRestart (s : TImpl) : Bool := s.Forked

/-- The lock-free head of `TImpl::Add` (the two `if`s before `with_lock`).
`some r`: the call is over with result `r`; `none`: the call goes on to the
locked region. -/
def AddHead (s : TImpl) (obj : IObjectInQueue) : Option (Call Bool × TImpl × List Effect) :=
  if s.ShouldTerminate then
    some (Call.returned false, s, [])
  else if s.Tharr.isEmpty then
    match obj.Process with
    | Except.ok () => some (Call.returned true, s, [Effect.process obj])
    | Except.error msg => some (Call.raised msg, s, [Effect.process obj])
  else
    none

/-- The region of `TImpl::Add` run under `QueueMutex`, from the wait loop to
`Queue.Push(obj)`.  `Call.blocked` is `QueuePopCond.Wait(QueueMutex)`. -/
def AddLocked (s : TImpl) (obj : IObjectInQueue) : Call Bool × TImpl :=
  if 0 < s.MaxQueueSize ∧ s.MaxQueueSize ≤ s.Queue.length ∧ s.ShouldTerminate = false then
    if s.Blocking = false then (Call.returned false, s)
    else (Call.blocked, s)
  else if s.ShouldTerminate then
    (Call.returned false, s)
  else
    (Call.returned true, { s with Queue := s.Queue ++ [obj] })

/-- `TImpl::Add(obj)` run without interference from other threads. -/
def Add (s : TImpl) (obj : IObjectInQueue) : Call Bool × TImpl × List Effect :=
  match AddHead s obj with
  | some r => r
  | none =>
      let r := AddLocked s obj
      (r.1, r.2, [])

/-- First part of `TImpl::Stop()`: the shutdown flag is set and the producers
waiting on `QueuePopCond` are woken. -/
def StopBegin (s : TImpl) : TImpl := { s with ShouldTerminate := true }

/-- Whether `Stop()` may go past `if (!NeedRestart()) WaitForComplete();`:
either the wait is skipped or `ThreadCountReal` was read as zero. -/
def StopMayProceed (s : TImpl) : Bool := s.NeedRestart || s.ThreadCountReal == 0

/-- Last part of `TImpl::Stop()`, after the wait. -/
def StopEnd (s : TImpl) : TImpl :=
  { s with Tharr := [], ThreadCountExpected := 0, MaxQueueSize := 0 }

/-- `TImpl::FinishOneThread()`: `--ThreadCountReal` on a `size_t`. -/
def FinishOneThread (s : TImpl) : TImpl :=
  { s with ThreadCountReal := decrSize s.ThreadCountReal }

end TImpl
end TMtpQueue

/-! ## The concurrent system around one `TMtpQueue::TImpl` -/

namespace TMtpQueue

namespace TImpl

/-- The region of `DoExecute` run under `QueueMutex`.  With an empty queue the
worker either waits on `QueuePushCond` (`Call.blocked`) or, when the shutdown
flag is set, leaves the loop (`none`); with a non-empty queue neither the wait
loop nor the `break` applies and the head is popped. -/
def DoExecuteLocked (s : TImpl) : Call (Option IObjectInQueue) × TImpl :=
  match s.Queue with
  | [] => if s.ShouldTerminate then (Call.returned none, s) else (Call.blocked, s)
  | job :: rest => (Call.returned (some job), { s with Queue := rest })

end TImpl

/-- Where a worker thread is in `TImpl::DoExecute`. -/
inductive WorkerPc where
  /-- At the head of `while (true)`, before or inside the locked region. -/
  | loop
  /-- A job is popped and `QueueMutex` released; `Process` is not yet called. -/
  | popped (job : IObjectInQueue)
  /-- The `break` was taken; `FinishOneThread` has not run yet. -/
  | leaving
  /-- The thread function is over. -/
  | finished
deriving DecidableEq, Repr

/-- Where the thread destroying the `TImpl` is in `TImpl::Stop()`. -/
inductive StopPc where
  | idle
  | waiting
  | finished
deriving DecidableEq, Repr

/-- One `TImpl` together with its threads and the observation logs.
`adders` are the `Add` calls that went past the lock-free head and have not
left the locked region; `processed` lists the `Process` invocations in the
order they were made, `added` the objects whose `Add` comes back with `true`
(in the order of their pushes), `cdbg` the lines written to `Cdbg`. -/
structure System where
  impl : TImpl
  workers : List WorkerPc
  adders : List IObjectInQueue
  stop : StopPc
  processed : List IObjectInQueue
  added : List IObjectInQueue
  cdbg : List String
deriving DecidableEq, Repr

/-- Atomic steps of the threads. -/
inductive Action where
  /-- A producer runs the lock-free head of `Add(obj)`. -/
  | addEnter (obj : IObjectInQueue)
  /-- The `k`-th pending `Add` runs its locked region to the end. -/
  | addLocked (k : Nat)
  /-- Worker `i` runs the locked region of its loop. -/
  | workerLocked (i : Nat)
  /-- Worker `i` calls `Process` on the job it popped. -/
  | workerProcess (i : Nat) (cdbgOk : Bool)
  /-- Worker `i` runs `FinishOneThread`. -/
  | finishOneThread (i : Nat)
  /-- The destructor enters `Stop()`. -/
  | stopBegin
  /-- The destructor gets past the wait of `Stop()` and finishes it. -/
  | stopEnd
  /-- The at-fork handler runs in the child of a `fork()`. -/
  | atfork
deriving DecidableEq, Repr

/-- Objects of the `Process` effects of a call. -/
def processedOf (effs : List Effect) : List IObjectInQueue :=
  effs.filterMap (fun e => match e with
    | Effect.process obj => some obj
    | Effect.run => none)

/-- The system right after the constructor of `TImpl`. -/
def System.start (thrnum maxqueue : Nat) (blocking : Bool) : System :=
  { impl := (TImpl.create thrnum maxqueue blocking).1,
    workers := List.replicate thrnum WorkerPc.loop,
    adders := [], stop := StopPc.idle, processed := [], added := [], cdbg := [] }

/-- Worker `i` runs the locked region of its loop. -/
def workerLocked (σ : System) (i : Nat) : Option System :=
  match σ.workers[i]? with
  | some WorkerPc.loop =>
      match σ.impl.DoExecuteLocked with
      | (Call.returned (some job), s) =>
          some { σ with impl := s, workers := σ.workers.set i (WorkerPc.popped job) }
      | (Call.returned none, s) =>
          some { σ with impl := s, workers := σ.workers.set i WorkerPc.leaving }
      | _ => none
  | _ => none

/-- Worker `i` runs the guarded `job->Process(*tsr)` outside the lock.  Were an
exception to leave the guard, it would leave `DoExecute` and end the thread
without `FinishOneThread`. -/
def workerProcess (σ : System) (i : Nat) (cdbgOk : Bool) : Option System :=
  match σ.workers[i]? with
  | some (WorkerPc.popped job) =>
      let r := guardedProcess "[mtp queue]" job cdbgOk
      match r.1 with
      | Except.ok () =>
          some { σ with workers := σ.workers.set i WorkerPc.loop,
                        processed := σ.processed ++ [job], cdbg := σ.cdbg ++ r.2 }
      | Except.error _ =>
          some { σ with workers := σ.workers.set i WorkerPc.finished,
                        processed := σ.processed ++ [job], cdbg := σ.cdbg ++ r.2 }
  | _ => none

/-- Worker `i`, out of its loop, runs `FinishOneThread` and ends. -/
def finishOneThread (σ : System) (i : Nat) : Option System :=
  match σ.workers[i]? with
  | some WorkerPc.leaving =>
      some { σ with impl := σ.impl.FinishOneThread,
                    workers := σ.workers.set i WorkerPc.finished }
  | _ => none

/-- One atomic step; `none` when the step is not enabled.  Nothing runs on a
destroyed object, and no worker thread exists in the child of a `fork()`. -/
def step (σ : System) (a : Action) : Option System :=
  if σ.stop = StopPc.finished then none
  else
    match a with
    | Action.addEnter obj =>
        match σ.impl.AddHead obj with
        | some r =>
            some { σ with impl := r.2.1, processed := σ.processed ++ processedOf r.2.2,
                          added := σ.added ++ (if r.1 = Call.returned true then [obj] else []) }
        | none => some { σ with adders := σ.adders ++ [obj] }
    | Action.addLocked k =>
        match σ.adders[k]? with
        | none => none
        | some obj =>
            match σ.impl.AddLocked obj with
            | (Call.returned true, s) =>
                some { σ with impl := s, adders := σ.adders.eraseIdx k, added := σ.added ++ [obj] }
            | (Call.returned false, s) =>
                some { σ with impl := s, adders := σ.adders.eraseIdx k }
            | _ => none
    | Action.workerLocked i => if σ.impl.Forked then none else workerLocked σ i
    | Action.workerProcess i cdbgOk => if σ.impl.Forked then none else workerProcess σ i cdbgOk
    | Action.finishOneThread i => if σ.impl.Forked then none else finishOneThread σ i
    | Action.stopBegin =>
        if σ.stop = StopPc.idle then
          some { σ with impl := σ.impl.StopBegin, stop := StopPc.waiting }
        else none
    | Action.stopEnd =>
        if σ.stop = StopPc.waiting ∧ σ.impl.StopMayProceed = true then
          some { σ with impl := σ.impl.StopEnd, stop := StopPc.finished }
        else none
    | Action.atfork =>
        if σ.stop = StopPc.idle then
          some { σ with impl := σ.impl.AtforkAction, adders := [] }
        else none

/-- Runs a schedule from a state; `none` when some step is not enabled. -/
def run (σ : System) : List Action → Option System
  | [] => some σ
  | a :: rest =>
      match step σ a with
      | none => none
      | some σ1 => run σ1 rest

/-- States the system can be in after the constructor ran with the given
arguments. -/
inductive Reachable (thrnum maxqueue : Nat) (blocking : Bool) : System → Prop where
  | start : Reachable thrnum maxqueue blocking (System.start thrnum maxqueue blocking)
  | next (σ σ1 : System) (a : Action) :
      Reachable thrnum maxqueue blocking σ → step σ a = some σ1 →
      Reachable thrnum maxqueue blocking σ1

/-- Jobs a worker holds between its pop and its `Process` call. -/
def WorkerPc.inHand : WorkerPc → List IObjectInQueue
  | WorkerPc.popped job => [job]
  | _ => []

/-- Jobs popped and not yet handed to `Process`, by worker index. -/
def System.inFlight (σ : System) : List IObjectInQueue :=
  σ.workers.flatMap WorkerPc.inHand

/-- Number of workers whose thread function has not finished. -/
def liveWorkers : List WorkerPc → Nat
  | [] => 0
  | w :: ws => (if w = WorkerPc.finished then 0 else 1) + liveWorkers ws

end TMtpQueue

/-- The object `TMtpQueue`: the `Blocking` flag and the holder `Impl_`. -/
structure TMtpQueue where
  Blocking : Bool
  Impl_ : Option TMtpQueue.TImpl
deriving DecidableEq, Repr

namespace TMtpQueue

/-- `TMtpQueue::Size()`. -/
def Size (q : TMtpQueue) : Nat :=
  match q.Impl_ with
  | none => 0
  | some impl => impl.Size

/-- `TMtpQueue::Start(thrnum, maxque)`: `Impl_.Reset(new TImpl(...))`. -/
def Start (q : TMtpQueue) (thrnum maxque : Nat) : TMtpQueue × List Effect :=
  let r := TImpl.create thrnum maxque q.Blocking
  ({ q with Impl_ := some r.1 }, r.2)

/-- `TMtpQueue::Stop()`: `Impl_.Destroy()`.  The call returns when the
destructor of `TImpl`, hence `TImpl::Stop()`, has returned. -/
def Stop (q : TMtpQueue) : TMtpQueue := { q with Impl_ := none }

/-- `TMtpQueue::Add(obj)`. -/
def Add (q : TMtpQueue) (obj : IObjectInQueue) : Call Bool × TMtpQueue × List Effect :=
  match q.Impl_ with
  | none => (Call.raised "mtp queue not started", q, [])
  | some impl =>
      let started : TMtpQueue × List Effect :=
        if impl.NeedRestart then q.Start impl.GetThreadCountExpected impl.GetMaxQueueSize
        else (q, [])
      match started.1.Impl_ with
      | none => (Call.raised "mtp queue not started", started.1, started.2)
      | some cur =>
          let r := cur.Add obj
          (r.1, { started.1 with Impl_ := some r.2.1 }, started.2 ++ r.2.2)

end TMtpQueue

/-! ## `TAdaptiveMtpQueue::TImpl` -/

namespace TAdaptiveMtpQueue

/-- Member data of `TAdaptiveMtpQueue::TImpl` (`Parent_`, the mutex and the
condition variables carry no data).  `ThrCount_` is a `TAtomic`, a signed
machine word; `IdleTime_` is a `TDuration` in microseconds. -/
structure TImpl where
  ThrCount_ : Int
  AllDone_ : Bool
  Obj_ : Option IObjectInQueue
  Free_ : Nat
  Name_ : String
  IdleTime_ : Nat
deriving DecidableEq, Repr

namespace TImpl

/-- The constructor `TImpl(parent)`; `counter` is the value returned by
`AtomicAdd(mtp_queue_counter, 1)` and `IdleTime_` starts as `TDuration::Max()`. -/
def create (counter : Nat) : TImpl :=
  { ThrCount_ := 0, AllDone_ := false, Obj_ := none, Free_ := 0,
    Name_ := "[mtp queue " ++ toString counter ++ "]", IdleTime_ := SizeMod - 1 }

/-- `TImpl::SetMaxIdleTime(idleTime)`. -/
def SetMaxIdleTime (s : TImpl) (idleTime : Nat) : TImpl := { s with IdleTime_ := idleTime }

/-- `TImpl::Name()`. -/
def Name (s : TImpl) : String := s.Name_

/-- `TImpl::IncThreadCount()`. -/
def IncThreadCount (s : TImpl) : TImpl := { s with ThrCount_ := s.ThrCount_ + 1 }

/-- `TImpl::DecThreadCount()`. -/
def DecThreadCount (s : TImpl) : TImpl := { s with ThrCount_ := s.ThrCount_ + -1 }

/-- `TImpl::AddThreadNoLock()`.  `spawnOk` tells whether `new TThread(this)`,
that is `Pool()->Run`, succeeds; when it fails the count is taken back and the
exception goes on to the caller. -/
def AddThreadNoLock (s : TImpl) (spawnOk : Bool) : Except String TImpl × TImpl × List Effect :=
  let s1 := s.IncThreadCount
  if spawnOk then (Except.ok s1, s1, [Effect.run])
  else (Except.error "can not create thread", s1.DecThreadCount, [])

/-- `TImpl::Add(obj)`; the whole body but the final `CondReady_.Signal()` runs
under `Mutex_`.  `Call.blocked` is `CondFree_.Wait(Mutex_)`. -/
def Add (s : TImpl) (obj : IObjectInQueue) (spawnOk : Bool) : Call Unit × TImpl × List Effect :=
  if s.Obj_.isSome then
    (Call.blocked, s, [])
  else
    let grown : Except String TImpl × TImpl × List Effect :=
      if s.Free_ = 0 then s.AddThreadNoLock spawnOk else (Except.ok s, s, [])
    match grown.1 with
    | Except.error msg => (Call.raised msg, grown.2.1, grown.2.2)
    | Except.ok s1 =>
        let s2 := { s1 with Obj_ := some obj }
        if s2.AllDone_ then (Call.raised "shit happen", s2, grown.2.2)
        else (Call.returned (), s2, grown.2.2)

/-- `TImpl::Size()`: `(size_t)ThrCount_`. -/
def Size (s : TImpl) : Nat := toSize s.ThrCount_

/-- First part of `TImpl::Stop()`: `AllDone_ = true` under `Mutex_`. -/
def StopBegin (s : TImpl) : TImpl := { s with AllDone_ := true }

/-- Whether the loop `while (AtomicGet(ThrCount_))` of `Stop()` is left. -/
def StopMayProceed (s : TImpl) : Bool := s.ThrCount_ == 0

/-- First part of `TImpl::WaitForJob()`: `++Free_` under `Mutex_`, before the
wait loop releases the mutex. -/
def WaitForJobEnter (s : TImpl) : TImpl := { s with Free_ := incrSize s.Free_ }

/-- The rest of `TImpl::WaitForJob()`, from the moment the wait loop is left:
by a job in the slot, by `AllDone_`, or by the timed wait expiring
(`timedOut`).  `Call.blocked` is `CondReady_.TimedWait`. -/
def WaitForJobLeave (s : TImpl) (timedOut : Bool) : Call (Option IObjectInQueue) × TImpl :=
  if s.Obj_.isNone ∧ s.AllDone_ = false ∧ timedOut = false then
    (Call.blocked, s)
  else
    (Call.returned s.Obj_,
     { s with Obj_ := none, Free_ := decrSize s.Free_ })

end TImpl

/-- Where a thread is in `TThread::DoExecute`. -/
inductive ThreadPc where
  /-- About to call `WaitForJob` (just created, or back from `Process`). -/
  | calling
  /-- Inside `WaitForJob`, counted in `Free_`. -/
  | waiting
  /-- `WaitForJob` returned a job; `Process` is not yet called. -/
  | running (obj : IObjectInQueue)
  /-- `WaitForJob` returned `nullptr`; the `TThread` is not yet destroyed. -/
  | exiting
  /-- The `TThread` is destroyed (`DecThreadCount` has run). -/
  | gone
deriving DecidableEq, Repr

/-- One adaptive `TImpl` together with its threads and the observation logs:
`submitted` lists the objects put into the slot, `taken` those returned by
`WaitForJob`, `processed` the `Process` invocations, `cdbg` the lines written
to `Cdbg`. -/
structure System where
  impl : TImpl
  threads : List ThreadPc
  stop : TMtpQueue.StopPc
  submitted : List IObjectInQueue
  taken : List IObjectInQueue
  processed : List IObjectInQueue
  cdbg : List String
deriving DecidableEq, Repr

/-- Atomic steps of the threads. -/
inductive Action where
  /-- A producer runs the locked body of `Add(obj)`. -/
  | add (obj : IObjectInQueue) (spawnOk : Bool)
  /-- Thread `i` enters `WaitForJob`. -/
  | waitEnter (i : Nat)
  /-- Thread `i` leaves `WaitForJob`. -/
  | waitLeave (i : Nat) (timedOut : Bool)
  /-- Thread `i` calls `Process` on the job it was given. -/
  | process (i : Nat) (cdbgOk : Bool)
  /-- Thread `i` leaves `DoExecute`; its `TThread` is destroyed. -/
  | destroy (i : Nat)
  /-- The destructor enters `Stop()`. -/
  | stopBegin
  /-- The destructor leaves `Stop()`. -/
  | stopEnd
deriving DecidableEq, Repr

/-- The system right after the constructor of `TImpl`. -/
def System.start (counter : Nat) : System :=
  { impl := TImpl.create counter, threads := [], stop := TMtpQueue.StopPc.idle,
    submitted := [], taken := [], processed := [], cdbg := [] }

/-- The locked body of `Add(obj)` run by a producer.  A thread created by it
starts at the head of `DoExecute`. -/
def addStep (σ : System) (obj : IObjectInQueue) (spawnOk : Bool) : Option System :=
  let r := σ.impl.Add obj spawnOk
  let threads := if Effect.run ∈ r.2.2 then σ.threads ++ [ThreadPc.calling] else σ.threads
  match r.1 with
  | Call.blocked => none
  | Call.returned () =>
      some { σ with impl := r.2.1, threads := threads, submitted := σ.submitted ++ [obj] }
  | Call.raised _ =>
      some { σ with impl := r.2.1, threads := threads,
                    submitted := if r.2.1.Obj_ = some obj then σ.submitted ++ [obj]
                                 else σ.submitted }

/-- Thread `i` leaves `WaitForJob`, with a job or with `nullptr`. -/
def waitLeave (σ : System) (i : Nat) (timedOut : Bool) : Option System :=
  match σ.threads[i]? with
  | some ThreadPc.waiting =>
      match σ.impl.WaitForJobLeave timedOut with
      | (Call.returned (some obj), s) =>
          some { σ with impl := s, threads := σ.threads.set i (ThreadPc.running obj),
                        taken := σ.taken ++ [obj] }
      | (Call.returned none, s) =>
          some { σ with impl := s, threads := σ.threads.set i ThreadPc.exiting }
      | _ => none
  | _ => none

/-- Thread `i` runs the guarded `obj->Process(tsr)`.  `DoExecute` is
`noexcept`: an exception leaving the guard would end the thread there. -/
def processStep (σ : System) (i : Nat) (cdbgOk : Bool) : Option System :=
  match σ.threads[i]? with
  | some (ThreadPc.running obj) =>
      let r := guardedProcess σ.impl.Name obj cdbgOk
      match r.1 with
      | Except.ok () =>
          some { σ with threads := σ.threads.set i ThreadPc.calling,
                        processed := σ.processed ++ [obj], cdbg := σ.cdbg ++ r.2 }
      | Except.error _ =>
          some { σ with threads := σ.threads.set i ThreadPc.gone,
                        processed := σ.processed ++ [obj], cdbg := σ.cdbg ++ r.2 }
  | _ => none

/-- One atomic step; `none` when the step is not enabled.  Nothing runs on a
destroyed object. -/
def step (σ : System) (a : Action) : Option System :=
  if σ.stop = TMtpQueue.StopPc.finished then none
  else
    match a with
    | Action.add obj spawnOk => addStep σ obj spawnOk
    | Action.waitEnter i =>
        match σ.threads[i]? with
        | some ThreadPc.calling =>
            some { σ with impl := σ.impl.WaitForJobEnter,
                          threads := σ.threads.set i ThreadPc.waiting }
        | _ => none
    | Action.waitLeave i timedOut => waitLeave σ i timedOut
    | Action.process i cdbgOk => processStep σ i cdbgOk
    | Action.destroy i =>
        match σ.threads[i]? with
        | some ThreadPc.exiting =>
            some { σ with impl := σ.impl.DecThreadCount,
                          threads := σ.threads.set i ThreadPc.gone }
        | _ => none
    | Action.stopBegin =>
        if σ.stop = TMtpQueue.StopPc.idle then
          some { σ with impl := σ.impl.StopBegin, stop := TMtpQueue.StopPc.waiting }
        else none
    | Action.stopEnd =>
        if σ.stop = TMtpQueue.StopPc.waiting ∧ σ.impl.StopMayProceed = true then
          some { σ with stop := TMtpQueue.StopPc.finished }
        else none

/-- Runs a schedule from a state; `none` when some step is not enabled. -/
def run (σ : System) : List Action → Option System
  | [] => some σ
  | a :: rest =>
      match step σ a with
      | none => none
      | some σ1 => run σ1 rest

/-- States the system can be in after the constructor ran. -/
inductive Reachable (counter : Nat) : System → Prop where
  | start : Reachable counter (System.start counter)
  | next (σ σ1 : System) (a : Action) :
      Reachable counter σ → step σ a = some σ1 → Reachable counter σ1

/-- Number of `TThread` objects that exist (created and not yet destroyed). -/
def liveThreads : List ThreadPc → Nat
  | [] => 0
  | t :: ts => (if t = ThreadPc.gone then 0 else 1) + liveThreads ts

/-- Number of submitted items that no worker has taken yet. -/
def System.pending (σ : System) : Nat := σ.submitted.length - σ.taken.length

end TAdaptiveMtpQueue

/-- The object `TAdaptiveMtpQueue`: the holder `Impl_`. -/
structure TAdaptiveMtpQueue where
  Impl_ : Option TAdaptiveMtpQueue.TImpl
deriving DecidableEq, Repr

namespace TAdaptiveMtpQueue

/-- `TAdaptiveMtpQueue::Add(obj)`. -/
def Add (q : TAdaptiveMtpQueue) (obj : IObjectInQueue) (spawnOk : Bool) :
    Call Bool × TAdaptiveMtpQueue × List Effect :=
  match q.Impl_ with
  | none => (Call.raised "mtp queue not started", q, [])
  | some impl =>
      let r := impl.Add obj spawnOk
      match r.1 with
      | Call.returned () => (Call.returned true, { q with Impl_ := some r.2.1 }, r.2.2)
      | Call.raised msg => (Call.raised msg, { q with Impl_ := some r.2.1 }, r.2.2)
      | Call.blocked => (Call.blocked, { q with Impl_ := some r.2.1 }, r.2.2)

/-- `TAdaptiveMtpQueue::Start(size_t, size_t)`: both arguments are ignored;
`counter` is the value drawn from `mtp_queue_counter`. -/
def Start (q : TAdaptiveMtpQueue) (_thrnum _maxque : Nat) (counter : Nat) : TAdaptiveMtpQueue :=
  { q with Impl_ := some (TImpl.create counter) }

/-- `TAdaptiveMtpQueue::Stop()`: `Impl_.Destroy()`.  The call returns when the
destructor of `TImpl`, hence `TImpl::Stop()`, has returned. -/
def Stop (q : TAdaptiveMtpQueue) : TAdaptiveMtpQueue := { q with Impl_ := none }

/-- `TAdaptiveMtpQueue::Size()`. -/
def Size (q : TAdaptiveMtpQueue) : Nat :=
  match q.Impl_ with
  | some impl => impl.Size
  | none => 0

/-- `TAdaptiveMtpQueue::SetMaxIdleTime(interval)`. -/
def SetMaxIdleTime (q : TAdaptiveMtpQueue) (interval : Nat) : Call Unit × TAdaptiveMtpQueue :=
  match q.Impl_ with
  | none => (Call.raised "mtp queue not started", q)
  | some impl => (Call.returned (), { q with Impl_ := some (impl.SetMaxIdleTime interval) })

end TAdaptiveMtpQueue

/-! ## `TSimpleMtpQueue` -/

/-- The queue a `TSimpleMtpQueue` owns through `Slave_` (a `THolder<IMtpQueue>`):
a `TMtpQueue` or a `TAdaptiveMtpQueue`. -/
inductive IMtpQueue where
  | fixed (q : TMtpQueue)
  | adaptive (q : TAdaptiveMtpQueue)
deriving DecidableEq, Repr

/-- The object `TSimpleMtpQueue`: the holder `Slave_`. -/
structure TSimpleMtpQueue where
  Slave_ : Option IMtpQueue
deriving DecidableEq, Repr

namespace TSimpleMtpQueue

/-- `TSimpleMtpQueue::Start(thrnum, maxque)`.  With `thrnum != 0` the slave is
a `TMtpQueue`, otherwise a `TAdaptiveMtpQueue` whose idle time is set to 100
seconds.  `blocking` is the default of the `blocking` argument of the
`TMtpQueue` constructor (declared in `queue.h`), `counter` the value drawn from
`mtp_queue_counter`. -/
def Start (_q : TSimpleMtpQueue) (thrnum maxque : Nat) (blocking : Bool) (counter : Nat) :
    TSimpleMtpQueue × List Effect :=
  if thrnum ≠ 0 then
    let r := (TMtpQueue.mk blocking none).Start thrnum maxque
    ({ Slave_ := some (IMtpQueue.fixed r.1) }, r.2)
  else
    let a := (TAdaptiveMtpQueue.mk none).Start thrnum maxque counter
    ({ Slave_ := some (IMtpQueue.adaptive (a.SetMaxIdleTime 100000000).2) }, [])

/-- `TSimpleMtpQueue::Stop()`: `Slave_.Destroy()`. -/
def Stop (q : TSimpleMtpQueue) : TSimpleMtpQueue := { q with Slave_ := none }

/-- `TSimpleMtpQueue::Size()`. -/
def Size (q : TSimpleMtpQueue) : Nat :=
  match q.Slave_ with
  | some (IMtpQueue.fixed s) => s.Size
  | some (IMtpQueue.adaptive s) => s.Size
  | none => 0

end TSimpleMtpQueue

/-! ## Invariants of the concurrent systems -/

namespace TMtpQueue

/-- The facts that hold in every state of a system whose constructor ran with
`thrnum = n` and `maxqueue = K`. -/
structure Inv (n K : Nat) (σ : System) : Prop where
  workers_len : σ.workers.length = n
  tharr : σ.stop ≠ StopPc.finished → σ.impl.Tharr = List.range n
  maxq : σ.stop ≠ StopPc.finished → σ.impl.MaxQueueSize = K
  flag : σ.stop ≠ StopPc.idle → σ.impl.ShouldTerminate = true
  cap : 0 < K → σ.impl.Queue.length ≤ K
  left : ∀ w ∈ σ.workers, w = WorkerPc.leaving ∨ w = WorkerPc.finished →
    σ.impl.ShouldTerminate = true ∧ σ.impl.Queue = []
  count : n < SizeMod → σ.impl.ThreadCountReal = liveWorkers σ.workers
  stopped : σ.stop = StopPc.finished → σ.impl.Forked = false → σ.impl.ThreadCountReal = 0
  perm : 0 < n → (σ.processed ++ σ.inFlight ++ σ.impl.Queue).Perm σ.added
  fifo : n = 1 → σ.processed ++ σ.inFlight ++ σ.impl.Queue = σ.added

end TMtpQueue

/-! ## Schedules used as examples -/

namespace TMtpQueue

/-- A work item that returns normally, identified by its index. -/
def item (k : Nat) : IObjectInQueue := { id := k, raises := none }

/-- Every object is submitted by one producer: head of `Add`, then its locked region. -/
def submitAll : List IObjectInQueue → List Action
  | [] => []
  | x :: rest => Action.addEnter x :: Action.addLocked 0 :: submitAll rest

/-- Worker 0 pops and processes `k` times. -/
def drainAll : Nat → List Action
  | 0 => []
  | k + 1 => Action.workerLocked 0 :: Action.workerProcess 0 true :: drainAll k

/-- The scenario of the specification: all objects are submitted to a queue
with one worker, which then pops and processes one object after the other. -/
def scenario (xs : List IObjectInQueue) : List Action :=
  submitAll xs ++ drainAll xs.length


/-- The state the scenario ends in: everything submitted was processed, in
the order of submission. -/
def scenarioEnd (xs : List IObjectInQueue) : System :=
  { impl := { Blocking := false, Queue := [], Tharr := [0], ShouldTerminate := false,
              MaxQueueSize := 0, ThreadCountExpected := 1, ThreadCountReal := 1,
              Forked := false },
    workers := [WorkerPc.loop], adders := [], stop := StopPc.idle,
    processed := xs, added := xs, cdbg := [] }

/-- The thousand items of the scenario, in submission order. -/
def thousandItems : List IObjectInQueue := (List.range 1000).map item

end TMtpQueue

namespace TMtpQueue

/-- A schedule on a queue with one worker: two objects are submitted, the
first is popped and processed, then the queue is destroyed while the second is
still queued. -/
def drainSchedule : List Action :=
  [Action.addEnter (item 0), Action.addLocked 0, Action.addEnter (item 1), Action.addLocked 0,
   Action.workerLocked 0, Action.workerProcess 0 true, Action.stopBegin,
   Action.workerLocked 0, Action.workerProcess 0 true, Action.workerLocked 0,
   Action.finishOneThread 0, Action.stopEnd]

/-- The state `drainSchedule` ends in. -/
def drainDemo : System :=
  { impl := { Blocking := false, Queue := [], Tharr := [], ShouldTerminate := true,
              MaxQueueSize := 0, ThreadCountExpected := 0, ThreadCountReal := 0,
              Forked := false },
    workers := [WorkerPc.finished], adders := [], stop := StopPc.finished,
    processed := [item 0, item 1], added := [item 0, item 1], cdbg := [] }

/-- A full queue of capacity two with a third producer waiting. -/
def fullDemo : System :=
  { impl := { Blocking := true, Queue := [item 0, item 1], Tharr := [0], ShouldTerminate := false,
              MaxQueueSize := 2, ThreadCountExpected := 1, ThreadCountReal := 1,
              Forked := false },
    workers := [WorkerPc.loop], adders := [item 2], stop := StopPc.idle,
    processed := [], added := [item 0, item 1], cdbg := [] }

/-- The schedule that leads to `fullDemo`. -/
def fullSchedule : List Action :=
  [Action.addEnter (item 0), Action.addLocked 0, Action.addEnter (item 1), Action.addLocked 0,
   Action.addEnter (item 2)]

end TMtpQueue

/-! ## Sequences of calls on the queue objects -/

namespace TMtpQueue

/-- The queue object after `Add` was called for every object of the list, one
call after the other (whatever each call returned or raised). -/
def addAll (q : TMtpQueue) (objs : List IObjectInQueue) : TMtpQueue :=
  objs.foldl (fun acc o => (acc.Add o).2.1) q

/-- A started queue without worker threads whose shutdown flag is clear: the
state `Start(0, maxque)` leaves behind. -/
def InlineMode (q : TMtpQueue) : Prop :=
  ∃ impl, q.Impl_ = some impl ∧ impl.Tharr = [] ∧ impl.ThreadCountExpected = 0 ∧
    impl.ShouldTerminate = false ∧ impl.Queue = []

/-- A work item whose `Process` throws. -/
def failing (k : Nat) (msg : String) : IObjectInQueue := { id := k, raises := some msg }

end TMtpQueue

/-! ## Example states of the two systems -/

namespace TMtpQueue

/-- A queue with one worker that has popped an item whose `Process` throws. -/
def poppedDemo : System :=
  { impl := (TImpl.create 1 0 false).1, workers := [WorkerPc.popped (failing 1 "boom")],
    adders := [], stop := StopPc.idle, processed := [], added := [failing 1 "boom"], cdbg := [] }

end TMtpQueue

namespace TAdaptiveMtpQueue

/-- One object is submitted to a fresh adaptive queue and the thread created
for it takes the object out of the slot. -/
def handSchedule : List Action :=
  [Action.add (TMtpQueue.item 0) true, Action.waitEnter 0, Action.waitLeave 0 false]

/-- The state `handSchedule` ends in: the slot is empty again and one thread
exists. -/
def handedDemo : System :=
  { impl := { TImpl.create 1 with ThrCount_ := 1 },
    threads := [ThreadPc.running (TMtpQueue.item 0)], stop := TMtpQueue.StopPc.idle,
    submitted := [TMtpQueue.item 0], taken := [TMtpQueue.item 0], processed := [], cdbg := [] }

/-- An adaptive queue whose only thread was given an item whose `Process`
throws. -/
def runningDemo : System :=
  { impl := { TImpl.create 1 with ThrCount_ := 1 },
    threads := [ThreadPc.running (TMtpQueue.failing 1 "boom")], stop := TMtpQueue.StopPc.idle,
    submitted := [TMtpQueue.failing 1 "boom"], taken := [TMtpQueue.failing 1 "boom"],
    processed := [], cdbg := [] }

end TAdaptiveMtpQueue


/-! ## The hand-off slot of the adaptive queue -/

namespace TAdaptiveMtpQueue

/-- Number of threads of a list, each counted with the weight `w`. -/
def countThreads (w : ThreadPc → Nat) : List ThreadPc → Nat
  | [] => 0
  | t :: ts => w t + countThreads w ts

/-- Weight 1 for a thread inside `WaitForJob`, between `++Free_` and
`--Free_`. -/
def idleWeight (t : ThreadPc) : Nat := if t = ThreadPc.waiting then 1 else 0

/-- Weight 1 for a thread whose next return from `WaitForJob` is still to
come: it is inside `WaitForJob` or about to call it. -/
def readyWeight (t : ThreadPc) : Nat :=
  if t = ThreadPc.calling ∨ t = ThreadPc.waiting then 1 else 0

/-- What holds of the slot `Obj_` and of the counters in every state of the
system: `ThrCount_` is the number of threads that exist; the objects put into
the slot are those returned by `WaitForJob`, in order, followed by the one in
the slot; `Free_` is the number of threads inside `WaitForJob` (as a
`size_t`); an object in the slot has a thread that is going to return from
`WaitForJob`; no thread is left when `Stop()` has returned. -/
structure HandOff (σ : System) : Prop where
  count : σ.impl.ThrCount_ = (liveThreads σ.threads : Int)
  slot : σ.submitted = σ.taken ++ σ.impl.Obj_.toList
  free : σ.impl.Free_ = countThreads idleWeight σ.threads % SizeMod
  ready : σ.impl.Obj_.isSome = true → 0 < countThreads readyWeight σ.threads
  alive : σ.stop = TMtpQueue.StopPc.finished → liveThreads σ.threads = 0

/-- One object goes through a fresh adaptive queue: the thread created for it
takes it, processes it and enters `WaitForJob` again. -/
def idleSchedule : List Action :=
  [Action.add (TMtpQueue.item 0) true, Action.waitEnter 0, Action.waitLeave 0 false,
   Action.process 0 true, Action.waitEnter 0]

/-- The state `idleSchedule` ends in: the slot is empty and the only thread is
idle inside `WaitForJob`. -/
def idleDemo : System :=
  { impl := { TImpl.create 1 with ThrCount_ := 1, Free_ := 1 },
    threads := [ThreadPc.waiting], stop := TMtpQueue.StopPc.idle,
    submitted := [TMtpQueue.item 0], taken := [TMtpQueue.item 0],
    processed := [TMtpQueue.item 0], cdbg := [] }

end TAdaptiveMtpQueue
end MtpQueue

/-! # Percent-escaping of `util/string/quote.cpp` -/

namespace Quoting

/-- A `char` seen as `unsigned char`. -/
abbrev Byte := Fin 256

/-- The table `chars_to_url_escape[256]`, one entry per byte value. -/
def chars_to_url_escape : List Bool :=
  [true, true, true, true, true, true, true, true, true, true, true, true, true, true, true, true,
   true, true, true, true, true, true, true, true, true, true, true, true, true, true, true, true,
   false, false, true, true, false, true, true, true, true, true, false, true, true, false, false, false,
   false, false, false, false, false, false, false, false, false, false, true, false, true, true, true, true,
   false, false, false, false, false, false, false, false, false, false, false, false, false, false, false, false,
   false, false, false, false, false, false, false, false, false, false, false, true, true, true, false, false,
   true, false, false, false, false, false, false, false, false, false, false, false, false, false, false, false,
   false, false, false, false, false, false, false, false, false, false, false, true, true, true, false, true,
   true, true, true, true, true, true, true, true, true, true, true, true, true, true, true, true,
   true, true, true, true, true, true, true, true, true, true, true, true, true, true, true, true,
   true, true, true, true, true, true, true, true, true, true, true, true, true, true, true, true,
   true, true, true, true, true, true, true, true, true, true, true, true, true, true, true, true,
   true, true, true, true, true, true, true, true, true, true, true, true, true, true, true, true,
   true, true, true, true, true, true, true, true, true, true, true, true, true, true, true, true,
   true, true, true, true, true, true, true, true, true, true, true, true, true, true, true, true,
   true, true, true, true, true, true, true, true, true, true, true, true, true, true, true, true]

/-- `d2x(x)`: the upper-case hexadecimal digit of `x`, converted to `char`. -/
def d2x (x : Nat) : Byte := if x < 10 then Fin.ofNat (0x30 + x) else Fin.ofNat (0x41 + x - 10)

/-- What the loop body of `Escape` appends for the byte `x`: the percent sign
and two hexadecimal digits when `escape_map[x]` is set, otherwise `'+'` for a
space and `x` itself for any other byte. -/
def escapeByte (escape_map : List Bool) (x : Byte) : List Byte :=
  if escape_map.getD x.val false then
    [0x25, d2x (x.val >>> 4), d2x (x.val &&& 0xF)]
  else
    [if x = 0x20 then 0x2B else x]

/-- `Escape(to, from, end, escape_map)`: the characters written to `to` before
the terminating zero, for the input range `src`. -/
def Escape (src : List Byte) (escape_map : List Bool) : List Byte :=
  match src with
  | [] => []
  | x :: rest => escapeByte escape_map x ++ Escape rest escape_map

/-- `CGIEscape(to, from, len)`. -/
def CGIEscape (src : List Byte) : List Byte := Escape src chars_to_url_escape

/-- The characters of a zero-terminated `const char*`: those before the first
zero of the buffer. -/
def cstr (buf : List Byte) : List Byte := buf.takeWhile (fun x => x != 0)

/-- The string literal `reserved` of `Quote`, `:/?#[]@!$&'()*+,;=`. -/
def reserved : List Byte :=
  [0x3A, 0x2F, 0x3F, 0x23, 0x5B, 0x5D, 0x40, 0x21, 0x24, 0x26, 0x27, 0x28, 0x29, 0x2A, 0x2B,
   0x2C, 0x3B, 0x3D]

/-- The local `escape_map` of `Quote` after its two loops: a copy of
`chars_to_url_escape` in which the entries of the reserved characters are set
and then the entries of the characters of `safe` are cleared. -/
def quoteMap (safe : List Byte) : List Bool :=
  let withReserved := (cstr (reserved ++ [0])).foldl (fun m p => m.set p.val true)
    chars_to_url_escape
  (cstr safe).foldl (fun m p => m.set p.val false) withReserved

/-- `Quote(to, from, end, safe)` for the input range `src` and the
zero-terminated buffer `safe`. -/
def Quote (src : List Byte) (safe : List Byte) : List Byte := Escape src (quoteMap safe)

/-- The 19 characters listed in the comment above `chars_to_url_escape`:
double quote, bar, parentheses, percent, ampersand, plus, comma, hash, angle
brackets, equals, square brackets, backslash, question mark, colon, braces. -/
def documented : List Byte :=
  [0x22, 0x7C, 0x28, 0x29, 0x25, 0x26, 0x2B, 0x2C, 0x23, 0x3C, 0x3D, 0x3E, 0x5B, 0x5C, 0x5D,
   0x3F, 0x3A, 0x7B, 0x7D]

end Quoting

/-! # Case-insensitive comparison of `util/string/ascii.h` -/

namespace Ascii

/-- The lower-case form of a byte in the "C" locale, as used by `strnicmp`. -/
def toLower (c : Quoting.Byte) : Quoting.Byte :=
  if 0x41 ≤ c.val ∧ c.val ≤ 0x5A then Fin.ofNat (c.val + 0x20) else c

/-- The library function `strnicmp(s1, s2, n)`: at most `n` characters are
compared after lower-casing, and the comparison ends after a zero character. -/
def strnicmp : List Quoting.Byte → List Quoting.Byte → Nat → Int
  | a :: s1, b :: s2, n + 1 =>
      if toLower a ≠ toLower b then ((toLower a).val : Int) - ((toLower b).val : Int)
      else if a = 0 then 0
      else strnicmp s1 s2 n
  | _, _, _ => 0

/-- A `TFixedString<char>`: the characters from `Start` on and the `Length`. -/
structure TFixedString where
  Start : List Quoting.Byte
  Length : Nat
deriving DecidableEq, Repr

/-- The `TFixedString<char>` made of a whole byte string. -/
def TFixedString.ofList (s : List Quoting.Byte) : TFixedString :=
  { Start := s, Length := s.length }

/-- `AsciiEqualsIgnoreCase(const TFixedString<char>, const TFixedString<char>)`. -/
def AsciiEqualsIgnoreCase (s1 s2 : TFixedString) : Bool :=
  s1.Length == s2.Length && strnicmp s1.Start s2.Start s1.Length == 0

end Ascii

/-! # String splitting of `util/string/split.h`

A pointer into a character buffer is the index of the character it points to;
the range `[b, e)` of a buffer is `seg buf b e`.  A consumer is its state
together with `Consume`, which returns the `bool` of the C++ method and the
new state. -/

namespace Split

variable {α : Type}

/-- The characters of `buf` at the positions `b ≤ i < e`. -/
def seg (buf : List α) (b e : Nat) : List α := (buf.drop b).take (e - b)

/-- Index of the first element of a list that satisfies `p`, if there is one. -/
def firstIdx (p : α → Bool) : List α → Option Nat
  | [] => none
  | x :: xs => if p x then some 0 else (firstIdx p xs).map (fun k => k + 1)

/-- Index at which the block `d` first occurs in a list, if it does. -/
def firstOcc [DecidableEq α] (d : List α) : List α → Option Nat
  | [] => if d = [] then some 0 else none
  | x :: xs => if d.isPrefixOf (x :: xs) then some 0
      else (firstOcc d xs).map (fun k => k + 1)

/-- The characters of the zero-terminated string that starts at `b`: those
before the first `nul` at or after `b`. -/
def cstrAt [DecidableEq α] (nul : α) (buf : List α) (b : Nat) : List α :=
  (buf.drop b).takeWhile (fun x => x != nul)

namespace TCharTraits

/-- Modelled from the spec: `TCharTraits<I>::Find(b, ch, n)` of
`util/generic/chartraits.h`, which is not among the sources: the first of the
`n` characters from `b` on that equals `ch`, or null. -/
def FindN [DecidableEq α] (buf : List α) (b : Nat) (ch : α) (n : Nat) : Option Nat :=
  (firstIdx (fun x => x == ch) (seg buf b (b + n))).map (fun k => b + k)

/-- Modelled from the spec: `TCharTraits<I>::Find(b, n, d, len)` of
`util/generic/chartraits.h`, which is not among the sources: the first
position among the `n` characters from `b` on where the `len` characters of
`d` occur, or null. -/
def FindSub [DecidableEq α] (buf : List α) (b n : Nat) (d : List α) : Option Nat :=
  (firstOcc d (seg buf b (b + n))).map (fun k => b + k)

/-- Modelled from the spec: `TCharTraits<I>::GetLength(str)` of
`util/generic/chartraits.h`, which is not among the sources: the number of
characters before the terminating zero. -/
def GetLength [DecidableEq α] (nul : α) (buf : List α) (b : Nat) : Nat := (cstrAt nul buf b).length

/-- Modelled from the spec: `TCharTraits<I>::Find(str, ch)` of
`util/generic/chartraits.h`, which is not among the sources: the first
character of the zero-terminated string equal to `ch` (the terminator itself
when `ch` is zero), or null. -/
def FindZ [DecidableEq α] (nul : α) (buf : List α) (b : Nat) (ch : α) : Option Nat :=
  if ch = nul then some (b + GetLength nul buf b)
  else (firstIdx (fun x => x == ch) (cstrAt nul buf b)).map (fun k => b + k)

/-- Modelled from the spec: `TCharTraits<I>::Find(str, f)` of
`util/generic/chartraits.h`, which is not among the sources: the first
occurrence of the zero-terminated string `f` in the zero-terminated string
`str`, or null. -/
def FindSubZ [DecidableEq α] (nul : α) (buf : List α) (b : Nat) (f : List α) : Option Nat :=
  (firstOcc f (cstrAt nul buf b)).map (fun k => b + k)

end TCharTraits

/-- `FastStrChr(str, f)`. -/
def FastStrChr [DecidableEq α] (nul : α) (buf : List α) (str : Nat) (f : α) : Nat :=
  match TCharTraits.FindZ nul buf str f with
  | some ret => ret
  | none => str + TCharTraits.GetLength nul buf str

/-- `FastStrStr(str, f, l)`; `f` holds the characters of the delimiter before
its terminating zero. -/
def FastStrStr [DecidableEq α] (nul : α) (buf : List α) (str : Nat) (f : List α) : Nat :=
  match (TCharTraits.FindZ nul buf str (f.headD nul)).bind
      (fun ret => TCharTraits.FindSubZ nul buf ret f) with
  | some ret => ret
  | none => str + TCharTraits.GetLength nul buf str

/-- A delimiter: `Find(b, e)` and `Find(b)`.  Both return the value of the C++
method together with the new value of the reference argument `b`. -/
structure TDelim (α : Type) where
  Find : List α → Nat → Nat → Nat × Nat
  FindZ : α → List α → Nat → Nat × Nat

/-- `TCharDelimiter<I>`. -/
def TCharDelimiter [DecidableEq α] (Ch : α) : TDelim α where
  Find := fun buf b e =>
    match TCharTraits.FindN buf b Ch (e - b) with
    | some ret => (ret, ret + 1)
    | none => (e, e)
  FindZ := fun nul buf b =>
    let ret := FastStrChr nul buf b Ch
    if buf.getD ret nul ≠ nul then (ret, ret + 1) else (ret, ret)

/-- `TStringDelimiter<I>` with the `Len` characters `Delim` (the characters
before the terminating zero when it is built by `TStringDelimiter(delim)`). -/
def TStringDelimiter [DecidableEq α] (Delim : List α) : TDelim α where
  Find := fun buf b e =>
    match TCharTraits.FindSub buf b (e - b) Delim with
    | some ret => (ret, ret + Delim.length)
    | none => (e, e)
  FindZ := fun nul buf b =>
    let ret := FastStrStr nul buf b Delim
    if buf.getD ret nul ≠ nul then (ret, ret + Delim.length) else (ret, ret)

namespace TCompactStrSpn

/-- Modelled from the spec: `TCompactStrSpn::FindFirstOf(b, e)` of
`util/string/strspn.h`, which is not among the sources: the first position of
`[b, e)` that holds a character of the set, `e` if there is none (what the
generic `TFindFirstOf<I>::FindFirstOf(b, e)` of `split.h` computes). -/
def FindFirstOf [DecidableEq α] (set : List α) (buf : List α) (b e : Nat) : Nat :=
  match firstIdx (fun x => decide (x ∈ set)) (seg buf b e) with
  | some k => b + k
  | none => e

/-- Modelled from the spec: `TCompactStrSpn::FindFirstOf(b)` of
`util/string/strspn.h`, which is not among the sources: the first position of
the zero-terminated string at `b` that holds a character of the set, its
terminator if there is none. -/
def FindFirstOfZ [DecidableEq α] (set : List α) (nul : α) (buf : List α) (b : Nat) : Nat :=
  match firstIdx (fun x => decide (x ∈ set)) (cstrAt nul buf b) with
  | some k => b + k
  | none => b + (cstrAt nul buf b).length

end TCompactStrSpn

/-- `TSetDelimiter<const char>` for the set of characters `set`. -/
def TSetDelimiter [DecidableEq α] (set : List α) : TDelim α where
  Find := fun buf b e =>
    let ret := TCompactStrSpn.FindFirstOf set buf b e
    if ret ≠ e then (ret, ret + 1) else (e, e)
  FindZ := fun nul buf b =>
    let ret := TCompactStrSpn.FindFirstOfZ set nul buf b
    if buf.getD ret nul ≠ nul then (ret, ret + 1) else (ret, ret)

/-- A consumer with state `σ`: `Consume(b, d, e)` on the buffer `buf`. -/
structure TConsumer (α σ : Type) where
  Consume : List α → σ → Nat → Nat → Nat → Bool × σ

/-- `TContainerConsumer<T>` for a vector of strings: the state is the vector. -/
def TContainerConsumer : TConsumer α (List (List α)) where
  Consume := fun buf C b d _ => (true, C ++ [seg buf b d])

/-- State of a `TLimitingConsumer`: `Cnt`, `Last` (null is `none`) and the
state of the slave. -/
structure TLimiting (σ : Type) where
  Cnt : Nat
  Last : Option Nat
  Slave : σ
  deriving DecidableEq

/-- The constructor `TLimitingConsumer(cnt, slave)`; `Max<size_t>()` is
`2 ^ 64 - 1`. -/
def TLimiting.create {σ : Type} (cnt : Nat) (slave : σ) : TLimiting σ :=
  { Cnt := if cnt ≠ 0 then cnt - 1 else MtpQueue.SizeMod - 1, Last := none, Slave := slave }

/-- `TLimitingConsumer<S, I>`. -/
def TLimitingConsumer {σ : Type} (S : TConsumer α σ) : TConsumer α (TLimiting σ) where
  Consume := fun buf st b d e =>
    if st.Cnt = 0 then
      (false, { st with Last := some b })
    else
      let r := S.Consume buf st.Slave b d e
      (r.1, { st with Cnt := MtpQueue.decrSize st.Cnt, Slave := r.2 })

/-- `TSkipEmptyTokens<S>`. -/
def TSkipEmptyTokens {σ : Type} (S : TConsumer α σ) : TConsumer α σ where
  Consume := fun buf st b d e =>
    if b ≠ d then S.Consume buf st b d e else (true, st)

/-- `TKeepDelimiters<S>`. -/
def TKeepDelimiters {σ : Type} (S : TConsumer α σ) : TConsumer α σ where
  Consume := fun buf st b d e =>
    let r := S.Consume buf st b d d
    if r.1 then
      if d ≠ e then S.Consume buf r.2 d e e else (true, r.2)
    else (false, r.2)

/-- `SplitString(b, e, d, c)`: the state of the consumer when the `do ... while`
loop is left, `none` when `fuel` iterations do not reach its end. -/
def SplitString {σ : Type} (fuel : Nat) (d : TDelim α) (c : TConsumer α σ) (buf : List α)
    (b e : Nat) (st : σ) : Option σ :=
  match fuel with
  | 0 => none
  | fuel + 1 =>
      let l := b
      let r := d.Find buf b e
      let k := c.Consume buf st l r.1 r.2
      if k.1 && r.2 != r.1 then SplitString fuel d c buf r.2 e k.2 else some k.2

/-- `SplitString(b, d, c)` on a zero-terminated buffer: the state of the
consumer when the loop is left, `none` when `fuel` iterations do not reach its
end. -/
def SplitStringZ {σ : Type} (fuel : Nat) (d : TDelim α) (c : TConsumer α σ) (nul : α)
    (buf : List α) (b : Nat) (st : σ) : Option σ :=
  match fuel with
  | 0 => none
  | fuel + 1 =>
      let l := b
      let r := d.FindZ nul buf b
      let k := c.Consume buf st l r.1 r.2
      if k.1 && r.2 != r.1 then SplitStringZ fuel d c nul buf r.2 k.2 else some k.2

/-- `Split(const TStringBuf s, const TSetDelimiter<const char>& delim,
yvector<TStringBuf>& res)`: the value returned and the final `res`. -/
def SplitBySet [DecidableEq α] (fuel : Nat) (s : List α) (set : List α) (_res : List (List α)) :
    Option (Nat × List (List α)) :=
  (SplitString fuel (TSetDelimiter set) (TSkipEmptyTokens TContainerConsumer) s 0 s.length []).map
    (fun res => (res.length, res))

/-- The calls `Consume(l, i, b)` that `SplitString` makes for a delimiter that
ends a token at the first character satisfying `p`, as long as the consumer
returns `true`: `start` is where the current token starts, `cur` the position
of the first character of the list. -/
def calls (p : α → Bool) : Nat → Nat → List α → List (Nat × Nat × Nat)
  | start, cur, [] => [(start, cur, cur)]
  | start, cur, x :: xs =>
      if p x then (start, cur, cur + 1) :: calls p (cur + 1) (cur + 1) xs
      else calls p start (cur + 1) xs

/-- Feeds the calls to a consumer until it returns `false`. -/
def feed {σ : Type} (c : TConsumer α σ) (buf : List α) : σ → List (Nat × Nat × Nat) → σ
  | st, [] => st
  | st, t :: ts =>
      let k := c.Consume buf st t.1 t.2.1 t.2.2
      if k.1 then feed c buf k.2 ts else k.2

/-- What `TKeepDelimiters` over a container consumer appends for the call
`Consume(b, d, e)`: the token `[b, d)` and, when `d != e`, the delimiter
`[d, e)`. -/
def keptPieces (buf : List α) (t : Nat × Nat × Nat) : List (List α) :=
  seg buf t.1 t.2.1 :: (if t.2.1 ≠ t.2.2 then [seg buf t.2.1 t.2.2] else [])

/-- Modelled from the spec: `TStringBuf` of `util/generic/strbuf.h`, which is
not among the sources: `none` is the buffer `TStringBuf()`, which is not
`IsInited()`, and `some l` a buffer over the characters `l`. -/
abbrev TStringBuf (α : Type) := Option (List α)

/-- Modelled from the spec: `TStringBuf::IsInited()` of
`util/generic/strbuf.h`, which is not among the sources. -/
def TStringBuf.IsInited (s : TStringBuf α) : Bool := s.isSome

/-- Modelled from the spec: `TStringBuf::NextTok(delim)` of
`util/generic/strbuf.h`, which is not among the sources: the token and the
new value of the buffer.  The token ends before the first `delim` and the
buffer goes on after it; without a `delim` the token is the whole buffer and
the buffer becomes `TStringBuf()`, as `TestNextStringTok` and the last lines of
`TestSplitOff` of `strbuf_ut.cpp` show. -/
def TStringBuf.NextTok [DecidableEq α] (s : TStringBuf α) (delim : α) :
    TStringBuf α × TStringBuf α :=
  match s with
  | none => (none, none)
  | some l =>
      match firstIdx (fun x => x == delim) l with
      | some k => (some (l.take k), some (l.drop (k + 1)))
      | none => (some l, none)

/-- An output argument of the variadic `Split`: `P&` or `TMaybe<P>&`, for a
string type `P`. -/
inductive TParam where
  | plain
  | maybe
  deriving DecidableEq

/-- The messages of the two `Y_ENSURE` of the variadic `Split`. -/
def lessMsg : String := "Split: number of fields less than number of Split output arguments"

/-- The message of the `Y_ENSURE` after the last `GetNext`. -/
def moreMsg : String := "Split: number of fields more than number of Split output arguments"

/-- `GetNext(s, delim, param)` in its two overloads: the value given to
`param` (`none` is a cleared `TMaybe`) and the new `s`, or the `yexception`. -/
def GetNext [DecidableEq α] (s : TStringBuf α) (delim : α) (param : TParam) :
    Except String (Option (List α) × TStringBuf α) :=
  let r := s.NextTok delim
  match param with
  | TParam.plain =>
      if r.1.IsInited then Except.ok (r.1, r.2) else Except.error lessMsg
  | TParam.maybe =>
      if r.1.IsInited then Except.ok (r.1, r.2) else Except.ok (none, r.2)

/-- The variadic `Split(s, delim, p1, p2, other...)`: the values given to the
output arguments in order, or the `yexception`. -/
def SplitArgs [DecidableEq α] (s : TStringBuf α) (delim : α) :
    TParam → TParam → List TParam → Except String (List (Option (List α)))
  | p1, p2, [] =>
      match GetNext s delim p1 with
      | Except.error m => Except.error m
      | Except.ok (v1, s1) =>
          match GetNext s1 delim p2 with
          | Except.error m => Except.error m
          | Except.ok (v2, s2) =>
              if !s2.IsInited then Except.ok [v1, v2] else Except.error moreMsg
  | p1, p2, p3 :: other =>
      match GetNext s delim p1 with
      | Except.error m => Except.error m
      | Except.ok (v1, s1) =>
          match SplitArgs s1 delim p2 p3 other with
          | Except.error m => Except.error m
          | Except.ok vs => Except.ok (v1 :: vs)

/-- The delimiter-separated fields of a buffer; `TStringBuf()` has none. -/
def fields [DecidableEq α] (s : TStringBuf α) (delim : α) : List (List α) :=
  match s with
  | none => []
  | some l => l.splitOn delim

/-- What the field-count check of the variadic `Split` amounts to, for the
fields `R` and the output arguments `ps`. -/
def fieldCheck (R : List (List α)) (ps : List TParam) : Except String (List (Option (List α))) :=
  if TParam.plain ∈ ps.drop R.length then Except.error lessMsg
  else if ps.length < R.length then Except.error moreMsg
  else Except.ok (R.map some ++ List.replicate (ps.length - R.length) none)

end Split

namespace MtpQueue

/-! ## Auxiliary facts about the bounded queue -/

namespace TMtpQueue

theorem decrSize_eq (a : Nat) (h1 : 1 ≤ a) : decrSize a = a - 1 := by
  unfold decrSize
  rw [if_neg (by omega)]

theorem decrSize_mod (a : Nat) (h : a < SizeMod) :
    decrSize a = (a + (SizeMod - 1)) % SizeMod := by
  unfold decrSize
  simp only [SizeMod] at h ⊢
  split <;> omega

theorem incrSize_mod (a : Nat) (h : a < SizeMod) : incrSize a = (a + 1) % SizeMod := by
  unfold incrSize
  simp only [SizeMod] at h ⊢
  split <;> omega

theorem incrSize_eq (a : Nat) (h : a + 1 < SizeMod) : incrSize a = a + 1 := by
  unfold incrSize
  rw [if_neg (by omega)]

theorem toSize_natCast (a : Nat) (h : a < SizeMod) : toSize (a : Int) = a := by
  unfold toSize
  simp only [SizeMod] at h ⊢
  omega

theorem guardedProcess_ok (name : String) (job : IObjectInQueue) (cdbgOk : Bool) :
    (guardedProcess name job cdbgOk).1 = Except.ok () := by
  unfold guardedProcess
  simp only
  split <;> rfl

theorem inHand_set_perm (ws : List WorkerPc) (i : Nat) (w w1 : WorkerPc)
    (h : ws[i]? = some w) :
    (w.inHand ++ (ws.set i w1).flatMap WorkerPc.inHand).Perm
      (w1.inHand ++ ws.flatMap WorkerPc.inHand) := by
  induction ws generalizing i with
  | nil => simp at h
  | cons x xs ih =>
    cases i with
    | zero =>
      simp at h
      subst h
      simp only [List.set_cons_zero, List.flatMap_cons]
      rw [← Multiset.coe_eq_coe]
      simp only [← Multiset.coe_add]
      exact add_left_comm _ _ _
    | succ j =>
      simp at h
      have h1 := ih j h
      simp only [List.set_cons_succ, List.flatMap_cons]
      rw [← Multiset.coe_eq_coe] at h1 ⊢
      simp only [← Multiset.coe_add] at h1 ⊢
      rw [add_left_comm, h1, add_left_comm]

theorem liveWorkers_set (ws : List WorkerPc) (i : Nat) (w w1 : WorkerPc)
    (h : ws[i]? = some w) :
    liveWorkers (ws.set i w1) + (if w = WorkerPc.finished then 0 else 1) =
      liveWorkers ws + (if w1 = WorkerPc.finished then 0 else 1) := by
  induction ws generalizing i with
  | nil => simp at h
  | cons x xs ih =>
    cases i with
    | zero =>
      simp at h
      subst h
      simp only [liveWorkers, List.set_cons_zero]
      omega
    | succ j =>
      simp at h
      have h1 := ih j h
      simp only [liveWorkers, List.set_cons_succ]
      omega

theorem single_worker (ws : List WorkerPc) (i : Nat) (w : WorkerPc)
    (hlen : ws.length = 1) (h : ws[i]? = some w) : ws = [w] ∧ i = 0 := by
  match ws, hlen with
  | [x], _ =>
    cases i with
    | zero => simp at h; simp [h]
    | succ j => simp at h

theorem perm_pop_aux {α : Type} (P F F1 R A : List α) (job : α)
    (hp : (P ++ F ++ job :: R).Perm A) (hset : ([] ++ F1).Perm ([job] ++ F)) :
    (P ++ F1 ++ R).Perm A := by
  rw [← List.singleton_append] at hp
  rw [← Multiset.coe_eq_coe] at *
  simp only [← Multiset.coe_add] at *
  rw [← hp]
  simp only [Multiset.coe_nil, zero_add] at hset
  rw [hset]
  abel

theorem perm_process_aux {α : Type} (P F F1 R A : List α) (job : α)
    (hp : (P ++ F ++ R).Perm A) (hset : ([job] ++ F1).Perm ([] ++ F)) :
    (P ++ [job] ++ F1 ++ R).Perm A := by
  rw [← Multiset.coe_eq_coe] at *
  simp only [← Multiset.coe_add] at *
  rw [← hp]
  simp only [Multiset.coe_nil, zero_add] at hset
  rw [← hset]
  abel

theorem perm_same_aux {α : Type} (P F F1 R A : List α)
    (hp : (P ++ F ++ R).Perm A) (hset : ([] ++ F1).Perm ([] ++ F)) :
    (P ++ F1 ++ R).Perm A := by
  simp only [List.nil_append] at hset
  exact ((hset.append_left P).append_right R).trans hp

theorem liveWorkers_le (ws : List WorkerPc) : liveWorkers ws ≤ ws.length := by
  induction ws with
  | nil => simp [liveWorkers]
  | cons x xs ih =>
    simp only [liveWorkers, List.length_cons]
    split <;> omega

theorem liveWorkers_replicate_loop (n : Nat) :
    liveWorkers (List.replicate n WorkerPc.loop) = n := by
  induction n with
  | zero => rfl
  | succ k ih =>
    simp only [List.replicate_succ, liveWorkers, ih]
    simp
    omega

theorem liveWorkers_zero (ws : List WorkerPc) (h : liveWorkers ws = 0) :
    ∀ w ∈ ws, w = WorkerPc.finished := by
  induction ws with
  | nil => simp
  | cons x xs ih =>
    simp only [liveWorkers] at h
    intro w hw
    by_cases hx : x = WorkerPc.finished
    · simp only [hx, if_true, Nat.zero_add] at h
      rcases List.mem_cons.mp hw with h1 | h1
      · rw [h1, hx]
      · exact ih h w h1
    · simp [hx] at h

theorem flatMap_inHand_finished (ws : List WorkerPc)
    (h : ∀ w ∈ ws, w = WorkerPc.finished) : ws.flatMap WorkerPc.inHand = [] := by
  induction ws with
  | nil => rfl
  | cons x xs ih =>
    have hx : x = WorkerPc.finished := h x (List.mem_cons_self _ _)
    have hxs := ih (fun w hw => h w (List.mem_cons_of_mem _ hw))
    simp [List.flatMap_cons, hx, hxs, WorkerPc.inHand]

theorem Inv_start (n K : Nat) (b : Bool) : Inv n K (System.start n K b) := by
  constructor <;>
    simp [System.start, TImpl.create, TImpl.Start, TImpl.initial, System.inFlight,
      liveWorkers_replicate_loop, WorkerPc.inHand]

theorem AddHead_some {s : TImpl} {obj : IObjectInQueue} {r : Call Bool × TImpl × List Effect}
    (h : s.AddHead obj = some r) :
    r.2.1 = s ∧ ((s.ShouldTerminate = true ∧ r.1 = Call.returned false ∧ r.2.2 = []) ∨
      (s.ShouldTerminate = false ∧ s.Tharr = [] ∧ r.2.2 = [Effect.process obj] ∧
        (r.1 = Call.returned true ∨ ∃ msg, r.1 = Call.raised msg))) := by
  unfold TImpl.AddHead at h
  split at h
  · rename_i hst
    cases h
    simp [hst]
  · rename_i hst
    split at h
    · rename_i hth
      have hth1 : s.Tharr = [] := by simpa using hth
      split at h <;> cases h <;> simp [hst, hth1]
    · cases h

theorem AddHead_none {s : TImpl} {obj : IObjectInQueue} (h : s.AddHead obj = none) :
    s.ShouldTerminate = false ∧ s.Tharr ≠ [] := by
  unfold TImpl.AddHead at h
  split at h
  · cases h
  · rename_i hst
    split at h
    · split at h <;> cases h
    · rename_i hth
      exact ⟨by simpa using hst, by simpa using hth⟩

theorem Inv_addEnter {n K : Nat} {σ : System} (h : Inv n K σ) (hstop : σ.stop ≠ StopPc.finished)
    (obj : IObjectInQueue) (r : Call Bool × TImpl × List Effect)
    (hr : σ.impl.AddHead obj = some r) :
    Inv n K { σ with impl := r.2.1, processed := σ.processed ++ processedOf r.2.2,
                     added := σ.added ++ (if r.1 = Call.returned true then [obj] else []) } := by
  obtain ⟨himpl, hcase⟩ := AddHead_some hr
  rw [himpl]
  rcases hcase with ⟨_, h1, h2⟩ | ⟨_, hth, _, _⟩
  · rw [h1, h2]
    simpa [processedOf] using h
  · have hn : n = 0 := by
      have := h.tharr hstop
      rw [hth] at this
      have h3 := congrArg List.length this
      simpa using h3.symm
    constructor
    · exact h.workers_len
    · exact h.tharr
    · exact h.maxq
    · exact h.flag
    · exact h.cap
    · exact h.left
    · exact h.count
    · exact h.stopped
    · intro hpos; omega
    · intro h1; omega

theorem AddLocked_cases (s : TImpl) (obj : IObjectInQueue) :
    (s.AddLocked obj = (Call.blocked, s) ∧ s.Blocking = true ∧ s.ShouldTerminate = false ∧
        0 < s.MaxQueueSize ∧ s.MaxQueueSize ≤ s.Queue.length) ∨
    (s.AddLocked obj = (Call.returned false, s) ∧
        (s.ShouldTerminate = true ∨
          (s.Blocking = false ∧ 0 < s.MaxQueueSize ∧ s.MaxQueueSize ≤ s.Queue.length))) ∨
    (s.AddLocked obj = (Call.returned true, { s with Queue := s.Queue ++ [obj] }) ∧
        s.ShouldTerminate = false ∧ (s.MaxQueueSize = 0 ∨ s.Queue.length < s.MaxQueueSize)) := by
  unfold TImpl.AddLocked
  by_cases hfull : 0 < s.MaxQueueSize ∧ s.MaxQueueSize ≤ s.Queue.length ∧
      s.ShouldTerminate = false
  · rw [if_pos hfull]
    by_cases hb : s.Blocking = false
    · rw [if_pos hb]
      exact Or.inr (Or.inl ⟨rfl, Or.inr ⟨hb, hfull.1, hfull.2.1⟩⟩)
    · rw [if_neg hb]
      exact Or.inl ⟨rfl, by simpa using hb, hfull.2.2, hfull.1, hfull.2.1⟩
  · rw [if_neg hfull]
    by_cases hst : s.ShouldTerminate = true
    · rw [if_pos hst]
      exact Or.inr (Or.inl ⟨rfl, Or.inl hst⟩)
    · rw [if_neg hst]
      have hst1 : s.ShouldTerminate = false := by simpa using hst
      refine Or.inr (Or.inr ⟨rfl, hst1, ?_⟩)
      by_cases hz : s.MaxQueueSize = 0
      · exact Or.inl hz
      · right
        by_contra hlt
        exact hfull ⟨by omega, by omega, hst1⟩

theorem Inv_adders {n K : Nat} {σ : System} (h : Inv n K σ) (l : List IObjectInQueue) :
    Inv n K { σ with adders := l } := by
  constructor
  · exact h.workers_len
  · exact h.tharr
  · exact h.maxq
  · exact h.flag
  · exact h.cap
  · exact h.left
  · exact h.count
  · exact h.stopped
  · exact h.perm
  · exact h.fifo

theorem Inv_push {n K : Nat} {σ : System} (h : Inv n K σ) (hstop : σ.stop ≠ StopPc.finished)
    (obj : IObjectInQueue) (l : List IObjectInQueue)
    (hst : σ.impl.ShouldTerminate = false)
    (hroom : σ.impl.MaxQueueSize = 0 ∨ σ.impl.Queue.length < σ.impl.MaxQueueSize) :
    Inv n K { σ with impl := { σ.impl with Queue := σ.impl.Queue ++ [obj] }, adders := l,
                     added := σ.added ++ [obj] } := by
  constructor
  · exact h.workers_len
  · exact h.tharr
  · exact h.maxq
  · intro hne
    have := h.flag hne
    simp [hst] at this
  · intro hK
    have hm := h.maxq hstop
    have hc := h.cap hK
    simp only [List.length_append, List.length_singleton]
    omega
  · intro w hw hww
    have := (h.left w hw hww).1
    simp [hst] at this
  · exact h.count
  · exact h.stopped
  · intro hn
    have hp := h.perm hn
    simp only [System.inFlight] at hp ⊢
    rw [← List.append_assoc]
    exact List.Perm.append_right _ hp
  · intro hn
    have hp := h.fifo hn
    simp only [System.inFlight] at hp ⊢
    rw [← List.append_assoc, hp]

theorem DoExecuteLocked_cases (s : TImpl) :
    (s.Queue = [] ∧ s.ShouldTerminate = false ∧ s.DoExecuteLocked = (Call.blocked, s)) ∨
    (s.Queue = [] ∧ s.ShouldTerminate = true ∧ s.DoExecuteLocked = (Call.returned none, s)) ∨
    (∃ job rest, s.Queue = job :: rest ∧
      s.DoExecuteLocked = (Call.returned (some job), { s with Queue := rest })) := by
  unfold TImpl.DoExecuteLocked
  cases hq : s.Queue with
  | nil =>
    cases hst : s.ShouldTerminate <;> simp
  | cons job rest => simp

theorem Inv_leave {n K : Nat} {σ : System} (h : Inv n K σ) (i : Nat)
    (hw : σ.workers[i]? = some WorkerPc.loop)
    (hq : σ.impl.Queue = []) (hst : σ.impl.ShouldTerminate = true) :
    Inv n K { σ with workers := σ.workers.set i WorkerPc.leaving } := by
  have hset := inHand_set_perm σ.workers i WorkerPc.loop WorkerPc.leaving hw
  have hlive := liveWorkers_set σ.workers i WorkerPc.loop WorkerPc.leaving hw
  constructor
  · simp [h.workers_len]
  · exact h.tharr
  · exact h.maxq
  · exact h.flag
  · exact h.cap
  · intro w hmem _
    exact ⟨hst, hq⟩
  · intro hn
    have := h.count hn
    simp at hlive
    simp only
    omega
  · exact h.stopped
  · intro hn
    exact perm_same_aux _ _ _ _ _ (h.perm hn) hset
  · intro hn
    have hf := h.fifo hn
    obtain ⟨hws, hi⟩ := single_worker σ.workers i _ (by rw [h.workers_len, hn]) hw
    simp only [System.inFlight, hws, hi] at hf ⊢
    simpa [WorkerPc.inHand] using hf

theorem Inv_pop {n K : Nat} {σ : System} (h : Inv n K σ) (i : Nat)
    (job : IObjectInQueue) (rest : List IObjectInQueue)
    (hw : σ.workers[i]? = some WorkerPc.loop) (hq : σ.impl.Queue = job :: rest) :
    Inv n K { σ with impl := { σ.impl with Queue := rest },
                     workers := σ.workers.set i (WorkerPc.popped job) } := by
  have hset := inHand_set_perm σ.workers i WorkerPc.loop (WorkerPc.popped job) hw
  have hlive := liveWorkers_set σ.workers i WorkerPc.loop (WorkerPc.popped job) hw
  constructor
  · simp [h.workers_len]
  · exact h.tharr
  · exact h.maxq
  · exact h.flag
  · intro hK
    have := h.cap hK
    rw [hq] at this
    simp only [List.length_cons] at this
    simp only
    omega
  · intro w hmem hww
    rcases List.mem_or_eq_of_mem_set hmem with h1 | h1
    · have := (h.left w h1 hww).2
      rw [hq] at this
      cases this
    · rw [h1] at hww
      rcases hww with h2 | h2 <;> cases h2
  · intro hn
    have := h.count hn
    simp at hlive
    simp only
    omega
  · exact h.stopped
  · intro hn
    have hp := h.perm hn
    rw [hq] at hp
    exact perm_pop_aux _ _ _ _ _ job hp hset
  · intro hn
    have hf := h.fifo hn
    obtain ⟨hws, hi⟩ := single_worker σ.workers i _ (by rw [h.workers_len, hn]) hw
    simp only [System.inFlight, hws, hi, hq] at hf ⊢
    simpa [WorkerPc.inHand] using hf

theorem Inv_process {n K : Nat} {σ : System} (h : Inv n K σ) (i : Nat)
    (job : IObjectInQueue) (lines : List String)
    (hw : σ.workers[i]? = some (WorkerPc.popped job)) :
    Inv n K { σ with workers := σ.workers.set i WorkerPc.loop,
                     processed := σ.processed ++ [job], cdbg := lines } := by
  have hset := inHand_set_perm σ.workers i (WorkerPc.popped job) WorkerPc.loop hw
  have hlive := liveWorkers_set σ.workers i (WorkerPc.popped job) WorkerPc.loop hw
  constructor
  · simp [h.workers_len]
  · exact h.tharr
  · exact h.maxq
  · exact h.flag
  · exact h.cap
  · intro w hmem hww
    rcases List.mem_or_eq_of_mem_set hmem with h1 | h1
    · exact h.left w h1 hww
    · rw [h1] at hww
      rcases hww with h2 | h2 <;> cases h2
  · intro hn
    have := h.count hn
    simp at hlive
    simp only
    omega
  · exact h.stopped
  · intro hn
    exact perm_process_aux _ _ _ _ _ job (h.perm hn) hset
  · intro hn
    have hf := h.fifo hn
    obtain ⟨hws, hi⟩ := single_worker σ.workers i _ (by rw [h.workers_len, hn]) hw
    simp only [System.inFlight, hws, hi] at hf ⊢
    simpa [WorkerPc.inHand] using hf

theorem Inv_finish {n K : Nat} {σ : System} (h : Inv n K σ) (i : Nat)
    (hstop : σ.stop ≠ StopPc.finished) (t : Nat)
    (ht : t = decrSize σ.impl.ThreadCountReal)
    (hw : σ.workers[i]? = some WorkerPc.leaving) :
    Inv n K { σ with impl := { σ.impl with ThreadCountReal := t },
                     workers := σ.workers.set i WorkerPc.finished } := by
  have hset := inHand_set_perm σ.workers i WorkerPc.leaving WorkerPc.finished hw
  have hlive := liveWorkers_set σ.workers i WorkerPc.leaving WorkerPc.finished hw
  have hmemw : WorkerPc.leaving ∈ σ.workers := List.getElem?_mem hw
  have hold := h.left _ hmemw (Or.inl rfl)
  constructor
  · simp [h.workers_len]
  · exact h.tharr
  · exact h.maxq
  · exact h.flag
  · exact h.cap
  · intro w _ _
    exact hold
  · intro hn
    have hc := h.count hn
    have hle := liveWorkers_le σ.workers
    rw [h.workers_len] at hle
    simp at hlive
    rw [decrSize_eq _ (by omega)] at ht
    simp only
    omega
  · intro hfin
    exact absurd hfin hstop
  · intro hn
    exact perm_same_aux _ _ _ _ _ (h.perm hn) hset
  · intro hn
    have hf := h.fifo hn
    obtain ⟨hws, hi⟩ := single_worker σ.workers i _ (by rw [h.workers_len, hn]) hw
    simp only [System.inFlight, hws, hi] at hf ⊢
    simpa [WorkerPc.inHand] using hf

theorem Inv_stopBegin {n K : Nat} {σ : System} (h : Inv n K σ)
    (hidle : σ.stop = StopPc.idle) :
    Inv n K { σ with impl := { σ.impl with ShouldTerminate := true },
                     stop := StopPc.waiting } := by
  have hne : σ.stop ≠ StopPc.finished := by rw [hidle]; decide
  constructor
  · exact h.workers_len
  · intro _
    exact h.tharr hne
  · intro _
    exact h.maxq hne
  · intro _; rfl
  · exact h.cap
  · intro w hw hww
    exact ⟨rfl, (h.left w hw hww).2⟩
  · exact h.count
  · intro hf; cases hf
  · exact h.perm
  · exact h.fifo

theorem Inv_stopEnd {n K : Nat} {σ : System} (h : Inv n K σ)
    (hwait : σ.stop = StopPc.waiting) (hgo : σ.impl.StopMayProceed = true) :
    Inv n K { σ with impl := σ.impl.StopEnd, stop := StopPc.finished } := by
  constructor
  · exact h.workers_len
  · intro hf; exact absurd rfl hf
  · intro hf; exact absurd rfl hf
  · intro _
    exact h.flag (by rw [hwait]; decide)
  · exact h.cap
  · exact h.left
  · exact h.count
  · intro _ hfork
    have hfork1 : σ.impl.Forked = false := hfork
    simp only [TImpl.StopMayProceed, TImpl.NeedRestart, hfork1, Bool.false_or,
      beq_iff_eq] at hgo
    exact hgo
  · exact h.perm
  · exact h.fifo

theorem Inv_atfork {n K : Nat} {σ : System} (h : Inv n K σ)
    (hidle : σ.stop = StopPc.idle) :
    Inv n K { σ with impl := σ.impl.AtforkAction, adders := [] } := by
  constructor
  · exact h.workers_len
  · exact h.tharr
  · exact h.maxq
  · exact h.flag
  · exact h.cap
  · exact h.left
  · exact h.count
  · intro hf
    have hf1 : σ.stop = StopPc.finished := hf
    rw [hidle] at hf1
    cases hf1
  · exact h.perm
  · exact h.fifo

theorem Inv_step {n K : Nat} {σ σ1 : System} {a : Action} (h : Inv n K σ)
    (hs : step σ a = some σ1) : Inv n K σ1 := by
  unfold step at hs
  split at hs
  · cases hs
  rename_i hstop
  cases a with
  | addEnter obj =>
    simp only at hs
    cases hr : σ.impl.AddHead obj with
    | some r =>
      rw [hr] at hs
      simp only [Option.some.injEq] at hs
      rw [← hs]
      exact Inv_addEnter h hstop obj r hr
    | none =>
      rw [hr] at hs
      simp only [Option.some.injEq] at hs
      rw [← hs]
      exact Inv_adders h _
  | addLocked k =>
    simp only at hs
    cases hk : σ.adders[k]? with
    | none => rw [hk] at hs; cases hs
    | some obj =>
      rw [hk] at hs
      simp only at hs
      rcases AddLocked_cases σ.impl obj with ⟨he, _⟩ | ⟨he, _⟩ | ⟨he, hst, hroom⟩
      · rw [he] at hs; cases hs
      · rw [he] at hs
        simp only [Option.some.injEq] at hs
        rw [← hs]
        exact Inv_adders h _
      · rw [he] at hs
        simp only [Option.some.injEq] at hs
        rw [← hs]
        exact Inv_push h hstop obj _ hst hroom
  | workerLocked i =>
    simp only at hs
    split at hs
    · cases hs
    unfold workerLocked at hs
    split at hs
    · rename_i hw
      rcases DoExecuteLocked_cases σ.impl with ⟨_, _, he⟩ | ⟨hq, hst, he⟩ | ⟨job, rest, hq, he⟩
      · rw [he] at hs; cases hs
      · rw [he] at hs
        simp only [Option.some.injEq] at hs
        rw [← hs]
        exact Inv_leave h i hw hq hst
      · rw [he] at hs
        simp only [Option.some.injEq] at hs
        rw [← hs]
        exact Inv_pop h i job rest hw hq
    · cases hs
  | workerProcess i cdbgOk =>
    simp only at hs
    split at hs
    · cases hs
    unfold workerProcess at hs
    split at hs
    · rename_i job hw
      simp only [guardedProcess_ok, Option.some.injEq] at hs
      rw [← hs]
      exact Inv_process h i job _ hw
    · cases hs
  | finishOneThread i =>
    simp only at hs
    split at hs
    · cases hs
    unfold finishOneThread at hs
    split at hs
    · rename_i hw
      simp only [Option.some.injEq] at hs
      rw [← hs]
      exact Inv_finish h i hstop _ rfl hw
    · cases hs
  | stopBegin =>
    simp only at hs
    split at hs
    · rename_i hidle
      simp only [Option.some.injEq] at hs
      rw [← hs]
      exact Inv_stopBegin h hidle
    · cases hs
  | stopEnd =>
    simp only at hs
    split at hs
    · rename_i hc
      simp only [Option.some.injEq] at hs
      rw [← hs]
      exact Inv_stopEnd h hc.1 hc.2
    · cases hs
  | atfork =>
    simp only at hs
    split at hs
    · rename_i hidle
      simp only [Option.some.injEq] at hs
      rw [← hs]
      exact Inv_atfork h hidle
    · cases hs

theorem Reachable_Inv {n K : Nat} {b : Bool} {σ : System} (h : Reachable n K b σ) :
    Inv n K σ := by
  induction h with
  | start => exact Inv_start n K b
  | next σ σ1 a _ hs ih => exact Inv_step ih hs

end TMtpQueue

/-! ## Schedules and reachability -/

namespace TMtpQueue

theorem run_append (σ : System) (as bs : List Action) :
    run σ (as ++ bs) = (run σ as).bind (fun σ1 => run σ1 bs) := by
  induction as generalizing σ with
  | nil => rfl
  | cons a rest ih =>
    simp only [List.cons_append, run]
    cases step σ a with
    | none => rfl
    | some σ1 => exact ih σ1

theorem Reachable_run {n K : Nat} {b : Bool} {σ σ1 : System} (acts : List Action)
    (h : Reachable n K b σ) (hr : run σ acts = some σ1) : Reachable n K b σ1 := by
  induction acts generalizing σ with
  | nil =>
    simp only [run, Option.some.injEq] at hr
    rw [← hr]; exact h
  | cons a rest ih =>
    simp only [run] at hr
    cases hs : step σ a with
    | none => rw [hs] at hr; cases hr
    | some σ2 =>
      rw [hs] at hr
      exact ih (Reachable.next σ σ2 a h hs) hr

theorem run_submitAll (xs : List IObjectInQueue) (b : Bool) (q : List IObjectInQueue)
    (t : Nat) (th : List Nat) (e r : Nat) (f : Bool) (ws : List WorkerPc)
    (p ad : List IObjectInQueue) (c : List String) :
    run (System.mk (TImpl.mk b q (t :: th) false 0 e r f) ws [] StopPc.idle p ad c)
        (submitAll xs) =
      some (System.mk (TImpl.mk b (q ++ xs) (t :: th) false 0 e r f) ws [] StopPc.idle p
        (ad ++ xs) c) := by
  induction xs generalizing q ad with
  | nil => simp [submitAll, run]
  | cons x rest ih =>
    have h3 := ih (q ++ [x]) (ad ++ [x])
    simp only [List.append_assoc, List.singleton_append] at h3
    simp only [submitAll, run]
    simp [step, TImpl.AddHead, TImpl.AddLocked, h3]

theorem run_drainAll (xs rest : List IObjectInQueue) (b : Bool)
    (th : List Nat) (m e r : Nat) (st : Bool) (ads : List IObjectInQueue)
    (p ad : List IObjectInQueue) (c : List String)
    (hok : ∀ x ∈ xs, x.raises = none) :
    run (System.mk (TImpl.mk b (xs ++ rest) th st m e r false) [WorkerPc.loop] ads StopPc.idle
          p ad c) (drainAll xs.length) =
      some (System.mk (TImpl.mk b rest th st m e r false) [WorkerPc.loop] ads StopPc.idle
        (p ++ xs) ad c) := by
  induction xs generalizing p with
  | nil => simp [drainAll, run]
  | cons x more ih =>
    have hx : x.raises = none := hok x (List.mem_cons_self _ _)
    have h3 := ih (p ++ [x]) (fun y hy => hok y (List.mem_cons_of_mem _ hy))
    simp only [List.append_assoc, List.singleton_append] at h3
    simp only [List.length_cons, drainAll, run, List.cons_append]
    simp [step, workerLocked, workerProcess, TImpl.DoExecuteLocked, guardedProcess,
      IObjectInQueue.Process, hx, h3]

theorem run_scenario (xs : List IObjectInQueue) (hok : ∀ x ∈ xs, x.raises = none) :
    run (System.start 1 0 false) (scenario xs) =
      some (scenarioEnd xs) := by
  have h1 := run_submitAll xs false [] 0 [] 1 1 false [WorkerPc.loop] [] [] []
  have h2 := run_drainAll xs [] false [0] 0 1 1 false [] [] xs [] hok
  simp only [List.nil_append, List.append_nil] at h1 h2
  have h0 : System.start 1 0 false =
      System.mk (TImpl.mk false [] [0] false 0 1 1 false) [WorkerPc.loop] [] StopPc.idle
        [] [] [] := by
    rfl
  rw [scenario, run_append, h0, h1]
  simp only [Option.bind]
  exact h2

end TMtpQueue

/-! ## The bounded queue: order, capacity and drain -/

namespace TMtpQueue

theorem step_queue {σ σ1 : System} {a : Action} (hs : step σ a = some σ1) :
    σ1.impl.Queue = σ.impl.Queue ∨
    (∃ job, σ.impl.Queue = job :: σ1.impl.Queue) ∨
    (∃ k obj, a = Action.addLocked k ∧ σ.adders[k]? = some obj ∧
      σ1.impl.Queue = σ.impl.Queue ++ [obj] ∧ σ.impl.ShouldTerminate = false ∧
      (σ.impl.MaxQueueSize = 0 ∨ σ.impl.Queue.length < σ.impl.MaxQueueSize)) := by
  unfold step at hs
  split at hs
  · cases hs
  cases a with
  | addEnter obj =>
    simp only at hs
    cases hr : σ.impl.AddHead obj with
    | some r =>
      rw [hr] at hs
      simp only [Option.some.injEq] at hs
      rw [← hs]
      exact Or.inl (by rw [(AddHead_some hr).1])
    | none =>
      rw [hr] at hs
      simp only [Option.some.injEq] at hs
      rw [← hs]
      exact Or.inl rfl
  | addLocked k =>
    simp only at hs
    cases hk : σ.adders[k]? with
    | none => rw [hk] at hs; cases hs
    | some obj =>
      rw [hk] at hs
      simp only at hs
      rcases AddLocked_cases σ.impl obj with ⟨he, _⟩ | ⟨he, _⟩ | ⟨he, hst, hroom⟩
      · rw [he] at hs; cases hs
      · rw [he] at hs
        simp only [Option.some.injEq] at hs
        rw [← hs]
        exact Or.inl rfl
      · rw [he] at hs
        simp only [Option.some.injEq] at hs
        rw [← hs]
        exact Or.inr (Or.inr ⟨k, obj, rfl, hk, rfl, hst, hroom⟩)
  | workerLocked i =>
    simp only at hs
    split at hs
    · cases hs
    unfold workerLocked at hs
    split at hs
    · rcases DoExecuteLocked_cases σ.impl with ⟨_, _, he⟩ | ⟨_, _, he⟩ | ⟨job, rest, hq, he⟩
      · rw [he] at hs; cases hs
      · rw [he] at hs
        simp only [Option.some.injEq] at hs
        rw [← hs]
        exact Or.inl rfl
      · rw [he] at hs
        simp only [Option.some.injEq] at hs
        rw [← hs]
        exact Or.inr (Or.inl ⟨job, hq⟩)
    · cases hs
  | workerProcess i cdbgOk =>
    simp only at hs
    split at hs
    · cases hs
    unfold workerProcess at hs
    split at hs
    · simp only [guardedProcess_ok, Option.some.injEq] at hs
      rw [← hs]
      exact Or.inl rfl
    · cases hs
  | finishOneThread i =>
    simp only at hs
    split at hs
    · cases hs
    unfold finishOneThread at hs
    split at hs
    · simp only [Option.some.injEq] at hs
      rw [← hs]
      unfold TImpl.FinishOneThread
      generalize decrSize σ.impl.ThreadCountReal = t
      exact Or.inl rfl
    · cases hs
  | stopBegin =>
    simp only at hs
    split at hs
    · simp only [Option.some.injEq] at hs
      rw [← hs]
      exact Or.inl rfl
    · cases hs
  | stopEnd =>
    simp only at hs
    split at hs
    · simp only [Option.some.injEq] at hs
      rw [← hs]
      exact Or.inl rfl
    · cases hs
  | atfork =>
    simp only at hs
    split at hs
    · simp only [Option.some.injEq] at hs
      rw [← hs]
      exact Or.inl rfl
    · cases hs

theorem thousandItems_ok : ∀ x ∈ thousandItems, x.raises = none := by
  intro x hx
  obtain ⟨k, _, hk⟩ := List.mem_map.mp hx
  rw [← hk]
  rfl

theorem thousandItems_ids : thousandItems.map (fun o => o.id) = List.range 1000 := by
  unfold thousandItems
  rw [List.map_map]
  exact List.map_id _

/-- C1: FIFO order of the bounded queue.  In every state reachable after the
constructor ran with exactly one worker thread, the objects handed to `Process`
so far, followed by the object the worker has popped and not yet processed (at
most one), followed by the content of `Queue`, are exactly the objects whose
`Add` succeeded, in the order in which they were added.  Hence `Process` is
invoked in submission order, and whenever the worker holds no job the
processed objects followed by the queue content equal the added objects. -/
theorem fifo_single_worker (K : Nat) (b : Bool) (σ : System) (h : Reachable 1 K b σ) :
    σ.processed ++ σ.inFlight ++ σ.impl.Queue = σ.added ∧
    σ.processed <+: σ.added ∧
    σ.inFlight.length ≤ 1 ∧
    (σ.inFlight = [] → σ.processed ++ σ.impl.Queue = σ.added) := by
  have hinv := Reachable_Inv h
  have hf := hinv.fifo rfl
  refine ⟨hf, ⟨σ.inFlight ++ σ.impl.Queue, by rw [← List.append_assoc]; exact hf⟩, ?_, ?_⟩
  · have hlen := hinv.workers_len
    unfold System.inFlight
    match hw : σ.workers, hlen with
    | [w], _ =>
      cases w <;> simp [WorkerPc.inHand]
  · intro h0
    rw [h0] at hf
    simpa using hf

/-- Witness of C1: the scenario with 1000 items that carry their index.  After
all of them are submitted to a queue with one worker and the worker has gone
through them, the processed objects carry the indices `0, 1, ..., 999` in this
order. -/
theorem fifo_single_worker_witness :
    ∃ σ, run (System.start 1 0 false) (scenario thousandItems) = some σ ∧
      σ.processed.map (fun o => o.id) = List.range 1000 ∧
      (σ.processed ++ σ.inFlight ++ σ.impl.Queue = σ.added ∧
        σ.processed <+: σ.added ∧
        σ.inFlight.length ≤ 1 ∧
        (σ.inFlight = [] → σ.processed ++ σ.impl.Queue = σ.added)) := by
  refine ⟨scenarioEnd thousandItems, run_scenario thousandItems thousandItems_ok, ?_,
    fifo_single_worker 0 false (scenarioEnd thousandItems)
      (Reachable_run (scenario thousandItems) Reachable.start
        (run_scenario thousandItems thousandItems_ok))⟩
  simp only [scenarioEnd]
  exact thousandItems_ids

/-- C2: capacity invariant of the bounded queue.  After the constructor ran
with `maxqueue = K > 0` (and any number of workers, in particular at least
one), in every reachable state at most `K` objects are queued, and a step
makes the queue longer only if it is the locked region of an `Add` that found
the shutdown flag clear and `Queue.Size() < K`; it then appends exactly the
object of that `Add`. -/
theorem capacity_invariant (n K : Nat) (b : Bool) (σ : System) (hK : 0 < K)
    (h : Reachable n K b σ) :
    σ.impl.Queue.length ≤ K ∧
    ∀ (a : Action) (σ1 : System), step σ a = some σ1 →
      σ.impl.Queue.length < σ1.impl.Queue.length →
      ∃ k obj, a = Action.addLocked k ∧ σ.adders[k]? = some obj ∧
        σ.impl.ShouldTerminate = false ∧ σ.impl.Queue.length < K ∧
        σ1.impl.Queue = σ.impl.Queue ++ [obj] := by
  have hinv := Reachable_Inv h
  refine ⟨hinv.cap hK, ?_⟩
  intro a σ1 hs hlt
  have hstop : σ.stop ≠ StopPc.finished := by
    intro hfin
    unfold step at hs
    rw [if_pos hfin] at hs
    cases hs
  rcases step_queue hs with heq | ⟨job, hq⟩ | ⟨k, obj, ha, hk, hq, hst, hroom⟩
  · rw [heq] at hlt
    exact absurd hlt (Nat.lt_irrefl _)
  · rw [hq] at hlt
    simp only [List.length_cons] at hlt
    omega
  · have hm := hinv.maxq hstop
    refine ⟨k, obj, ha, hk, hst, ?_, hq⟩
    omega

/-- Witness of C2: a blocking queue of capacity two holding two objects, with
a third producer waiting in `Add`. -/
theorem capacity_invariant_witness :
    Reachable 1 2 true fullDemo ∧ fullDemo.impl.Queue.length = 2 ∧
      step fullDemo (Action.addLocked 0) = none ∧
      (fullDemo.impl.Queue.length ≤ 2 ∧
        ∀ (a : Action) (σ1 : System), step fullDemo a = some σ1 →
          fullDemo.impl.Queue.length < σ1.impl.Queue.length →
          ∃ k obj, a = Action.addLocked k ∧ fullDemo.adders[k]? = some obj ∧
            fullDemo.impl.ShouldTerminate = false ∧ fullDemo.impl.Queue.length < 2 ∧
            σ1.impl.Queue = fullDemo.impl.Queue ++ [obj]) :=
  have hreach : Reachable 1 2 true fullDemo :=
    Reachable_run fullSchedule Reachable.start (by rfl)
  ⟨hreach, rfl, by rfl, capacity_invariant 1 2 true fullDemo (by decide) hreach⟩

/-- C9: graceful drain of the bounded queue.  After the constructor ran with at
least one worker: a worker that is out of its loop implies a set shutdown flag
and an empty queue; a worker leaves its loop only by a locked region that
found the flag set and the queue empty; and once `Stop()` has completed on an
object not marked as forked, `ThreadCountReal` is zero, the queue is empty, no
worker holds a job, and the objects handed to `Process` are exactly the
objects whose `Add` succeeded. -/
theorem graceful_drain (n K : Nat) (b : Bool) (σ : System) (hn : 1 ≤ n) (hsz : n < SizeMod)
    (h : Reachable n K b σ) :
    (∀ w ∈ σ.workers, w = WorkerPc.leaving ∨ w = WorkerPc.finished →
      σ.impl.ShouldTerminate = true ∧ σ.impl.Queue = []) ∧
    (∀ (i : Nat) (σ1 : System), step σ (Action.workerLocked i) = some σ1 →
      σ1.workers[i]? = some WorkerPc.leaving →
      σ.impl.ShouldTerminate = true ∧ σ.impl.Queue = [] ∧ σ1.impl = σ.impl) ∧
    (σ.stop = StopPc.finished → σ.impl.Forked = false →
      σ.impl.ThreadCountReal = 0 ∧ σ.impl.Queue = [] ∧ σ.inFlight = [] ∧
      σ.processed.Perm σ.added ∧ ∀ obj ∈ σ.added, obj ∈ σ.processed) := by
  have hinv := Reachable_Inv h
  refine ⟨hinv.left, ?_, ?_⟩
  · intro i σ1 hs hleft
    unfold step at hs
    split at hs
    · cases hs
    simp only at hs
    split at hs
    · cases hs
    unfold workerLocked at hs
    split at hs
    · rename_i hw
      have hi : i < σ.workers.length := by
        by_contra hge
        rw [List.getElem?_eq_none (by omega)] at hw
        cases hw
      rcases DoExecuteLocked_cases σ.impl with ⟨_, _, he⟩ | ⟨hq, hst, he⟩ | ⟨job, rest, hq, he⟩
      · rw [he] at hs; cases hs
      · rw [he] at hs
        simp only [Option.some.injEq] at hs
        rw [← hs]
        exact ⟨hst, hq, rfl⟩
      · rw [he] at hs
        simp only [Option.some.injEq] at hs
        rw [← hs] at hleft
        simp only [List.getElem?_set_self hi, Option.some.injEq] at hleft
        cases hleft
    · cases hs
  · intro hfin hfork
    have hzero := hinv.stopped hfin hfork
    have hlive : liveWorkers σ.workers = 0 := by rw [← hinv.count hsz]; exact hzero
    have hall := liveWorkers_zero σ.workers hlive
    have hflight : σ.inFlight = [] := flatMap_inHand_finished σ.workers hall
    have hq : σ.impl.Queue = [] := by
      match hw : σ.workers, hinv.workers_len with
      | [], hlen => simp at hlen; omega
      | w :: ws, _ =>
        have hmem : w ∈ σ.workers := by rw [hw]; exact List.mem_cons_self _ _
        exact (hinv.left w hmem (Or.inr (hall w hmem))).2
    have hp := hinv.perm hn
    rw [hflight, hq] at hp
    simp only [List.append_nil] at hp
    exact ⟨hzero, hq, hflight, hp, fun obj ho => hp.symm.subset ho⟩

/-- Witness of C9: a queue with one worker is destroyed while one of its two
objects is still queued; when `Stop()` is over both were processed. -/
theorem graceful_drain_witness :
    Reachable 1 0 false drainDemo ∧ drainDemo.stop = StopPc.finished ∧
      drainDemo.impl.Forked = false ∧ drainDemo.impl.Queue = [] ∧
      drainDemo.processed.Perm drainDemo.added :=
  have hreach : Reachable 1 0 false drainDemo :=
    Reachable_run drainSchedule Reachable.start (by rfl)
  have hmain := graceful_drain 1 0 false drainDemo (by decide) (by decide) hreach
  ⟨hreach, rfl, rfl, (hmain.2.2 rfl rfl).2.1, (hmain.2.2 rfl rfl).2.2.2.1⟩

end TMtpQueue

/-! ## Single calls on the bounded queue -/

namespace TMtpQueue

theorem inlineMode_start (q : TMtpQueue) (maxque : Nat) : InlineMode (q.Start 0 maxque).1 :=
  ⟨_, rfl, rfl, rfl, rfl, rfl⟩

theorem inlineMode_add (q : TMtpQueue) (obj : IObjectInQueue) (h : InlineMode q) :
    InlineMode (q.Add obj).2.1 ∧ (q.Add obj).2.2 = [Effect.process obj] ∧
    (q.Add obj).2.1.Size = 0 ∧
    (q.Add obj).1 = (match obj.raises with
      | none => Call.returned true
      | some msg => Call.raised msg) := by
  obtain ⟨impl, hq, hth, hexp, hst, hqueue⟩ := h
  cases hf : impl.Forked <;> cases hr : obj.raises <;>
    simp [Add, hq, TImpl.NeedRestart, hf, TImpl.Add, TImpl.AddHead, hst, hth,
      IObjectInQueue.Process, hr, InlineMode, hexp, hqueue, Size, TImpl.Size, Start,
      TImpl.create, TImpl.Start, TImpl.initial, TImpl.GetThreadCountExpected,
      TImpl.GetMaxQueueSize]

theorem inlineMode_addAll (objs : List IObjectInQueue) (q : TMtpQueue) (h : InlineMode q) :
    InlineMode (q.addAll objs) := by
  induction objs generalizing q with
  | nil => exact h
  | cons o rest ih => exact ih _ (inlineMode_add q o h).1

/-- Counterexample to C3 as stated: on a queue started with `threadCount = 0`,
`Add` of an item whose `Process` throws does not return `true`; the exception
leaves `Add`. -/
theorem inline_add_not_true :
    ((TMtpQueue.mk false none).Start 0 0).1.Add (failing 7 "boom") =
      (Call.raised "boom", ((TMtpQueue.mk false none).Start 0 0).1,
        [Effect.process (failing 7 "boom")]) ∧
    (((TMtpQueue.mk false none).Start 0 0).1.Add (failing 7 "boom")).1 ≠ Call.returned true := by
  constructor
  · rfl
  · intro h
    cases h

/-- C3 (amended): inline mode.  On a queue started with `threadCount = 0` (and
any `maxQueueSize`), after any number of earlier `Add` calls, `Start` has
handed no thread to the pool and every `Add(item)` invokes `item->Process`
exactly once on the calling thread and does nothing else there, hands no
thread to the pool, and leaves the queue empty (`Size()` is 0); it returns
`true` when `Process` returns, and when `Process` throws the exception leaves
`Add`. -/
theorem inline_mode_add (q0 : TMtpQueue) (maxque : Nat) (objs : List IObjectInQueue)
    (obj : IObjectInQueue) :
    (q0.Start 0 maxque).2 = [] ∧
    (((q0.Start 0 maxque).1.addAll objs).Add obj).2.2 = [Effect.process obj] ∧
    (((q0.Start 0 maxque).1.addAll objs).Add obj).2.1.Size = 0 ∧
    ((q0.Start 0 maxque).1.addAll objs).Size = 0 ∧
    (((q0.Start 0 maxque).1.addAll objs).Add obj).1 = (match obj.raises with
      | none => Call.returned true
      | some msg => Call.raised msg) := by
  have hm := inlineMode_addAll objs _ (inlineMode_start q0 maxque)
  have h := inlineMode_add _ obj hm
  refine ⟨rfl, h.2.1, h.2.2.1, ?_, h.2.2.2⟩
  obtain ⟨impl, hq, _, _, _, hqueue⟩ := hm
  simp [Size, hq, TImpl.Size, hqueue]

/-- Counterexample to C4 as stated: after `Start` and `Stop()`, `Add` does not
return `false`; it raises the error of `Y_ENSURE(Impl_.Get(), ...)`. -/
theorem add_after_stop_raises :
    (((TMtpQueue.mk false none).Start 2 0).1.Stop.Add (item 1)).1 =
      Call.raised "mtp queue not started" ∧
    (((TMtpQueue.mk false none).Start 2 0).1.Stop.Add (item 1)).1 ≠ Call.returned false := by
  constructor
  · rfl
  · intro h
    cases h

/-- C4 (amended): submission after shutdown on the bounded queue.  For every
`TMtpQueue` that was started and then stopped with `Stop()`, every subsequent
`Add(obj)` raises the error "mtp queue not started", never invokes
`obj->Process`, hands no thread to the pool and leaves the queue stopped.  An
`Add` that still finds the implementation object, with its shutdown flag set
by a `Stop()` in progress, returns `false`, raises nothing and never invokes
`obj->Process`. -/
theorem add_after_stop (q : TMtpQueue) (thrnum maxque : Nat) (objs : List IObjectInQueue)
    (obj : IObjectInQueue) (s : TImpl) :
    ((q.Start thrnum maxque).1.Stop.addAll objs).Add obj =
      (Call.raised "mtp queue not started", (q.Start thrnum maxque).1.Stop, []) ∧
    s.StopBegin.Add obj = (Call.returned false, s.StopBegin, []) := by
  constructor
  · have hall : ∀ (l : List IObjectInQueue), (q.Start thrnum maxque).1.Stop.addAll l =
        (q.Start thrnum maxque).1.Stop := by
      intro l
      induction l with
      | nil => rfl
      | cons o rest ih =>
        simp only [addAll, List.foldl_cons] at ih ⊢
        exact ih
    rw [hall]
    rfl
  · rfl

/-- C6: overflow policy of a non-blocking queue.  On a running implementation
object (shutdown flag clear, at least one worker thread, `Blocking = false`)
`Add(obj)` returns `false` exactly when `MaxQueueSize > 0` and the queue holds
at least `MaxQueueSize` objects, and then nothing changes; in every other
case, in particular whenever `MaxQueueSize = 0`, it appends `obj` at the tail
of the queue and returns `true`.  Nothing is run on the calling thread.  The
same holds for `TMtpQueue::Add` on an object not marked as forked. -/
theorem nonblocking_overflow (s : TImpl) (obj : IObjectInQueue)
    (hst : s.ShouldTerminate = false) (hth : s.Tharr ≠ []) (hb : s.Blocking = false) :
    ((s.Add obj).1 = Call.returned false ↔
      (0 < s.MaxQueueSize ∧ s.MaxQueueSize ≤ s.Queue.length)) ∧
    ((0 < s.MaxQueueSize ∧ s.MaxQueueSize ≤ s.Queue.length) →
      s.Add obj = (Call.returned false, s, [])) ∧
    (¬ (0 < s.MaxQueueSize ∧ s.MaxQueueSize ≤ s.Queue.length) →
      s.Add obj = (Call.returned true, { s with Queue := s.Queue ++ [obj] }, [])) ∧
    (s.MaxQueueSize = 0 →
      s.Add obj = (Call.returned true, { s with Queue := s.Queue ++ [obj] }, [])) ∧
    (∀ q : TMtpQueue, q.Impl_ = some s → s.Forked = false →
      q.Add obj = ((s.Add obj).1, { q with Impl_ := some (s.Add obj).2.1 }, (s.Add obj).2.2)) := by
  have hth1 : s.Tharr.isEmpty = false := by
    cases hl : s.Tharr with
    | nil => exact absurd hl hth
    | cons _ _ => rfl
  have hfull : (0 < s.MaxQueueSize ∧ s.MaxQueueSize ≤ s.Queue.length) →
      s.Add obj = (Call.returned false, s, []) := by
    intro hf
    simp [TImpl.Add, TImpl.AddHead, TImpl.AddLocked, hst, hth1, hb, hf.1, hf.2]
  have hroom : ¬ (0 < s.MaxQueueSize ∧ s.MaxQueueSize ≤ s.Queue.length) →
      s.Add obj = (Call.returned true, { s with Queue := s.Queue ++ [obj] }, []) := by
    intro hf
    have hl : s.AddLocked obj = (Call.returned true, { s with Queue := s.Queue ++ [obj] }) := by
      rcases AddLocked_cases s obj with ⟨_, hb1, _⟩ | ⟨_, h1⟩ | ⟨he, _⟩
      · rw [hb] at hb1
        cases hb1
      · rcases h1 with h1 | ⟨_, h2, h3⟩
        · rw [hst] at h1
          cases h1
        · exact absurd ⟨h2, h3⟩ hf
      · exact he
    simp [TImpl.Add, TImpl.AddHead, hst, hth1, hl]
  refine ⟨⟨?_, fun hf => by rw [hfull hf]⟩, hfull, hroom, ?_, ?_⟩
  · intro hres
    by_contra hf
    rw [hroom hf] at hres
    cases hres
  · intro hz
    exact hroom (by omega)
  · intro q hq hfork
    simp [TMtpQueue.Add, hq, TImpl.NeedRestart, hfork]

/-- Witness of C6: a non-blocking queue of capacity two that holds two objects
rejects a third one, and an unbounded one accepts it. -/
theorem nonblocking_overflow_witness :
    (TImpl.mk false [item 0, item 1] [0] false 2 1 1 false).Add (item 2) =
      (Call.returned false, TImpl.mk false [item 0, item 1] [0] false 2 1 1 false, []) ∧
    (TImpl.mk false [item 0, item 1] [0] false 0 1 1 false).Add (item 2) =
      (Call.returned true, TImpl.mk false [item 0, item 1, item 2] [0] false 0 1 1 false, []) :=
  ⟨(nonblocking_overflow (TImpl.mk false [item 0, item 1] [0] false 2 1 1 false) (item 2)
      rfl (by decide) rfl).2.1 (by decide),
   (nonblocking_overflow (TImpl.mk false [item 0, item 1] [0] false 0 1 1 false) (item 2)
      rfl (by decide) rfl).2.2.2.1 rfl⟩

/-- Counterexample to C7 as stated: on a queue started with `threadCount = 0`
the exception of `Process` reaches the caller of `Add`. -/
theorem inline_add_propagates :
    (((TMtpQueue.mk true none).Start 0 5).1.Add (failing 3 "failure in Process")).1 =
      Call.raised "failure in Process" := by
  rfl

/-- C7 (amended): errors of submitted work never reach the submitter of a
queue that has worker threads.  For every started `TMtpQueue` with at least
one worker thread (in `Tharr`, and to be started again after a fork) and every
work item, `Add(item)` raises nothing and does not run `item->Process` on the
calling thread, whatever `Process` would raise. -/
theorem add_never_propagates (q : TMtpQueue) (impl : TImpl) (obj : IObjectInQueue)
    (hq : q.Impl_ = some impl) (hth : impl.Tharr ≠ []) (hexp : impl.ThreadCountExpected ≠ 0) :
    (∀ msg, (q.Add obj).1 ≠ Call.raised msg) ∧ Effect.process obj ∉ (q.Add obj).2.2 := by
  have hth1 : impl.Tharr.isEmpty = false := by
    cases hl : impl.Tharr with
    | nil => exact absurd hl hth
    | cons _ _ => rfl
  have hrange : (List.range impl.ThreadCountExpected).isEmpty = false := by
    cases hl : List.range impl.ThreadCountExpected with
    | nil =>
      have := congrArg List.length hl
      simp at this
      exact absurd this hexp
    | cons _ _ => rfl
  have hlocked : ∀ (s : TImpl) (msg : String), (s.AddLocked obj).1 ≠ Call.raised msg := by
    intro s msg
    rcases AddLocked_cases s obj with ⟨he, _⟩ | ⟨he, _⟩ | ⟨he, _⟩ <;> rw [he] <;> intro h <;>
      cases h
  have hadd : ∀ (s : TImpl), s.Tharr.isEmpty = false →
      (∀ msg, (s.Add obj).1 ≠ Call.raised msg) ∧ (s.Add obj).2.2 = [] := by
    intro s hs
    cases hst : s.ShouldTerminate
    · simp only [TImpl.Add, TImpl.AddHead, hst, hs]
      exact ⟨fun msg => hlocked s msg, rfl⟩
    · simp [TImpl.Add, TImpl.AddHead, hst]
  cases hf : impl.Forked
  · have h := hadd impl hth1
    simp only [TMtpQueue.Add, hq, TImpl.NeedRestart, hf]
    simp only [Bool.false_eq_true, if_false, hq]
    exact ⟨h.1, by rw [List.nil_append, h.2]; simp⟩
  · have h := hadd (TImpl.create impl.GetThreadCountExpected impl.GetMaxQueueSize q.Blocking).1
      (by simpa [TImpl.create, TImpl.Start, TImpl.initial, TImpl.GetThreadCountExpected]
        using hrange)
    simp only [TMtpQueue.Add, hq, TImpl.NeedRestart, hf, if_true, TMtpQueue.Start]
    refine ⟨h.1, ?_⟩
    rw [h.2]
    simp [TImpl.create, TImpl.Start]

/-- Witness of C7 (amended): a queue with two worker threads accepts an item
whose `Process` would throw; `Add` returns `true`. -/
theorem add_never_propagates_witness :
    (((TMtpQueue.mk false none).Start 2 0).1.Add (failing 3 "failure in Process")).1 =
      Call.returned true ∧
    ((∀ msg, (((TMtpQueue.mk false none).Start 2 0).1.Add (failing 3 "failure in Process")).1 ≠
        Call.raised msg) ∧
      Effect.process (failing 3 "failure in Process") ∉
        (((TMtpQueue.mk false none).Start 2 0).1.Add (failing 3 "failure in Process")).2.2) :=
  ⟨rfl, add_never_propagates ((TMtpQueue.mk false none).Start 2 0).1
    (TImpl.create 2 0 false).1 (failing 3 "failure in Process") rfl (by decide) (by decide)⟩

end TMtpQueue

/-! ## The adaptive queue -/

namespace TAdaptiveMtpQueue

theorem adaptive_reachable_run {counter : Nat} {σ σ1 : System} (acts : List Action)
    (h : Reachable counter σ) (hr : run σ acts = some σ1) : Reachable counter σ1 := by
  induction acts generalizing σ with
  | nil =>
    simp only [run, Option.some.injEq] at hr
    rw [← hr]; exact h
  | cons a rest ih =>
    simp only [run] at hr
    cases hs : step σ a with
    | none => rw [hs] at hr; cases hr
    | some σ2 =>
      rw [hs] at hr
      exact ih (Reachable.next σ σ2 a h hs) hr

theorem liveThreads_set (ts : List ThreadPc) (i : Nat) (t t1 : ThreadPc)
    (h : ts[i]? = some t) :
    liveThreads (ts.set i t1) + (if t = ThreadPc.gone then 0 else 1) =
      liveThreads ts + (if t1 = ThreadPc.gone then 0 else 1) := by
  induction ts generalizing i with
  | nil => simp at h
  | cons x xs ih =>
    cases i with
    | zero =>
      simp at h
      subst h
      simp only [liveThreads, List.set_cons_zero]
      omega
    | succ j =>
      simp at h
      have h1 := ih j h
      simp only [liveThreads, List.set_cons_succ]
      omega

theorem liveThreads_append_calling (ts : List ThreadPc) :
    liveThreads (ts ++ [ThreadPc.calling]) = liveThreads ts + 1 := by
  induction ts with
  | nil => simp [liveThreads]
  | cons x xs ih =>
    rw [List.cons_append]
    simp only [liveThreads]
    rw [ih]
    omega

theorem WaitForJobLeave_cases (s : TImpl) (timedOut : Bool) :
    s.WaitForJobLeave timedOut = (Call.blocked, s) ∨
    s.WaitForJobLeave timedOut =
      (Call.returned s.Obj_, { s with Obj_ := none, Free_ := decrSize s.Free_ }) := by
  unfold TImpl.WaitForJobLeave
  split
  · exact Or.inl rfl
  · exact Or.inr rfl

theorem addStep_count {σ σ1 : System} {obj : IObjectInQueue} {spawnOk : Bool}
    (h : σ.impl.ThrCount_ = (liveThreads σ.threads : Int))
    (hs : addStep σ obj spawnOk = some σ1) :
    σ1.impl.ThrCount_ = (liveThreads σ1.threads : Int) := by
  unfold addStep TImpl.Add at hs
  cases hobj : σ.impl.Obj_ with
  | some o => simp [hobj] at hs
  | none =>
    by_cases hfree : σ.impl.Free_ = 0 <;> cases spawnOk <;> cases hd : σ.impl.AllDone_ <;>
      simp [hobj, hfree, hd, TImpl.AddThreadNoLock, TImpl.IncThreadCount,
        TImpl.DecThreadCount] at hs <;>
      subst hs <;>
      simp [liveThreads_append_calling, h]

theorem adaptive_step_count {σ σ1 : System} {a : Action}
    (h : σ.impl.ThrCount_ = (liveThreads σ.threads : Int))
    (hs : step σ a = some σ1) : σ1.impl.ThrCount_ = (liveThreads σ1.threads : Int) := by
  unfold step at hs
  split at hs
  · cases hs
  cases a with
  | add obj spawnOk => exact addStep_count h hs
  | waitEnter i =>
    simp only at hs
    split at hs
    · rename_i ht
      have hl := liveThreads_set σ.threads i _ ThreadPc.waiting ht
      simp only [Option.some.injEq] at hs
      subst hs
      simp at hl
      simp [TImpl.WaitForJobEnter, h, hl]
    · cases hs
  | waitLeave i timedOut =>
    simp only [waitLeave] at hs
    split at hs
    · rename_i ht
      rcases WaitForJobLeave_cases σ.impl timedOut with he | he
      · rw [he] at hs
        cases hs
      · rw [he] at hs
        cases hobj : σ.impl.Obj_ with
        | none =>
          have hl := liveThreads_set σ.threads i _ ThreadPc.exiting ht
          rw [hobj] at hs
          simp only [Option.some.injEq] at hs
          subst hs
          simp at hl
          simp [h, hl]
        | some o =>
          have hl := liveThreads_set σ.threads i _ (ThreadPc.running o) ht
          rw [hobj] at hs
          simp only [Option.some.injEq] at hs
          subst hs
          simp at hl
          simp [h, hl]
    · cases hs
  | process i cdbgOk =>
    simp only [processStep] at hs
    split at hs
    · rename_i obj ht
      have hl := liveThreads_set σ.threads i _ ThreadPc.calling ht
      simp only [TMtpQueue.guardedProcess_ok, Option.some.injEq] at hs
      subst hs
      simp at hl
      simp [h, hl]
    · cases hs
  | destroy i =>
    simp only at hs
    split at hs
    · rename_i ht
      have hl := liveThreads_set σ.threads i _ ThreadPc.gone ht
      simp only [Option.some.injEq] at hs
      subst hs
      simp at hl
      simp only [TImpl.DecThreadCount, h]
      omega
    · cases hs
  | stopBegin =>
    simp only at hs
    split at hs
    · simp only [Option.some.injEq] at hs
      subst hs
      exact h
    · cases hs
  | stopEnd =>
    simp only at hs
    split at hs
    · simp only [Option.some.injEq] at hs
      subst hs
      exact h
    · cases hs

theorem adaptive_reachable_count {counter : Nat} {σ : System} (h : Reachable counter σ) :
    σ.impl.ThrCount_ = (liveThreads σ.threads : Int) := by
  induction h with
  | start => rfl
  | next σ σ1 a _ hs ih => exact adaptive_step_count ih hs

/-- C5: submission after shutdown on the adaptive queue.  For every
`TAdaptiveMtpQueue` that was started and then stopped with `Stop()`, and
likewise for one never started, every `Add(obj)` raises the error "mtp queue
not started" instead of returning; it invokes no `Process`, hands no thread to
the pool and leaves the object as it was. -/
theorem adaptive_add_not_started (q : TAdaptiveMtpQueue) (thrnum maxque counter : Nat)
    (obj : IObjectInQueue) (spawnOk : Bool) :
    (q.Start thrnum maxque counter).Stop.Add obj spawnOk =
      (Call.raised "mtp queue not started", (q.Start thrnum maxque counter).Stop, []) ∧
    (TAdaptiveMtpQueue.mk none).Add obj spawnOk =
      (Call.raised "mtp queue not started", TAdaptiveMtpQueue.mk none, []) ∧
    ((q.Start thrnum maxque counter).Stop.Add obj spawnOk).2.1.Impl_ = none :=
  ⟨rfl, rfl, rfl⟩

/-- Counterexample to C10 as stated: after one object was submitted and taken
by the thread created for it, no submitted object is left untaken, yet
`Size()` is 1. -/
theorem adaptive_size_not_pending :
    Reachable 1 handedDemo ∧ handedDemo.pending = 0 ∧ handedDemo.impl.Obj_ = none ∧
      (TAdaptiveMtpQueue.mk (some handedDemo.impl)).Size = 1 :=
  ⟨adaptive_reachable_run handSchedule Reachable.start (by rfl), rfl, rfl, by rfl⟩

/-- C10 (amended): `Size()` of the adaptive queue.  For every started
`TAdaptiveMtpQueue`, `Size()` returns the thread counter `ThrCount_` converted
to `size_t`, and in every reachable state this counter is the number of worker
threads that exist (created and not yet destroyed, whether idle or executing
an item); `Size()` is 0 when the queue is not started. -/
theorem adaptive_size_counts_threads (counter : Nat) (σ : System) (h : Reachable counter σ) :
    (TAdaptiveMtpQueue.mk (some σ.impl)).Size = toSize σ.impl.ThrCount_ ∧
    σ.impl.ThrCount_ = (liveThreads σ.threads : Int) ∧
    (liveThreads σ.threads < SizeMod →
      (TAdaptiveMtpQueue.mk (some σ.impl)).Size = liveThreads σ.threads) ∧
    (TAdaptiveMtpQueue.mk none).Size = 0 := by
  have hc := adaptive_reachable_count h
  refine ⟨rfl, hc, ?_, rfl⟩
  intro hlt
  show toSize σ.impl.ThrCount_ = liveThreads σ.threads
  rw [hc]
  exact TMtpQueue.toSize_natCast _ hlt

/-- Witness of C10 (amended): in the state of the counterexample one thread
exists and `Size()` is 1. -/
theorem adaptive_size_counts_threads_witness :
    Reachable 1 handedDemo ∧ liveThreads handedDemo.threads = 1 ∧
      (TAdaptiveMtpQueue.mk (some handedDemo.impl)).Size = liveThreads handedDemo.threads :=
  have hreach : Reachable 1 handedDemo :=
    adaptive_reachable_run handSchedule Reachable.start (by rfl)
  ⟨hreach, rfl, (adaptive_size_counts_threads 1 handedDemo hreach).2.2.1 (by decide)⟩

end TAdaptiveMtpQueue

/-- C8: a failing work item does not kill its worker.  In the worker loops of
`TMtpQueue` and of `TAdaptiveMtpQueue`, when the worker calls `Process` on the
job it holds, the step is always possible and ends at the head of the loop
with the member data of the implementation object unchanged (in particular
`ThreadCountReal` and `ThrCount_` are not decremented), whether or not
`Process` raises: the only difference a raising `Process` can make are lines
written to `Cdbg`. -/
theorem failing_item_keeps_worker (σ : TMtpQueue.System) (i : Nat) (job : IObjectInQueue)
    (cdbgOk : Bool) (τ : TAdaptiveMtpQueue.System) (j : Nat) (obj : IObjectInQueue)
    (cdbgOk2 : Bool)
    (hstop : σ.stop ≠ TMtpQueue.StopPc.finished) (hfork : σ.impl.Forked = false)
    (hw : σ.workers[i]? = some (TMtpQueue.WorkerPc.popped job))
    (hstop2 : τ.stop ≠ TMtpQueue.StopPc.finished)
    (ht : τ.threads[j]? = some (TAdaptiveMtpQueue.ThreadPc.running obj)) :
    (∃ lines, TMtpQueue.step σ (TMtpQueue.Action.workerProcess i cdbgOk) =
        some { σ with workers := σ.workers.set i TMtpQueue.WorkerPc.loop,
                      processed := σ.processed ++ [job], cdbg := σ.cdbg ++ lines } ∧
      (job.raises = none → lines = [])) ∧
    (∃ lines, TAdaptiveMtpQueue.step τ (TAdaptiveMtpQueue.Action.process j cdbgOk2) =
        some { τ with threads := τ.threads.set j TAdaptiveMtpQueue.ThreadPc.calling,
                      processed := τ.processed ++ [obj], cdbg := τ.cdbg ++ lines } ∧
      (obj.raises = none → lines = [])) := by
  constructor
  · refine ⟨(guardedProcess "[mtp queue]" job cdbgOk).2, ?_, ?_⟩
    · simp [TMtpQueue.step, hstop, hfork, TMtpQueue.workerProcess, hw,
        TMtpQueue.guardedProcess_ok]
    · intro hr
      simp [guardedProcess, IObjectInQueue.Process, hr]
  · refine ⟨(guardedProcess τ.impl.Name obj cdbgOk2).2, ?_, ?_⟩
    · simp [TAdaptiveMtpQueue.step, hstop2, TAdaptiveMtpQueue.processStep, ht,
        TMtpQueue.guardedProcess_ok]
    · intro hr
      simp [guardedProcess, IObjectInQueue.Process, hr]

/-- Witness of C8: a worker of each queue holds an item whose `Process` throws;
after the call both are back at the head of their loops and the thread counts
are what they were. -/
theorem failing_item_keeps_worker_witness :
    (∃ lines, TMtpQueue.step TMtpQueue.poppedDemo (TMtpQueue.Action.workerProcess 0 true) =
        some { TMtpQueue.poppedDemo with
                 workers := TMtpQueue.poppedDemo.workers.set 0 TMtpQueue.WorkerPc.loop,
                 processed := TMtpQueue.poppedDemo.processed ++ [TMtpQueue.failing 1 "boom"],
                 cdbg := TMtpQueue.poppedDemo.cdbg ++ lines } ∧
      ((TMtpQueue.failing 1 "boom").raises = none → lines = [])) ∧
    (∃ lines, TAdaptiveMtpQueue.step TAdaptiveMtpQueue.runningDemo
          (TAdaptiveMtpQueue.Action.process 0 false) =
        some { TAdaptiveMtpQueue.runningDemo with
                 threads := TAdaptiveMtpQueue.runningDemo.threads.set 0
                   TAdaptiveMtpQueue.ThreadPc.calling,
                 processed := TAdaptiveMtpQueue.runningDemo.processed ++
                   [TMtpQueue.failing 1 "boom"],
                 cdbg := TAdaptiveMtpQueue.runningDemo.cdbg ++ lines } ∧
      ((TMtpQueue.failing 1 "boom").raises = none → lines = [])) :=
  failing_item_keeps_worker TMtpQueue.poppedDemo 0 (TMtpQueue.failing 1 "boom") true
    TAdaptiveMtpQueue.runningDemo 0 (TMtpQueue.failing 1 "boom") false
    (by decide) rfl rfl (by decide) rfl

/-! ## Stopping twice -/

/-- C11: `Stop()` is idempotent.  For `TMtpQueue`, `TAdaptiveMtpQueue` and
`TSimpleMtpQueue` in any state, a second `Stop()` right after a first one
leaves the object as the first one left it: without implementation object and
with `Size() = 0`; `Stop()` on a queue that was never started changes nothing.
`Stop()` is a total function of the object: it raises nothing. -/
theorem stop_idempotent (q1 : TMtpQueue) (q2 : TAdaptiveMtpQueue) (q3 : TSimpleMtpQueue)
    (blocking : Bool) :
    (q1.Stop.Stop = q1.Stop ∧ q1.Stop.Impl_ = none ∧ q1.Stop.Size = 0 ∧ q1.Stop.Stop.Size = 0) ∧
    (q2.Stop.Stop = q2.Stop ∧ q2.Stop.Impl_ = none ∧ q2.Stop.Size = 0 ∧ q2.Stop.Stop.Size = 0) ∧
    (q3.Stop.Stop = q3.Stop ∧ q3.Stop.Slave_ = none ∧ q3.Stop.Size = 0 ∧ q3.Stop.Stop.Size = 0) ∧
    (TMtpQueue.mk blocking none).Stop = TMtpQueue.mk blocking none ∧
    (TAdaptiveMtpQueue.mk none).Stop = TAdaptiveMtpQueue.mk none ∧
    (TSimpleMtpQueue.mk none).Stop = TSimpleMtpQueue.mk none :=
  ⟨⟨rfl, rfl, rfl, rfl⟩, ⟨rfl, rfl, rfl, rfl⟩, ⟨rfl, rfl, rfl, rfl⟩, rfl, rfl, rfl⟩


/-! ## Thread growth of the adaptive queue -/

namespace TAdaptiveMtpQueue

theorem idleSchedule_run : run (System.start 1) idleSchedule = some idleDemo := by rfl

theorem countThreads_set (w : ThreadPc → Nat) (ts : List ThreadPc) (i : Nat) (t t1 : ThreadPc)
    (h : ts[i]? = some t) :
    countThreads w (ts.set i t1) + w t = countThreads w ts + w t1 := by
  induction ts generalizing i with
  | nil => simp at h
  | cons x xs ih =>
    cases i with
    | zero =>
      simp at h
      subst h
      simp only [countThreads, List.set_cons_zero]
      omega
    | succ j =>
      simp at h
      have h1 := ih j h
      simp only [countThreads, List.set_cons_succ]
      omega

theorem countThreads_append (w : ThreadPc → Nat) (ts : List ThreadPc) (t : ThreadPc) :
    countThreads w (ts ++ [t]) = countThreads w ts + w t := by
  induction ts with
  | nil => simp [countThreads]
  | cons x xs ih =>
    rw [List.cons_append]
    simp only [countThreads]
    rw [ih]
    omega

theorem countThreads_idle_le_ready (ts : List ThreadPc) :
    countThreads idleWeight ts ≤ countThreads readyWeight ts := by
  induction ts with
  | nil => exact Nat.le_refl _
  | cons x xs ih =>
    simp only [countThreads]
    have : idleWeight x ≤ readyWeight x := by
      cases x <;> simp [idleWeight, readyWeight]
    omega

theorem countThreads_ready_le_live (ts : List ThreadPc) :
    countThreads readyWeight ts ≤ liveThreads ts := by
  induction ts with
  | nil => exact Nat.le_refl _
  | cons x xs ih =>
    simp only [countThreads, liveThreads]
    have : readyWeight x ≤ (if x = ThreadPc.gone then 0 else 1) := by
      cases x <;> simp [readyWeight]
    omega

theorem countThreads_ready_pos (ts : List ThreadPc) (h : 0 < countThreads readyWeight ts) :
    ∃ i : Nat, ts[i]? = some ThreadPc.calling ∨ ts[i]? = some ThreadPc.waiting := by
  induction ts with
  | nil => simp [countThreads] at h
  | cons x xs ih =>
    by_cases hx : x = ThreadPc.calling ∨ x = ThreadPc.waiting
    · refine ⟨0, ?_⟩
      rcases hx with rfl | rfl
      · exact Or.inl (by simp)
      · exact Or.inr (by simp)
    · simp only [countThreads, readyWeight, hx, if_false, Nat.zero_add] at h
      obtain ⟨i, hi⟩ := ih h
      rcases hi with hi | hi
      · exact ⟨i + 1, Or.inl (by rw [List.getElem?_cons_succ]; exact hi)⟩
      · exact ⟨i + 1, Or.inr (by rw [List.getElem?_cons_succ]; exact hi)⟩

theorem HandOff_start (counter : Nat) : HandOff (System.start counter) where
  count := rfl
  slot := rfl
  free := rfl
  ready := by intro h; cases h
  alive := by intro h; cases h

theorem HandOff_add {σ σ1 : System} {obj : IObjectInQueue} {spawnOk : Bool}
    (h : HandOff σ) (hfin : σ.stop ≠ TMtpQueue.StopPc.finished)
    (hs : addStep σ obj spawnOk = some σ1) : HandOff σ1 := by
  have hcount := addStep_count h.count hs
  have hslot := h.slot
  have hfree := h.free
  have hidle := countThreads_idle_le_ready σ.threads
  unfold addStep TImpl.Add at hs
  cases hobj : σ.impl.Obj_ with
  | some o => simp [hobj] at hs
  | none =>
    rw [hobj] at hslot
    by_cases hf : σ.impl.Free_ = 0 <;> cases spawnOk <;> cases hd : σ.impl.AllDone_ <;>
      simp [hobj, hf, hd, TImpl.AddThreadNoLock, TImpl.IncThreadCount,
        TImpl.DecThreadCount] at hs <;>
      subst hs <;>
      refine ⟨hcount, ?_, ?_, ?_, ?_⟩ <;>
      simp only [countThreads_append, idleWeight, readyWeight, hslot, hobj, Option.toList,
        List.append_nil, List.append_assoc, reduceCtorEq, if_false, or_false, or_true, if_true,
        Nat.add_zero, hfin, false_implies, implies_true, Option.isSome, Nat.lt_add_one,
        Nat.zero_lt_succ] <;>
      first
        | exact hfree
        | exact hf.symm.trans hfree
        | (intro _; rw [hfree] at hf; simp only [SizeMod] at hf; omega)

theorem HandOff_step {σ σ1 : System} {a : Action} (h : HandOff σ)
    (hs : step σ a = some σ1) : HandOff σ1 := by
  have hcount := adaptive_step_count h.count hs
  have hslot := h.slot
  have hfree := h.free
  have hready := h.ready
  have hidle := countThreads_idle_le_ready σ.threads
  have hlive := countThreads_ready_le_live σ.threads
  unfold step at hs
  split at hs
  · cases hs
  rename_i hfin
  cases a with
  | add obj spawnOk => exact HandOff_add h hfin hs
  | waitEnter i =>
    simp only at hs
    split at hs
    · rename_i ht
      have h1 := countThreads_set idleWeight σ.threads i _ ThreadPc.waiting ht
      have h2 := countThreads_set readyWeight σ.threads i _ ThreadPc.waiting ht
      simp only [Option.some.injEq] at hs
      subst hs
      simp [idleWeight] at h1
      simp [readyWeight] at h2
      refine ⟨hcount, hslot, ?_, ?_, fun hc => absurd hc hfin⟩
      · show incrSize σ.impl.Free_ = _
        rw [hfree, h1]
        unfold incrSize
        simp only [SizeMod]
        split <;> omega
      · intro ho
        have := hready ho
        show 0 < countThreads readyWeight (σ.threads.set i ThreadPc.waiting)
        omega
    · cases hs
  | waitLeave i timedOut =>
    simp only [waitLeave] at hs
    split at hs
    · rename_i ht
      have h1 := countThreads_set idleWeight σ.threads i _ ThreadPc.exiting ht
      have h2 := fun o => countThreads_set idleWeight σ.threads i _ (ThreadPc.running o) ht
      simp [idleWeight] at h1 h2
      rcases WaitForJobLeave_cases σ.impl timedOut with he | he
      · rw [he] at hs
        cases hs
      · rw [he] at hs
        cases hobj : σ.impl.Obj_ with
        | none =>
          rw [hobj] at hs hslot
          simp only [Option.some.injEq] at hs
          subst hs
          refine ⟨hcount, hslot, ?_, (fun hc => by cases hc), fun hc => absurd hc hfin⟩
          show decrSize σ.impl.Free_ = countThreads idleWeight (σ.threads.set i _) % SizeMod
          rw [hfree]
          unfold decrSize
          simp only [SizeMod]
          split <;> omega
        | some o =>
          rw [hobj] at hs hslot
          simp only [Option.some.injEq] at hs
          subst hs
          have h3 := h2 o
          refine ⟨hcount, ?_, ?_, (fun hc => by cases hc), fun hc => absurd hc hfin⟩
          · show σ.submitted = (σ.taken ++ [o]) ++ []
            rw [hslot]
            simp
          · show decrSize σ.impl.Free_ = countThreads idleWeight (σ.threads.set i _) % SizeMod
            rw [hfree]
            unfold decrSize
            simp only [SizeMod]
            split <;> omega
    · cases hs
  | process i cdbgOk =>
    simp only [processStep] at hs
    split at hs
    · rename_i obj ht
      have h1 := countThreads_set idleWeight σ.threads i _ ThreadPc.calling ht
      have h2 := countThreads_set readyWeight σ.threads i _ ThreadPc.calling ht
      simp only [TMtpQueue.guardedProcess_ok, Option.some.injEq] at hs
      subst hs
      simp [idleWeight] at h1
      simp [readyWeight] at h2
      refine ⟨hcount, hslot, ?_, ?_, fun hc => absurd hc hfin⟩
      · show σ.impl.Free_ = _
        rw [hfree, h1]
      · intro ho
        show 0 < countThreads readyWeight (σ.threads.set i ThreadPc.calling)
        omega
    · cases hs
  | destroy i =>
    simp only at hs
    split at hs
    · rename_i ht
      have h1 := countThreads_set idleWeight σ.threads i _ ThreadPc.gone ht
      have h2 := countThreads_set readyWeight σ.threads i _ ThreadPc.gone ht
      simp only [Option.some.injEq] at hs
      subst hs
      simp [idleWeight] at h1
      simp [readyWeight] at h2
      refine ⟨hcount, hslot, ?_, ?_, fun hc => absurd hc hfin⟩
      · show σ.impl.Free_ = _
        rw [hfree, h1]
      · intro ho
        have := hready ho
        show 0 < countThreads readyWeight (σ.threads.set i ThreadPc.gone)
        omega
    · cases hs
  | stopBegin =>
    simp only at hs
    split at hs
    · simp only [Option.some.injEq] at hs
      subst hs
      exact ⟨hcount, hslot, hfree, hready, fun hc => by cases hc⟩
    · cases hs
  | stopEnd =>
    simp only at hs
    split at hs
    · rename_i hcond
      simp only [Option.some.injEq] at hs
      subst hs
      refine ⟨hcount, hslot, hfree, hready, fun _ => ?_⟩
      have h0 : σ.impl.ThrCount_ = 0 := by
        have := hcond.2
        simpa [TImpl.StopMayProceed] using this
      have hc := h.count
      show liveThreads σ.threads = 0
      omega
    · cases hs

theorem Reachable_HandOff {counter : Nat} {σ : System} (h : Reachable counter σ) :
    HandOff σ := by
  induction h with
  | start => exact HandOff_start counter
  | next σ σ1 a _ hs ih => exact HandOff_step ih hs

theorem addStep_spawn (σ : System) (obj : IObjectInQueue) (hslot : σ.impl.Obj_ = none)
    (hf : σ.impl.Free_ = 0) :
    addStep σ obj true =
      some { σ with impl := { σ.impl with ThrCount_ := σ.impl.ThrCount_ + 1, Obj_ := some obj },
                    threads := σ.threads ++ [ThreadPc.calling],
                    submitted := σ.submitted ++ [obj] } := by
  unfold addStep TImpl.Add
  cases hd : σ.impl.AllDone_ <;>
    simp [hslot, hf, hd, TImpl.AddThreadNoLock, TImpl.IncThreadCount]

theorem addStep_idle (σ : System) (obj : IObjectInQueue) (spawnOk : Bool)
    (hslot : σ.impl.Obj_ = none) (hf : σ.impl.Free_ ≠ 0) :
    addStep σ obj spawnOk =
      some { σ with impl := { σ.impl with Obj_ := some obj },
                    submitted := σ.submitted ++ [obj] } := by
  unfold addStep TImpl.Add
  cases hd : σ.impl.AllDone_ <;> simp [hslot, hf, hd]

theorem Add_effects (s : TImpl) (obj : IObjectInQueue) (spawnOk : Bool)
    (hslot : s.Obj_ = none) (hspawn : s.Free_ = 0 → spawnOk = true) :
    (s.Add obj spawnOk).2.2 = if s.Free_ = 0 then [Effect.run] else [] := by
  unfold TImpl.Add
  by_cases hf : s.Free_ = 0
  · have := hspawn hf
    subst this
    cases hd : s.AllDone_ <;> simp [hslot, hf, hd, TImpl.AddThreadNoLock, TImpl.IncThreadCount]
  · cases hd : s.AllDone_ <;> simp [hslot, hf, hd]

theorem Add_full_slot (s : TImpl) (obj : IObjectInQueue) (spawnOk : Bool)
    (hslot : s.Obj_.isSome = true) : s.Add obj spawnOk = (Call.blocked, s, []) := by
  unfold TImpl.Add
  rw [if_pos hslot]

theorem step_waitLeave_full (τ τ1 : System) (i : Nat) (timedOut : Bool) (o : IObjectInQueue)
    (ho : τ.impl.Obj_ = some o) (hs : step τ (Action.waitLeave i timedOut) = some τ1) :
    τ1.taken = τ.taken ++ [o] ∧ τ1.impl.Obj_ = none ∧ τ1.threads[i]? = some (ThreadPc.running o) ∧
      τ.threads[i]? = some ThreadPc.waiting := by
  unfold step at hs
  split at hs
  · cases hs
  simp only [waitLeave] at hs
  split at hs
  · rename_i ht
    have hlt : i < τ.threads.length := by
      rcases Nat.lt_or_ge i τ.threads.length with h | h
      · exact h
      · rw [List.getElem?_eq_none h] at ht; cases ht
    rcases WaitForJobLeave_cases τ.impl timedOut with he | he
    · rw [he] at hs
      cases hs
    · rw [he, ho] at hs
      simp only [Option.some.injEq] at hs
      subst hs
      refine ⟨rfl, rfl, ?_, ht⟩
      show (τ.threads.set i (ThreadPc.running o))[i]? = _
      simp [hlt]
  · cases hs

theorem step_waitLeave_takes (τ : System) (i : Nat) (o : IObjectInQueue)
    (hfin : τ.stop ≠ TMtpQueue.StopPc.finished) (ht : τ.threads[i]? = some ThreadPc.waiting)
    (ho : τ.impl.Obj_ = some o) :
    ∃ τ1, step τ (Action.waitLeave i false) = some τ1 ∧ τ1.taken = τ.taken ++ [o] ∧
      τ1.impl.Obj_ = none := by
  have hs : step τ (Action.waitLeave i false) =
      some { τ with impl := { τ.impl with Obj_ := none, Free_ := decrSize τ.impl.Free_ },
                    threads := τ.threads.set i (ThreadPc.running o),
                    taken := τ.taken ++ [o] } := by
    unfold step
    rw [if_neg hfin]
    simp only [waitLeave, ht, TImpl.WaitForJobLeave, ho, Option.isNone_some, Bool.false_eq_true,
      false_and, if_false]
  exact ⟨_, hs, rfl, rfl⟩

/-- C21: thread growth of the adaptive queue.  In a state `σ` of a started
adaptive queue (its `TImpl` exists) whose slot `Obj_` is empty, `Add(obj)`,
with the pool starting the thread that `Add` asks for, does not wait and
raises `ThrCount_` by one exactly when `Free_ = 0`: then exactly one thread is
created; when `Free_ ≠ 0` some thread is inside `WaitForJob`, and the count
and the threads stay as they are.  In both cases `obj` is in the slot
afterwards.  The slot holds one object at most: `Add` on a full slot waits
and changes nothing.  Every object put into the slot is returned by exactly
one `WaitForJob`: the objects put in are those returned so far, in order,
followed by the one in the slot; every return of `WaitForJob` from a full slot
returns its object and empties it; and for an object in the slot a thread
exists whose `WaitForJob` can return it. -/
theorem adaptive_thread_growth (counter : Nat) (σ : System) (hr : Reachable counter σ)
    (obj : IObjectInQueue) (spawnOk : Bool)
    (hstarted : σ.stop ≠ TMtpQueue.StopPc.finished) (hslot : σ.impl.Obj_ = none)
    (hspawn : σ.impl.Free_ = 0 → spawnOk = true) :
    (∃ σ1, step σ (Action.add obj spawnOk) = some σ1 ∧
      (σ1.impl.ThrCount_ = σ.impl.ThrCount_ + 1 ↔ σ.impl.Free_ = 0) ∧
      (σ.impl.Free_ = 0 → σ1.threads = σ.threads ++ [ThreadPc.calling] ∧
        liveThreads σ1.threads = liveThreads σ.threads + 1) ∧
      (σ.impl.Free_ ≠ 0 → σ1.impl.ThrCount_ = σ.impl.ThrCount_ ∧ σ1.threads = σ.threads ∧
        0 < countThreads idleWeight σ.threads) ∧
      σ1.impl.Obj_ = some obj ∧ σ1.submitted = σ.submitted ++ [obj] ∧ σ1.taken = σ.taken) ∧
    ((σ.impl.Add obj spawnOk).2.2 = if σ.impl.Free_ = 0 then [Effect.run] else []) ∧
    (countThreads idleWeight σ.threads < SizeMod →
      (σ.impl.Free_ = 0 ↔ countThreads idleWeight σ.threads = 0)) ∧
    (∀ τ o sp, Reachable counter τ → τ.impl.Obj_.isSome = true →
      step τ (Action.add o sp) = none ∧ τ.impl.Add o sp = (Call.blocked, τ.impl, [])) ∧
    (∀ τ, Reachable counter τ → τ.submitted = τ.taken ++ τ.impl.Obj_.toList) ∧
    (∀ τ τ1 i timedOut o, τ.impl.Obj_ = some o →
      step τ (Action.waitLeave i timedOut) = some τ1 →
      τ1.taken = τ.taken ++ [o] ∧ τ1.impl.Obj_ = none ∧
        τ1.threads[i]? = some (ThreadPc.running o)) ∧
    (∀ τ o, Reachable counter τ → τ.impl.Obj_ = some o →
      ∃ acts τ1, acts.length ≤ 2 ∧ run τ acts = some τ1 ∧ τ1.taken = τ.taken ++ [o] ∧
        τ1.impl.Obj_ = none) := by
  have hstep : step σ (Action.add obj spawnOk) = addStep σ obj spawnOk := by
    unfold step
    rw [if_neg hstarted]
  have hinv := Reachable_HandOff hr
  have hfree := hinv.free
  refine ⟨?_, Add_effects σ.impl obj spawnOk hslot hspawn, ?_, ?_, ?_, ?_, ?_⟩
  · by_cases hf : σ.impl.Free_ = 0
    · have hsp := hspawn hf
      subst hsp
      refine ⟨_, hstep.trans (addStep_spawn σ obj hslot hf), ?_, ?_, ?_, rfl, rfl, rfl⟩
      · exact ⟨fun _ => hf, fun _ => rfl⟩
      · intro _
        exact ⟨rfl, liveThreads_append_calling σ.threads⟩
      · intro hne
        exact absurd hf hne
    · refine ⟨_, hstep.trans (addStep_idle σ obj spawnOk hslot hf), ?_, ?_, ?_, rfl, rfl, rfl⟩
      · constructor
        · intro h1
          have h2 : σ.impl.ThrCount_ = σ.impl.ThrCount_ + 1 := h1
          omega
        · intro h1
          exact absurd h1 hf
      · intro h1
        exact absurd h1 hf
      · intro _
        refine ⟨rfl, rfl, ?_⟩
        rw [hfree] at hf
        rcases Nat.eq_zero_or_pos (countThreads idleWeight σ.threads) with h0 | h0
        · rw [h0] at hf
          exact absurd rfl hf
        · exact h0
  · intro hlt
    rw [hfree, Nat.mod_eq_of_lt hlt]
  · intro τ o sp hτ hfull
    have hb := Add_full_slot τ.impl o sp hfull
    refine ⟨?_, hb⟩
    unfold step
    split
    · rfl
    · show addStep τ o sp = none
      unfold addStep
      rw [hb]
  · intro τ hτ
    exact (Reachable_HandOff hτ).slot
  · intro τ τ1 i timedOut o ho hs
    have h := step_waitLeave_full τ τ1 i timedOut o ho hs
    exact ⟨h.1, h.2.1, h.2.2.1⟩
  · intro τ o hτ ho
    have hi := Reachable_HandOff hτ
    have hready := hi.ready (by rw [ho]; rfl)
    have hfin : τ.stop ≠ TMtpQueue.StopPc.finished := by
      intro hc
      have h0 := hi.alive hc
      have hle := countThreads_ready_le_live τ.threads
      omega
    obtain ⟨i, hcall | hwait⟩ := countThreads_ready_pos τ.threads hready
    · have hlt : i < τ.threads.length := by
        rcases Nat.lt_or_ge i τ.threads.length with h | h
        · exact h
        · rw [List.getElem?_eq_none h] at hcall; cases hcall
      have hs1 : step τ (Action.waitEnter i) =
          some { τ with impl := τ.impl.WaitForJobEnter,
                        threads := τ.threads.set i ThreadPc.waiting } := by
        unfold step
        rw [if_neg hfin]
        simp only [hcall]
      obtain ⟨τ2, hs2, ht2, ho2⟩ := step_waitLeave_takes
        { τ with impl := τ.impl.WaitForJobEnter, threads := τ.threads.set i ThreadPc.waiting }
        i o hfin (by simp [hlt]) ho
      refine ⟨[Action.waitEnter i, Action.waitLeave i false], τ2, by simp, ?_, ht2, ho2⟩
      simp only [run, hs1, hs2]
    · obtain ⟨τ2, hs2, ht2, ho2⟩ := step_waitLeave_takes τ i o hfin hwait ho
      refine ⟨[Action.waitLeave i false], τ2, by simp, ?_, ht2, ho2⟩
      simp only [run, hs2]

/-- Witness of C21: on the fresh queue, where no thread is idle, `Add` creates
the first thread; in `idleDemo`, where the only thread is idle, `Add` creates
none; in both the object is in the slot afterwards. -/
theorem adaptive_thread_growth_witness :
    (∃ σ1, step (System.start 1) (Action.add (TMtpQueue.item 0) true) = some σ1 ∧
      σ1.impl.ThrCount_ = 1 ∧ σ1.threads = [ThreadPc.calling] ∧
      σ1.impl.Obj_ = some (TMtpQueue.item 0)) ∧
    (Reachable 1 idleDemo ∧
      ∃ σ1, step idleDemo (Action.add (TMtpQueue.item 1) false) = some σ1 ∧
        σ1.impl.ThrCount_ = 1 ∧ σ1.threads = [ThreadPc.waiting] ∧
        σ1.impl.Obj_ = some (TMtpQueue.item 1)) := by
  have hreach : Reachable 1 idleDemo :=
    adaptive_reachable_run idleSchedule Reachable.start idleSchedule_run
  refine ⟨?_, hreach, ?_⟩
  · obtain ⟨σ1, hs, hiff, hgrow, _, hobj, _⟩ :=
      (adaptive_thread_growth 1 (System.start 1) Reachable.start (TMtpQueue.item 0) true
        (by decide) rfl (fun _ => rfl)).1
    exact ⟨σ1, hs, hiff.mpr rfl, (hgrow rfl).1, hobj⟩
  · obtain ⟨σ1, hs, _, _, hsame, hobj, _⟩ :=
      (adaptive_thread_growth 1 idleDemo hreach (TMtpQueue.item 1) false
        (by decide) rfl (fun h => absurd h (by decide))).1
    have h := hsame (by decide)
    exact ⟨σ1, hs, h.1, h.2.1, hobj⟩

end TAdaptiveMtpQueue
end MtpQueue

/-! ## Percent-escaping -/

namespace Quoting

theorem getD_foldl_set (ps : List Byte) (v : Bool) (m : List Bool) (x : Byte)
    (hm : m.length = 256) :
    ((ps.foldl (fun acc p => acc.set p.val v) m).getD x.val false) =
      (if x ∈ ps then v else m.getD x.val false) ∧
    (ps.foldl (fun acc p => acc.set p.val v) m).length = 256 := by
  induction ps generalizing m with
  | nil => simp [hm]
  | cons p rest ih =>
    have hlen : (m.set p.val v).length = 256 := by simp [hm]
    obtain ⟨h1, h2⟩ := ih (m.set p.val v) hlen
    simp only [List.foldl_cons]
    refine ⟨?_, h2⟩
    rw [h1]
    by_cases hx : x ∈ rest
    · simp [hx]
    · by_cases hp : x = p
      · subst hp
        have hlt : x.val < m.length := by rw [hm]; exact x.isLt
        simp [hx, List.getD_eq_getElem?_getD, List.getElem?_set, hlt]
      · have hne : p.val ≠ x.val := fun h => hp (Fin.ext h.symm)
        simp [hx, hp, List.getD_eq_getElem?_getD, List.getElem?_set, hne]

set_option maxRecDepth 8000 in
theorem table_length : chars_to_url_escape.length = 256 := by
  rfl

theorem two_folds (tbl : List Bool) (res safe : List Byte) (x : Byte)
    (h : tbl.length = 256) :
    (safe.foldl (fun m p => m.set p.val false)
        (res.foldl (fun m p => m.set p.val true) tbl)).getD x.val false =
      (if x ∈ safe then false else if x ∈ res then true else tbl.getD x.val false) := by
  have h1 := getD_foldl_set res true tbl x h
  have h2 := getD_foldl_set safe false (res.foldl (fun m p => m.set p.val true) tbl) x h1.2
  rw [h2.1, h1.1]

theorem Escape_eq_flatMap (src : List Byte) (m : List Bool) :
    Escape src m = src.flatMap (escapeByte m) := by
  induction src with
  | nil => rfl
  | cons x rest ih => simp [Escape, ih, List.flatMap_cons]

/-- C18 (the code at the failing inputs): `CGIEscape` percent-escapes the
apostrophe (byte `0x27`) and the backtick (byte `0x60`), which are printable
and are not among the 19 characters listed above `chars_to_url_escape`. -/
theorem cgiEscape_apostrophe_backtick :
    CGIEscape [0x27] = [0x25, 0x32, 0x37] ∧ CGIEscape [0x60] = [0x25, 0x36, 0x30] ∧
    (0x27 : Byte) ∉ documented ∧ (0x60 : Byte) ∉ documented ∧
    ¬ ((0x27 : Byte).val < 0x20 ∨ 0x7E < (0x27 : Byte).val) ∧
    ¬ ((0x60 : Byte).val < 0x20 ∨ 0x7E < (0x60 : Byte).val) := by
  decide

/-- C19: `Quote(to, s, safe)` honours the safe set.  The output is the
concatenation, byte by byte, of what `Escape` writes for each byte of `s`; a
byte is percent-escaped exactly when it is not among the characters of the
zero-terminated `safe` and it is either escaped by `CGIEscape` (its entry of
`chars_to_url_escape` is set) or one of the reserved characters
`:/?#[]@!$&'()*+,;=`; every other byte is written as `'+'` if it is a space
and unchanged otherwise. -/
theorem quote_honours_safe (s safe : List Byte) (x : Byte) :
    Quote s safe = s.flatMap (escapeByte (quoteMap safe)) ∧
    (escapeByte (quoteMap safe) x = [0x25, d2x (x.val >>> 4), d2x (x.val &&& 0xF)] ↔
      (x ∉ cstr safe ∧ (CGIEscape [x] = [0x25, d2x (x.val >>> 4), d2x (x.val &&& 0xF)] ∨
        x ∈ reserved))) ∧
    (x ∈ cstr safe → escapeByte (quoteMap safe) x = [if x = 0x20 then 0x2B else x]) ∧
    (x ∈ reserved → x ∉ cstr safe →
      escapeByte (quoteMap safe) x = [0x25, d2x (x.val >>> 4), d2x (x.val &&& 0xF)]) := by
  have htbl := table_length
  have hres : cstr (reserved ++ [0]) = reserved := by decide
  have hmap : (quoteMap safe).getD x.val false =
      (if x ∈ cstr safe then false
        else if x ∈ reserved then true else chars_to_url_escape.getD x.val false) := by
    unfold quoteMap
    simp only [hres]
    exact two_folds _ _ _ x htbl
  have hcgi : CGIEscape [x] = [0x25, d2x (x.val >>> 4), d2x (x.val &&& 0xF)] ↔
      chars_to_url_escape.getD x.val false = true := by
    unfold CGIEscape Escape Escape escapeByte
    by_cases ht : chars_to_url_escape.getD x.val false = true
    · simp [ht]
    · simp [ht]
  have hiff : escapeByte (quoteMap safe) x = [0x25, d2x (x.val >>> 4), d2x (x.val &&& 0xF)] ↔
      (quoteMap safe).getD x.val false = true := by
    unfold escapeByte
    by_cases ht : (quoteMap safe).getD x.val false = true
    · simp [ht]
    · simp [ht]
  refine ⟨Escape_eq_flatMap s _, ?_, ?_, ?_⟩
  · rw [hiff, hmap, hcgi]
    by_cases hs : x ∈ cstr safe <;> by_cases hr : x ∈ reserved <;> simp [hs, hr]
  · intro hs
    unfold escapeByte
    rw [hmap]
    simp [hs]
  · intro hr hs
    rw [hiff, hmap]
    simp [hs, hr]

/-- Witness of C19: with `safe = "/"` the slash is copied, the colon and the
apostrophe are percent-escaped and the space becomes `'+'`. -/
theorem quote_honours_safe_witness :
    Quote [0x2F, 0x3A, 0x27, 0x20, 0x61] [0x2F, 0] =
      [0x2F, 0x25, 0x33, 0x41, 0x25, 0x32, 0x37, 0x2B, 0x61] ∧
    ((0x2F : Byte) ∈ cstr [0x2F, 0] →
      escapeByte (quoteMap [0x2F, 0]) 0x2F = [if (0x2F : Byte) = 0x20 then 0x2B else 0x2F]) :=
  ⟨by decide, (quote_honours_safe [0x2F, 0x3A, 0x27, 0x20, 0x61] [0x2F, 0] 0x2F).2.2.1⟩

end Quoting

/-! ## Case-insensitive comparison -/

namespace Ascii

/-- C20 (the code at the failing input): for the byte strings `"a\0b"` and
`"a\0c"` of length 3, which differ at index 2 also after lower-casing,
`AsciiEqualsIgnoreCase` returns `true`: `strnicmp` stops at the zero
character. -/
theorem asciiEquals_embedded_zero :
    AsciiEqualsIgnoreCase (TFixedString.ofList [0x61, 0, 0x62])
      (TFixedString.ofList [0x61, 0, 0x63]) = true ∧
    toLower 0x62 ≠ toLower 0x63 ∧
    ([0x61, 0, 0x62] : List Quoting.Byte).length = ([0x61, 0, 0x63] : List Quoting.Byte).length := by
  decide

end Ascii

namespace Split

variable {α : Type}

/-! ## Ranges of a buffer -/

theorem seg_length (buf : List α) (b e : Nat) (he : e ≤ buf.length) :
    (seg buf b e).length = e - b := by
  simp only [seg, List.length_take, List.length_drop]
  omega

theorem seg_self (buf : List α) (b : Nat) : seg buf b b = [] := by
  simp [seg]

theorem seg_drop (buf : List α) (b e j : Nat) :
    (seg buf b e).drop j = seg buf (b + j) e := by
  simp only [seg, List.drop_take, List.drop_drop]
  congr 1
  omega

theorem seg_whole (s : List α) : seg s 0 s.length = s := by
  simp [seg]

theorem seg_cons (buf : List α) (cur e : Nat) (x : α) (xs : List α)
    (h : seg buf cur e = x :: xs) :
    seg buf (cur + 1) e = xs ∧ cur < e ∧ buf[cur]? = some x := by
  have h1 : seg buf (cur + 1) e = xs := by
    rw [← seg_drop, h]; rfl
  have h2 : cur < e := by
    by_contra hc
    have : e - cur = 0 := by omega
    simp [seg, this] at h
  refine ⟨h1, h2, ?_⟩
  have h3 : (seg buf cur e)[0]? = some x := by rw [h]; simp
  simp only [seg, List.getElem?_take, List.getElem?_drop] at h3
  have h4 : 0 < e - cur := by omega
  simpa [h4] using h3

theorem seg_snoc (buf : List α) (start cur : Nat) (x : α) (hs : start ≤ cur)
    (hx : buf[cur]? = some x) : seg buf start (cur + 1) = seg buf start cur ++ [x] := by
  have hlt : cur < buf.length := by
    rcases Nat.lt_or_ge cur buf.length with h | h
    · exact h
    · rw [List.getElem?_eq_none h] at hx; cases hx
  have hx2 : buf[cur] = x := by
    rw [List.getElem?_eq_getElem hlt] at hx; exact Option.some.inj hx
  simp only [seg]
  have e1 : cur + 1 - start = (cur - start) + 1 := by omega
  rw [e1, List.take_succ]
  congr 1
  rw [List.getElem?_drop]
  have e2 : start + (cur - start) = cur := by omega
  rw [e2, hx]; rfl

/-! ## The first delimiter -/

theorem firstIdx_lt (p : α → Bool) : ∀ (xs : List α) (k : Nat),
    firstIdx p xs = some k → k < xs.length
  | [], k, h => by simp [firstIdx] at h
  | x :: xs, k, h => by
      simp only [firstIdx] at h
      split at h
      · cases h; simp
      · cases hk : firstIdx p xs with
        | none => simp [hk] at h
        | some j =>
            rw [hk] at h
            have h2 : j + 1 = k := Option.some.inj h
            have := firstIdx_lt p xs j hk
            simp only [List.length_cons]; omega

theorem calls_firstIdx (p : α → Bool) : ∀ (xs : List α) (start cur : Nat),
    calls p start cur xs =
      match firstIdx p xs with
      | some k => (start, cur + k, cur + k + 1) ::
          calls p (cur + k + 1) (cur + k + 1) (xs.drop (k + 1))
      | none => [(start, cur + xs.length, cur + xs.length)]
  | [], start, cur => by simp [calls, firstIdx]
  | x :: xs, start, cur => by
      by_cases hp : p x = true
      · simp [calls, firstIdx, hp]
      · have ih := calls_firstIdx p xs start (cur + 1)
        simp only [calls, firstIdx, hp, Bool.false_eq_true, if_false]
        rw [ih]
        cases firstIdx p xs with
        | none =>
            have e1 : cur + 1 + xs.length = cur + (x :: xs).length := by
              simp only [List.length_cons]; omega
            rw [e1]; rfl
        | some k =>
            have e1 : cur + 1 + k = cur + (k + 1) := by omega
            show (start, cur + 1 + k, cur + 1 + k + 1) ::
                calls p (cur + 1 + k + 1) (cur + 1 + k + 1) (List.drop (k + 1) xs) =
              (start, cur + (k + 1), cur + (k + 1) + 1) ::
                calls p (cur + (k + 1) + 1) (cur + (k + 1) + 1) (List.drop (k + 1) xs)
            rw [e1]

/-- For a delimiter that ends a token at the first character satisfying `p`,
the range form of `SplitString` makes the calls `calls p b b` to its consumer
until one returns `false`; `e - b + 1` iterations are enough. -/
theorem SplitString_pred {σ : Type} (d : TDelim α) (c : TConsumer α σ) (p : α → Bool)
    (buf : List α) (e : Nat) (he : e ≤ buf.length)
    (hd : ∀ b, b ≤ e → d.Find buf b e =
      match firstIdx p (seg buf b e) with
      | some k => (b + k, b + k + 1)
      | none => (e, e)) :
    ∀ (fuel b : Nat) (st : σ), b ≤ e → e - b < fuel →
      SplitString fuel d c buf b e st = some (feed c buf st (calls p b b (seg buf b e))) := by
  intro fuel
  induction fuel with
  | zero => intro b st _ h; omega
  | succ fuel ih =>
      intro b st hb hf
      rw [SplitString, hd b hb, calls_firstIdx]
      cases hk : firstIdx p (seg buf b e) with
      | none =>
          have hl := seg_length buf b e he
          have e1 : b + (seg buf b e).length = e := by omega
          simp only [e1, feed, bne_self_eq_false, Bool.and_false, Bool.false_eq_true, if_false]
          split <;> rfl
      | some k =>
          have hlt := firstIdx_lt p _ k hk
          rw [seg_length buf b e he] at hlt
          simp only [feed]
          have hne : (b + k + 1 != b + k) = true := by simp
          rw [hne, Bool.and_true]
          split
          · rw [ih (b + k + 1) _ (by omega) (by omega), seg_drop]
            rfl
          · rfl

/-! ## Tokens -/

theorem splitOnP_length (p : α → Bool) : ∀ xs : List α,
    (xs.splitOnP p).length = xs.countP p + 1
  | [] => by simp
  | x :: xs => by
      have ih := splitOnP_length p xs
      rw [List.splitOnP_cons]
      by_cases hp : p x = true
      · simp [hp, ih]
      · simp [hp, ih, List.length_modifyHead]

theorem splitOnP_no_delim (p : α → Bool) : ∀ xs : List α,
    ∀ t ∈ xs.splitOnP p, ∀ x ∈ t, ¬ p x = true
  | [] => by simp
  | x :: xs => by
      have ih := splitOnP_no_delim p xs
      rw [List.splitOnP_cons]
      by_cases hp : p x = true
      · simp only [hp, if_true, List.mem_cons]
        rintro t (rfl | ht)
        · simp
        · exact ih t ht
      · simp only [hp, Bool.false_eq_true, if_false]
        cases hs : List.splitOnP p xs with
        | nil => simp [List.modifyHead]
        | cons t0 ts =>
            rw [hs] at ih
            simp only [List.modifyHead, List.mem_cons]
            rintro t (rfl | ht)
            · intro y hy
              rcases List.mem_cons.mp hy with rfl | hy
              · exact hp
              · exact ih t0 (List.mem_cons_self _ _) y hy
            · exact ih t (List.mem_cons_of_mem _ ht)

theorem modifyHead_modifyHead (f g : List α → List α) (l : List (List α)) :
    (l.modifyHead g).modifyHead f = l.modifyHead (f ∘ g) := by
  cases l <;> rfl

/-- The tokens of the calls: the first token starts at `start`, the others
where the previous delimiter ended. -/
theorem calls_tokens (p : α → Bool) (buf : List α) (e : Nat) :
    ∀ (xs : List α) (start cur : Nat), start ≤ cur → seg buf cur e = xs →
      (calls p start cur xs).map (fun t => seg buf t.1 t.2.1) =
        (xs.splitOnP p).modifyHead (fun t => seg buf start cur ++ t)
  | [], start, cur, _, _ => by simp [calls, List.modifyHead]
  | x :: xs, start, cur, hs, hx => by
      obtain ⟨h1, _, h3⟩ := seg_cons buf cur e x xs hx
      rw [List.splitOnP_cons]
      by_cases hp : p x = true
      · have ih := calls_tokens p buf e xs (cur + 1) (cur + 1) (Nat.le_refl _) h1
        simp only [calls, hp, if_true, List.map_cons, ih, seg_self, List.modifyHead,
          List.append_nil]
        congr 1
        cases List.splitOnP p xs <;> simp [List.modifyHead]
      · have ih := calls_tokens p buf e xs start (cur + 1) (by omega) h1
        simp only [calls, hp, Bool.false_eq_true, if_false, ih, modifyHead_modifyHead]
        congr 1
        funext t
        simp [seg_snoc buf start cur x hs h3]

theorem feed_container (buf : List α) : ∀ (cs : List (Nat × Nat × Nat)) (C : List (List α)),
    feed TContainerConsumer buf C cs = C ++ cs.map (fun t => seg buf t.1 t.2.1)
  | [], C => by simp [feed]
  | t :: cs, C => by
      have ih := feed_container buf cs (C ++ [seg buf t.1 t.2.1])
      simp only [feed, TContainerConsumer, if_true, List.map_cons] at ih ⊢
      rw [ih, List.append_assoc]
      rfl

theorem TCharDelimiter_Find [DecidableEq α] (c : α) (buf : List α) (b e : Nat) (hb : b ≤ e) :
    (TCharDelimiter c).Find buf b e =
      match firstIdx (fun x => x == c) (seg buf b e) with
      | some k => (b + k, b + k + 1)
      | none => (e, e) := by
  have e1 : b + (e - b) = e := by omega
  simp only [TCharDelimiter, TCharTraits.FindN, e1]
  cases firstIdx (fun x => x == c) (seg buf b e) <;> rfl

theorem TSetDelimiter_Find [DecidableEq α] (set : List α) (buf : List α) (b e : Nat)
    (he : e ≤ buf.length) :
    (TSetDelimiter set).Find buf b e =
      match firstIdx (fun x => decide (x ∈ set)) (seg buf b e) with
      | some k => (b + k, b + k + 1)
      | none => (e, e) := by
  simp only [TSetDelimiter, TCompactStrSpn.FindFirstOf]
  cases hk : firstIdx (fun x => decide (x ∈ set)) (seg buf b e) with
  | none => simp
  | some k =>
      have hlt := firstIdx_lt _ _ k hk
      rw [seg_length buf b e he] at hlt
      have : b + k ≠ e := by omega
      simp [this]

theorem seg_eq_nil_iff (buf : List α) (b d : Nat) (hb : b ≤ d) (hd : d ≤ buf.length) :
    seg buf b d = [] ↔ b = d := by
  constructor
  · intro h
    have := seg_length buf b d hd
    rw [h] at this
    simp only [List.length_nil] at this
    omega
  · rintro rfl
    exact seg_self buf b

/-- The calls stay inside the range and their positions are ordered. -/
theorem calls_bounds (p : α → Bool) (buf : List α) (e : Nat) (he : e ≤ buf.length) :
    ∀ (xs : List α) (start cur : Nat), start ≤ cur → cur ≤ e → seg buf cur e = xs →
      ∀ t ∈ calls p start cur xs, start ≤ t.1 ∧ t.1 ≤ t.2.1 ∧ t.2.1 ≤ t.2.2 ∧ t.2.2 ≤ e
  | [], start, cur, hs, hc, _ => by
      intro t ht
      simp only [calls, List.mem_singleton] at ht
      subst ht
      simp only [le_refl, true_and]
      exact ⟨hs, hc⟩
  | x :: xs, start, cur, hs, _, hx => by
      obtain ⟨h1, h2, _⟩ := seg_cons buf cur e x xs hx
      intro t ht
      by_cases hp : p x = true
      · simp only [calls, hp, if_true, List.mem_cons] at ht
        rcases ht with rfl | ht
        · simp only [le_refl, true_and]
          exact ⟨hs, by omega, h2⟩
        · have := calls_bounds p buf e he xs (cur + 1) (cur + 1) (Nat.le_refl _) h2 h1 t ht
          omega
      · simp only [calls, hp, Bool.false_eq_true, if_false] at ht
        have := calls_bounds p buf e he xs start (cur + 1) (by omega) h2 h1 t ht
        omega

theorem feed_skip (buf : List α) : ∀ (cs : List (Nat × Nat × Nat)) (C : List (List α)),
    (∀ t ∈ cs, t.1 ≤ t.2.1 ∧ t.2.1 ≤ buf.length) →
    feed (TSkipEmptyTokens TContainerConsumer) buf C cs =
      C ++ (cs.map (fun t => seg buf t.1 t.2.1)).filter (fun t => !t.isEmpty)
  | [], C, _ => by simp [feed]
  | t :: cs, C, h => by
      have ht := h t (List.mem_cons_self _ _)
      have hcs : ∀ u ∈ cs, u.1 ≤ u.2.1 ∧ u.2.1 ≤ buf.length :=
        fun u hu => h u (List.mem_cons_of_mem _ hu)
      have hnil := seg_eq_nil_iff buf t.1 t.2.1 ht.1 ht.2
      by_cases hbd : t.1 = t.2.1
      · have ih := feed_skip buf cs C hcs
        have hs : seg buf t.1 t.2.1 = [] := hnil.mpr hbd
        rw [List.map_cons, List.filter_cons, hs]
        simp only [feed, TSkipEmptyTokens, TContainerConsumer, hbd, ne_eq, not_true_eq_false,
          if_false, if_true] at ih ⊢
        rw [ih]
        rfl
      · have ih := feed_skip buf cs (C ++ [seg buf t.1 t.2.1]) hcs
        have hs : seg buf t.1 t.2.1 ≠ [] := fun h => hbd (hnil.mp h)
        simp only [feed, TSkipEmptyTokens, TContainerConsumer, hbd, ne_eq, not_false_eq_true,
          if_true, List.map_cons] at ih ⊢
        rw [ih, List.filter_cons]
        have : (!(seg buf t.1 t.2.1).isEmpty) = true := by
          cases hh : seg buf t.1 t.2.1 with
          | nil => exact absurd hh hs
          | cons _ _ => rfl
        simp [this]

theorem splitOnP_flatten (p : α → Bool) : ∀ xs : List α,
    (xs.splitOnP p).flatten = xs.filter (fun x => !p x)
  | [] => by simp
  | x :: xs => by
      have ih := splitOnP_flatten p xs
      rw [List.splitOnP_cons]
      by_cases hp : p x = true
      · simp [hp, ih]
      · cases hs : List.splitOnP p xs with
        | nil => exact absurd hs (List.splitOnP_ne_nil p xs)
        | cons t0 ts =>
            rw [hs] at ih
            simp only [List.flatten_cons] at ih
            simp only [hp, Bool.false_eq_true, if_false, List.modifyHead, List.flatten_cons,
              List.cons_append, ih, List.filter_cons, Bool.not_false, if_true]

theorem flatten_filter_nonempty : ∀ L : List (List α),
    (L.filter (fun t => !t.isEmpty)).flatten = L.flatten
  | [] => rfl
  | [] :: L => by
      simp only [List.filter_cons, List.isEmpty_nil, Bool.not_true, Bool.false_eq_true, if_false,
        List.flatten_cons, List.nil_append]
      exact flatten_filter_nonempty L
  | (x :: t) :: L => by
      simp only [List.filter_cons, List.isEmpty_cons, Bool.not_false, if_true, List.flatten_cons]
      rw [flatten_filter_nonempty L]

/-! ## Pieces with their delimiters -/

theorem feed_keep (buf : List α) : ∀ (cs : List (Nat × Nat × Nat)) (C : List (List α)),
    feed (TKeepDelimiters TContainerConsumer) buf C cs = C ++ cs.flatMap (keptPieces buf)
  | [], C => by simp [feed]
  | t :: cs, C => by
      by_cases hde : t.2.1 = t.2.2
      · have ih := feed_keep buf cs (C ++ [seg buf t.1 t.2.1])
        simp only [feed, TKeepDelimiters, TContainerConsumer, hde, ne_eq, not_true_eq_false,
          if_false, if_true, List.flatMap_cons, keptPieces] at ih ⊢
        rw [ih, List.append_assoc]
      · have ih := feed_keep buf cs (C ++ [seg buf t.1 t.2.1] ++ [seg buf t.2.1 t.2.2])
        simp only [feed, TKeepDelimiters, TContainerConsumer, hde, ne_eq, not_false_eq_true,
          if_true, List.flatMap_cons, keptPieces] at ih ⊢
        rw [ih]
        simp [List.append_assoc]

theorem seg_single (buf : List α) (cur : Nat) (x : α) (hx : buf[cur]? = some x) :
    seg buf cur (cur + 1) = [x] := by
  rw [seg_snoc buf cur cur x (Nat.le_refl _) hx, seg_self]
  rfl

theorem intersperse_cons_ne_nil (sep a : List α) : ∀ (L : List (List α)), L ≠ [] →
    (a :: L).intersperse sep = a :: sep :: L.intersperse sep
  | [], h => absurd rfl h
  | _ :: _, _ => rfl

theorem intersperse_modifyHead (sep : List α) (f : List α → List α) : ∀ L : List (List α),
    (L.modifyHead f).intersperse sep = (L.intersperse sep).modifyHead f
  | [] => rfl
  | [_] => rfl
  | _ :: _ :: _ => rfl

theorem keptPieces_delim (buf : List α) (start cur : Nat) (x : α) (hx : buf[cur]? = some x) :
    keptPieces buf (start, cur, cur + 1) = [seg buf start cur, [x]] := by
  have hne : cur ≠ cur + 1 := by omega
  simp only [keptPieces, hne, ne_eq, not_false_eq_true, if_true, seg_single buf cur x hx]

/-- The pieces that `TKeepDelimiters` passes on for the calls of a character
delimiter: the tokens with the delimiter between them. -/
theorem calls_pieces [DecidableEq α] (c : α) (buf : List α) (e : Nat) :
    ∀ (xs : List α) (start cur : Nat), start ≤ cur → seg buf cur e = xs →
      (calls (fun x => x == c) start cur xs).flatMap (keptPieces buf) =
        ((xs.splitOnP (fun x => x == c)).intersperse [c]).modifyHead
          (fun t => seg buf start cur ++ t)
  | [], start, cur, _, _ => by simp [calls, List.modifyHead, keptPieces]
  | x :: xs, start, cur, hs, hx => by
      obtain ⟨h1, _, h3⟩ := seg_cons buf cur e x xs hx
      rw [List.splitOnP_cons]
      by_cases hp : (x == c) = true
      · have ih := calls_pieces c buf e xs (cur + 1) (cur + 1) (Nat.le_refl _) h1
        have hxc : x = c := by simpa using hp
        have hm : ∀ L : List (List α), L.modifyHead (fun t => seg buf (cur + 1) (cur + 1) ++ t)
            = L := by
          intro L; cases L <;> simp [List.modifyHead, seg_self]
        rw [hm] at ih
        rw [if_pos hp, intersperse_cons_ne_nil [c] [] _ (List.splitOnP_ne_nil _ xs), calls,
          if_pos hp, List.flatMap_cons, ih, keptPieces_delim buf start cur x h3, hxc]
        simp [List.modifyHead]
      · have ih := calls_pieces c buf e xs start (cur + 1) (by omega) h1
        simp only [calls, hp, Bool.false_eq_true, if_false, ih, intersperse_modifyHead,
          modifyHead_modifyHead]
        congr 1
        funext t
        simp [seg_snoc buf start cur x hs h3]

theorem intersperse_length (sep : α) : ∀ L : List α, L ≠ [] →
    (L.intersperse sep).length + 1 = 2 * L.length
  | [], h => absurd rfl h
  | [_], _ => rfl
  | a :: b :: L, _ => by
      have ih := intersperse_length sep (b :: L) (List.cons_ne_nil _ _)
      simp only [List.intersperse, List.length_cons] at ih ⊢
      omega

theorem intersperse_even (sep : α) : ∀ (L : List α) (i : Nat),
    (L.intersperse sep)[2 * i]? = L[i]?
  | [], i => by simp
  | [a], i => by
      cases i with
      | zero => rfl
      | succ i =>
          have e1 : 2 * (i + 1) = 2 * i + 1 + 1 := by omega
          rw [e1]
          rfl
  | a :: b :: L, i => by
      cases i with
      | zero => rfl
      | succ i =>
          have ih := intersperse_even sep (b :: L) i
          have e1 : 2 * (i + 1) = 2 * i + 1 + 1 := by omega
          rw [e1]
          simp only [List.intersperse, List.getElem?_cons_succ] at ih ⊢
          exact ih

theorem intersperse_odd (sep : α) : ∀ (L : List α) (i : Nat),
    2 * i + 1 < (L.intersperse sep).length → (L.intersperse sep)[2 * i + 1]? = some sep
  | [], i, h => by simp at h
  | [a], i, h => by simp [List.intersperse] at h
  | a :: b :: L, i, h => by
      cases i with
      | zero => simp [List.intersperse]
      | succ i =>
          have e1 : 2 * (i + 1) + 1 = 2 * i + 1 + 1 + 1 := by omega
          rw [e1] at h ⊢
          simp only [List.intersperse, List.length_cons, List.getElem?_cons_succ] at h ⊢
          exact intersperse_odd sep (b :: L) i (by omega)

/-! ## A limit on the number of tokens -/

theorem calls_tokens_self (p : α → Bool) (buf : List α) (b e : Nat) :
    (calls p b b (seg buf b e)).map (fun t => seg buf t.1 t.2.1) = (seg buf b e).splitOnP p := by
  rw [calls_tokens p buf e _ b b (Nat.le_refl _) rfl, seg_self]
  cases List.splitOnP p (seg buf b e) <;> simp [List.modifyHead]

theorem feed_limit (buf : List α) : ∀ (cs : List (Nat × Nat × Nat)) (cnt : Nat)
    (last : Option Nat) (C : List (List α)),
    feed (TLimitingConsumer TContainerConsumer) buf ⟨cnt, last, C⟩ cs =
      if cs.length ≤ cnt then
        ⟨cnt - cs.length, last, C ++ cs.map (fun t => seg buf t.1 t.2.1)⟩
      else
        ⟨0, (cs[cnt]?).map (fun t => t.1), C ++ (cs.take cnt).map (fun t => seg buf t.1 t.2.1)⟩
  | [], cnt, last, C => by simp [feed]
  | t :: cs, 0, last, C => by
      simp [feed, TLimitingConsumer]
  | t :: cs, cnt + 1, last, C => by
      have ih := feed_limit buf cs cnt last (C ++ [seg buf t.1 t.2.1])
      have hd : MtpQueue.decrSize (cnt + 1) = cnt := by simp [MtpQueue.decrSize]
      simp only [feed, TLimitingConsumer, TContainerConsumer, Nat.succ_ne_zero, if_false, if_true,
        hd, List.length_cons, Nat.add_le_add_iff_right, List.map_cons, List.take_succ_cons,
        List.getElem?_cons_succ, Nat.add_sub_add_right] at ih ⊢
      rw [ih]
      simp only [List.append_assoc, List.singleton_append]

/-- Every call but the first starts a token where the splitting of the rest
of the range starts afresh. -/
theorem calls_drop (p : α → Bool) (buf : List α) (e : Nat) :
    ∀ (xs : List α) (start cur : Nat), seg buf cur e = xs →
      ∀ (k : Nat) (t : Nat × Nat × Nat), (calls p start cur xs)[k]? = some t →
        (k = 0 ∧ t.1 = start) ∨
        (cur < t.1 ∧ t.1 ≤ e ∧ (calls p start cur xs).drop k = calls p t.1 t.1 (seg buf t.1 e))
  | [], start, cur, _, k, t, ht => by
      cases k with
      | zero =>
          simp only [calls, List.getElem?_cons_zero, Option.some.injEq] at ht
          subst ht
          exact Or.inl ⟨rfl, rfl⟩
      | succ k => simp [calls] at ht
  | x :: xs, start, cur, hx, k, t, ht => by
      obtain ⟨h1, h2, _⟩ := seg_cons buf cur e x xs hx
      by_cases hp : p x = true
      · simp only [calls, hp, if_true] at ht ⊢
        cases k with
        | zero =>
            simp only [List.getElem?_cons_zero, Option.some.injEq] at ht
            subst ht
            exact Or.inl ⟨rfl, rfl⟩
        | succ k =>
            simp only [List.getElem?_cons_succ] at ht
            right
            rcases calls_drop p buf e xs (cur + 1) (cur + 1) h1 k t ht with ⟨rfl, h⟩ | ⟨h, h', h''⟩
            · rw [h, h1]
              exact ⟨by omega, h2, rfl⟩
            · exact ⟨by omega, h', by simpa using h''⟩
      · simp only [calls, hp, Bool.false_eq_true, if_false] at ht ⊢
        rcases calls_drop p buf e xs start (cur + 1) h1 k t ht with h | ⟨h, h', h''⟩
        · exact Or.inl h
        · exact Or.inr ⟨by omega, h', h''⟩

/-! ## The variadic `Split` -/

theorem splitOn_firstIdx [DecidableEq α] (d : α) : ∀ l : List α,
    l.splitOn d =
      match firstIdx (fun x => x == d) l with
      | some k => l.take k :: (l.drop (k + 1)).splitOn d
      | none => [l]
  | [] => by simp [firstIdx]
  | x :: xs => by
      have ih := splitOn_firstIdx d xs
      simp only [List.splitOn] at ih ⊢
      rw [List.splitOnP_cons]
      by_cases hp : (x == d) = true
      · simp [firstIdx, hp]
      · rw [if_neg hp, ih]
        simp only [firstIdx, hp, Bool.false_eq_true, if_false]
        cases firstIdx (fun x => x == d) xs <;> simp [List.modifyHead]

theorem NextTok_fields [DecidableEq α] (s : TStringBuf α) (d : α) :
    (s.NextTok d).1 = (fields s d).head? ∧ fields (s.NextTok d).2 d = (fields s d).tail := by
  cases s with
  | none => exact ⟨rfl, rfl⟩
  | some l =>
      simp only [TStringBuf.NextTok, fields]
      rw [splitOn_firstIdx d l]
      cases firstIdx (fun x => x == d) l <;> simp [fields]

theorem fields_eq_nil [DecidableEq α] (s : TStringBuf α) (d : α) :
    fields s d = [] ↔ s.IsInited = false := by
  cases s with
  | none => simp [fields, TStringBuf.IsInited]
  | some l =>
      simp only [fields, TStringBuf.IsInited, Option.isSome_some, Bool.true_eq_false, iff_false]
      exact List.splitOnP_ne_nil _ l

theorem fieldCheck_cons (t : List α) (R : List (List α)) (p : TParam) (ps : List TParam) :
    fieldCheck (t :: R) (p :: ps) =
      match fieldCheck R ps with
      | Except.error m => Except.error m
      | Except.ok vs => Except.ok (some t :: vs) := by
  simp only [fieldCheck, List.length_cons, List.drop_succ_cons, Nat.add_lt_add_iff_right,
    Nat.add_sub_add_right, List.map_cons, List.cons_append]
  split_ifs <;> rfl

theorem fieldCheck_nil_plain (ps : List TParam) :
    fieldCheck ([] : List (List α)) (TParam.plain :: ps) = Except.error lessMsg := by
  simp [fieldCheck]

theorem fieldCheck_nil_maybe (ps : List TParam) :
    fieldCheck ([] : List (List α)) (TParam.maybe :: ps) =
      match fieldCheck ([] : List (List α)) ps with
      | Except.error m => Except.error m
      | Except.ok vs => Except.ok (none :: vs) := by
  simp only [fieldCheck, List.length_nil, List.drop_zero, List.mem_cons, false_or,
    Nat.not_lt_zero, if_false, List.map_nil, List.nil_append, Nat.sub_zero, List.length_cons,
    List.replicate_succ, reduceCtorEq]
  split_ifs <;> rfl

theorem GetNext_fields [DecidableEq α] (s : TStringBuf α) (d : α) (p : TParam) :
    GetNext s d p =
      match fields s d, p with
      | t :: _, _ => Except.ok (some t, (s.NextTok d).2)
      | [], TParam.plain => Except.error lessMsg
      | [], TParam.maybe => Except.ok (none, (s.NextTok d).2) := by
  have h := (NextTok_fields s d).1
  cases hf : fields s d with
  | nil =>
      rw [hf] at h
      simp only [List.head?_nil] at h
      cases p <;> simp [GetNext, h, TStringBuf.IsInited]
  | cons t R =>
      rw [hf] at h
      simp only [List.head?_cons] at h
      cases p <;> simp [GetNext, h, TStringBuf.IsInited]

/-- The variadic `Split` is the field-count check on the fields of the
buffer. -/
theorem SplitArgs_fieldCheck [DecidableEq α] (d : α) : ∀ (other : List TParam)
    (s : TStringBuf α) (p1 p2 : TParam),
    SplitArgs s d p1 p2 other = fieldCheck (fields s d) (p1 :: p2 :: other)
  | [], s, p1, p2 => by
      have t1 := (NextTok_fields s d).2
      have t2 := (NextTok_fields (s.NextTok d).2 d).2
      have hi := fields_eq_nil ((s.NextTok d).2.NextTok d).2 d
      rw [SplitArgs, GetNext_fields s d p1]
      cases hf : fields s d with
      | nil =>
          rw [hf] at t1
          cases p1 with
          | plain => simp [fieldCheck_nil_plain]
          | maybe =>
              simp only [fieldCheck_nil_maybe]
              rw [GetNext_fields _ d p2, t1]
              simp only [List.tail_nil] at t1 t2
              rw [t1] at t2
              cases p2 with
              | plain => simp [fieldCheck_nil_plain]
              | maybe =>
                  simp only [fieldCheck_nil_maybe]
                  rw [t2] at hi
                  have : (TStringBuf.NextTok (TStringBuf.NextTok s d).2 d).2.IsInited = false :=
                    hi.mp rfl
                  simp [this, fieldCheck]
      | cons t R =>
          rw [hf] at t1
          simp only [List.tail_cons] at t1
          simp only [fieldCheck_cons]
          rw [GetNext_fields _ d p2, t1]
          rw [t1] at t2
          cases R with
          | nil =>
              simp only [List.tail_nil] at t2
              rw [t2] at hi
              have : (TStringBuf.NextTok (TStringBuf.NextTok s d).2 d).2.IsInited = false :=
                hi.mp rfl
              cases p2 with
              | plain => simp [fieldCheck_nil_plain]
              | maybe => simp [fieldCheck_nil_maybe, this, fieldCheck]
          | cons t2 R2 =>
              simp only [List.tail_cons] at t2
              rw [t2] at hi
              simp only [fieldCheck_cons]
              cases R2 with
              | nil =>
                  have : (TStringBuf.NextTok (TStringBuf.NextTok s d).2 d).2.IsInited = false :=
                    hi.mp rfl
                  simp [this, fieldCheck]
              | cons t3 R3 =>
                  have : (TStringBuf.NextTok (TStringBuf.NextTok s d).2 d).2.IsInited = true := by
                    cases hh : (TStringBuf.NextTok (TStringBuf.NextTok s d).2 d).2.IsInited with
                    | true => rfl
                    | false => exact absurd (hi.mpr hh) (List.cons_ne_nil _ _)
                  simp [this, fieldCheck]
  | p3 :: other, s, p1, p2 => by
      have t1 := (NextTok_fields s d).2
      have ih := SplitArgs_fieldCheck d other (s.NextTok d).2 p2 p3
      rw [SplitArgs, GetNext_fields s d p1]
      cases hf : fields s d with
      | nil =>
          rw [hf] at t1
          simp only [List.tail_nil] at t1
          cases p1 with
          | plain => simp [fieldCheck_nil_plain]
          | maybe =>
              simp only [fieldCheck_nil_maybe, ih, t1]
      | cons t R =>
          rw [hf] at t1
          simp only [List.tail_cons] at t1
          simp only [fieldCheck_cons, ih, t1]

/-! ## Zero-terminated buffers -/

theorem takeWhile_append_nul [DecidableEq α] (nul : α) : ∀ (xs : List α), nul ∉ xs →
    (xs ++ [nul]).takeWhile (fun x => x != nul) = xs
  | [], _ => by simp [List.takeWhile]
  | x :: xs, h => by
      have hx : x ≠ nul := fun e => h (e ▸ List.mem_cons_self _ _)
      have hxs : nul ∉ xs := fun m => h (List.mem_cons_of_mem _ m)
      have hb : (x != nul) = true := by simpa using hx
      have ih := takeWhile_append_nul nul xs hxs
      rw [List.cons_append, List.takeWhile_cons, hb, if_pos rfl, ih]

theorem cstrAt_append_nul [DecidableEq α] (nul : α) (s : List α) (hs : nul ∉ s) (b : Nat)
    (hb : b ≤ s.length) : cstrAt nul (s ++ [nul]) b = s.drop b := by
  rw [cstrAt, List.drop_append_of_le_length hb]
  exact takeWhile_append_nul nul _ (fun m => hs (List.mem_of_mem_drop m))

theorem seg_append_nul (nul : α) (s : List α) (b : Nat) :
    seg (s ++ [nul]) b s.length = s.drop b := by
  rcases Nat.lt_or_ge s.length b with h | h
  · have e1 : s.length - b = 0 := by omega
    rw [seg, e1, List.take_zero, List.drop_eq_nil_of_le (by omega)]
  · rw [seg, List.drop_append_of_le_length h, List.take_append_of_le_length (by simp),
      List.take_of_length_le (by simp)]

theorem getD_append_nul_end (nul : α) (s : List α) :
    (s ++ [nul]).getD s.length nul = nul := by
  simp [List.getD_eq_getElem?_getD]

theorem getD_append_nul_lt (nul : α) (s : List α) (hs : nul ∉ s) (i : Nat) (hi : i < s.length) :
    (s ++ [nul]).getD i nul ≠ nul := by
  rw [List.getD_eq_getElem?_getD, List.getElem?_append_left hi, List.getElem?_eq_getElem hi]
  simp only [Option.getD_some]
  intro h
  exact hs (h ▸ List.getElem_mem hi)

theorem firstOcc_bound [DecidableEq α] (d : List α) : ∀ (xs : List α) (j : Nat),
    firstOcc d xs = some j → j + d.length ≤ xs.length
  | [], j, h => by
      simp only [firstOcc] at h
      split at h
      · next hd => cases h; simp [hd]
      · cases h
  | x :: xs, j, h => by
      simp only [firstOcc] at h
      split at h
      · next hp =>
          cases h
          have := (List.isPrefixOf_iff_prefix.mp hp).length_le
          omega
      · cases hk : firstOcc d xs with
        | none => rw [hk] at h; cases h
        | some k =>
            rw [hk] at h
            have h2 : k + 1 = j := Option.some.inj h
            have := firstOcc_bound d xs k hk
            simp only [List.length_cons]; omega

/-- Looking for the first character of a block and for the block from there
on, as `FastStrStr` does, finds the first occurrence of the block. -/
theorem firstOcc_via_head [DecidableEq α] (h : α) (t : List α) : ∀ xs : List α,
    (firstIdx (fun x => x == h) xs).bind
        (fun k => (firstOcc (h :: t) (xs.drop k)).map (fun j => k + j)) =
      firstOcc (h :: t) xs
  | [] => by simp [firstIdx, firstOcc]
  | x :: xs => by
      by_cases hx : (x == h) = true
      · simp [firstIdx, hx]
      · have ih := firstOcc_via_head h t xs
        have hne : ¬ x = h := by simpa using hx
        have hpre : List.isPrefixOf (h :: t) (x :: xs) = false := by
          simp only [List.isPrefixOf, Bool.and_eq_false_imp]
          intro hh
          have : h = x := by simpa using hh
          exact absurd this.symm hne
        simp only [firstIdx, hx, Bool.false_eq_true, if_false, firstOcc, hpre]
        rw [← ih]
        cases firstIdx (fun x => x == h) xs with
        | none => rfl
        | some k =>
            show Option.map _ (firstOcc (h :: t) (xs.drop k)) =
              Option.map _ (Option.map _ (firstOcc (h :: t) (xs.drop k)))
            rw [Option.map_map]
            congr 1
            funext j
            show k + 1 + j = k + j + 1
            omega

theorem TCharDelimiter_FindZ [DecidableEq α] (nul c : α) (hc : c ≠ nul) (s : List α)
    (hs : nul ∉ s) (b : Nat) (hb : b ≤ s.length) :
    (TCharDelimiter c).FindZ nul (s ++ [nul]) b =
      (TCharDelimiter c).Find (s ++ [nul]) b s.length := by
  have e1 : b + (s.length - b) = s.length := by omega
  simp only [TCharDelimiter, FastStrChr, TCharTraits.FindZ, TCharTraits.FindN,
    TCharTraits.GetLength, hc, if_false, cstrAt_append_nul nul s hs b hb, e1, seg_append_nul]
  cases hk : firstIdx (fun x => x == c) (s.drop b) with
  | none =>
      simp only [Option.map_none', List.length_drop, e1, getD_append_nul_end, ne_eq,
        not_true_eq_false, if_false]
  | some k =>
      have hlt := firstIdx_lt _ _ k hk
      rw [List.length_drop] at hlt
      simp only [Option.map_some', ne_eq, getD_append_nul_lt nul s hs (b + k) (by omega),
        not_false_eq_true, if_true]

theorem TSetDelimiter_FindZ [DecidableEq α] (nul : α) (set : List α) (s : List α)
    (hs : nul ∉ s) (b : Nat) (hb : b ≤ s.length) :
    (TSetDelimiter set).FindZ nul (s ++ [nul]) b =
      (TSetDelimiter set).Find (s ++ [nul]) b s.length := by
  have e1 : b + (s.length - b) = s.length := by omega
  simp only [TSetDelimiter, TCompactStrSpn.FindFirstOfZ, TCompactStrSpn.FindFirstOf,
    cstrAt_append_nul nul s hs b hb, seg_append_nul]
  cases hk : firstIdx (fun x => decide (x ∈ set)) (s.drop b) with
  | none =>
      simp only [List.length_drop, e1, getD_append_nul_end, ne_eq, not_true_eq_false, if_false]
  | some k =>
      have hlt := firstIdx_lt _ _ k hk
      rw [List.length_drop] at hlt
      have hne : b + k ≠ s.length := by omega
      simp only [ne_eq, getD_append_nul_lt nul s hs (b + k) (by omega), not_false_eq_true,
        if_true, hne]

theorem TStringDelimiter_FindZ [DecidableEq α] (nul : α) (d : List α) (hd : d ≠ [])
    (hnul : nul ∉ d) (s : List α) (hs : nul ∉ s) (b : Nat) (hb : b ≤ s.length) :
    (TStringDelimiter d).FindZ nul (s ++ [nul]) b =
      (TStringDelimiter d).Find (s ++ [nul]) b s.length := by
  obtain ⟨h, t, rfl⟩ : ∃ h t, d = h :: t := by
    cases d with
    | nil => exact absurd rfl hd
    | cons h t => exact ⟨h, t, rfl⟩
  have hh : h ≠ nul := fun e => hnul (e ▸ List.mem_cons_self _ _)
  have e1 : b + (s.length - b) = s.length := by omega
  have hfind : (TCharTraits.FindZ nul (s ++ [nul]) b ((h :: t).headD nul)).bind
      (fun ret => TCharTraits.FindSubZ nul (s ++ [nul]) ret (h :: t)) =
      (firstOcc (h :: t) (s.drop b)).map (fun j => b + j) := by
    rw [← firstOcc_via_head h t (s.drop b)]
    simp only [TCharTraits.FindZ, List.headD_cons, hh, if_false,
      cstrAt_append_nul nul s hs b hb]
    cases hk : firstIdx (fun x => x == h) (s.drop b) with
    | none => rfl
    | some k =>
        have hlt := firstIdx_lt _ _ k hk
        rw [List.length_drop] at hlt
        show Option.map (fun j => b + k + j)
            (firstOcc (h :: t) (cstrAt nul (s ++ [nul]) (b + k))) =
          Option.map (fun x => b + x)
            (Option.map (fun j => k + j) (firstOcc (h :: t) ((s.drop b).drop k)))
        rw [cstrAt_append_nul nul s hs (b + k) (by omega), Option.map_map, List.drop_drop]
        congr 1
        funext j
        show b + k + j = b + (k + j)
        omega
  simp only [TStringDelimiter, FastStrStr, hfind, TCharTraits.FindSub, TCharTraits.GetLength,
    cstrAt_append_nul nul s hs b hb, e1, seg_append_nul]
  cases hk : firstOcc (h :: t) (s.drop b) with
  | none =>
      simp only [Option.map_none', List.length_drop, e1, getD_append_nul_end, ne_eq,
        not_true_eq_false, if_false]
  | some j =>
      have hlt := firstOcc_bound _ _ j hk
      rw [List.length_drop, List.length_cons] at hlt
      simp only [Option.map_some', ne_eq, getD_append_nul_lt nul s hs (b + j) (by omega),
        not_false_eq_true, if_true]

/-- When `Find(b)` and `Find(b, e)` agree at every position of the range and
`Find(b, e)` stays inside the range, the two forms of `SplitString` agree. -/
theorem SplitStringZ_eq {σ : Type} (d : TDelim α) (c : TConsumer α σ) (nul : α) (buf : List α)
    (e : Nat) (hfind : ∀ b, b ≤ e → d.FindZ nul buf b = d.Find buf b e)
    (hin : ∀ b, b ≤ e → (d.Find buf b e).2 ≤ e) :
    ∀ (fuel b : Nat) (st : σ), b ≤ e →
      SplitStringZ fuel d c nul buf b st = SplitString fuel d c buf b e st := by
  intro fuel
  induction fuel with
  | zero => intro b st _; rfl
  | succ fuel ih =>
      intro b st hb
      rw [SplitStringZ, SplitString, hfind b hb]
      rw [ih _ _ (hin b hb)]

/-- The range form of `SplitString` ends within `e - b + 1` iterations when
`Find` stays inside the range and moves `b` forward whenever the loop goes
on. -/
theorem SplitString_isSome {σ : Type} (d : TDelim α) (c : TConsumer α σ) (buf : List α)
    (e : Nat) (hin : ∀ b, b ≤ e → (d.Find buf b e).2 ≤ e)
    (hadv : ∀ b, b ≤ e → (d.Find buf b e).2 ≠ (d.Find buf b e).1 → b < (d.Find buf b e).2) :
    ∀ (fuel b : Nat) (st : σ), b ≤ e → e - b < fuel →
      (SplitString fuel d c buf b e st).isSome = true := by
  intro fuel
  induction fuel with
  | zero => intro b st _ h; omega
  | succ fuel ih =>
      intro b st hb hf
      rw [SplitString]
      split
      · next hcont =>
          have hne : (d.Find buf b e).2 ≠ (d.Find buf b e).1 := by
            simp only [Bool.and_eq_true, bne_iff_ne, ne_eq] at hcont
            exact hcont.2
          have h1 := hadv b hb hne
          have h2 := hin b hb
          exact ih _ _ h2 (by omega)
      · rfl

theorem TStringDelimiter_Find_bounds [DecidableEq α] (d : List α) (hd : d ≠ []) (buf : List α)
    (b e : Nat) (hb : b ≤ e) (he : e ≤ buf.length) :
    ((TStringDelimiter d).Find buf b e).2 ≤ e ∧
      (((TStringDelimiter d).Find buf b e).2 ≠ ((TStringDelimiter d).Find buf b e).1 →
        b < ((TStringDelimiter d).Find buf b e).2) := by
  have e1 : b + (e - b) = e := by omega
  have hlen : 0 < d.length := List.length_pos.mpr hd
  simp only [TStringDelimiter, TCharTraits.FindSub, e1]
  cases hk : firstOcc d (seg buf b e) with
  | none => simp
  | some j =>
      have hlt := firstOcc_bound _ _ j hk
      rw [seg_length buf b e he] at hlt
      simp only [Option.map_some']
      constructor
      · omega
      · intro _; omega

theorem pred_Find_bounds (d : TDelim α) (p : α → Bool) (buf : List α) (e : Nat)
    (he : e ≤ buf.length)
    (hd : ∀ b, b ≤ e → d.Find buf b e =
      match firstIdx p (seg buf b e) with
      | some k => (b + k, b + k + 1)
      | none => (e, e)) (b : Nat) (hb : b ≤ e) :
    (d.Find buf b e).2 ≤ e := by
  rw [hd b hb]
  cases hk : firstIdx p (seg buf b e) with
  | none => exact Nat.le_refl _
  | some k =>
      have hlt := firstIdx_lt _ _ k hk
      rw [seg_length buf b e he] at hlt
      show b + k + 1 ≤ e
      omega

end Split

namespace Split

variable {α : Type}

/-- C12: splitting the range `[b, e)` by the character `c` into a container
that holds `C` appends the fields of the range in order, empty ones included:
there are (occurrences of `c`) + 1 of them, none contains `c`, joining them
with `c` gives the range back, and the empty range gives one empty token. -/
theorem split_char_keeps_empty_fields [DecidableEq α] (buf : List α) (b e : Nat) (c : α)
    (C : List (List α)) (fuel : Nat) (hb : b ≤ e) (he : e ≤ buf.length) (hf : e - b < fuel) :
    SplitString fuel (TCharDelimiter c) TContainerConsumer buf b e C =
        some (C ++ (seg buf b e).splitOn c) ∧
      ((seg buf b e).splitOn c).length = (seg buf b e).count c + 1 ∧
      (∀ t ∈ (seg buf b e).splitOn c, c ∉ t) ∧
      [c].intercalate ((seg buf b e).splitOn c) = seg buf b e ∧
      (b = e → SplitString fuel (TCharDelimiter c) TContainerConsumer buf b e C =
        some (C ++ [[]])) := by
  have hrun : SplitString fuel (TCharDelimiter c) TContainerConsumer buf b e C =
      some (C ++ (seg buf b e).splitOn c) := by
    rw [SplitString_pred (TCharDelimiter c) TContainerConsumer (fun x => x == c) buf e he
      (fun b hb => TCharDelimiter_Find c buf b e hb) fuel b C hb hf, feed_container,
      calls_tokens (fun x => x == c) buf e _ b b (Nat.le_refl _) rfl, seg_self]
    congr 2
    cases hs : List.splitOnP (fun x => x == c) (seg buf b e) <;> simp [List.modifyHead, List.splitOn, hs]
  refine ⟨hrun, ?_, ?_, List.intercalate_splitOn _ c, ?_⟩
  · exact splitOnP_length _ _
  · intro t ht hc
    exact splitOnP_no_delim (fun x => x == c) _ t ht c hc (by simp)
  · rintro rfl
    rw [hrun, seg_self]
    rfl

/-- C12 at the input of `TestCharSingleDelimiter`. -/
theorem split_char_keeps_empty_fields_witness :
    SplitString 15 (TCharDelimiter ' ') TContainerConsumer "qw ab  qwabcab".toList 0 14 [] =
      some ["qw".toList, "ab".toList, [], "qwabcab".toList] := by
  have h := (split_char_keeps_empty_fields "qw ab  qwabcab".toList 0 14 ' ' [] 15
    (by decide) (by decide) (by decide)).1
  rw [h]
  decide

/-- C16: `Split(s, TSetDelimiter(set), res)` returns the number of elements of
the final `res`, which holds, whatever `res` held before, the non-empty
tokens of `s` between characters of `set` in order: none is empty, none
contains a character of `set`, and together they are the characters of `s`
outside `set`. -/
theorem split_by_set_runs [DecidableEq α] (s set : List α) (res : List (List α)) (fuel : Nat)
    (hf : s.length < fuel) :
    SplitBySet fuel s set res =
        some (((s.splitOnP (fun x => decide (x ∈ set))).filter (fun t => !t.isEmpty)).length,
          (s.splitOnP (fun x => decide (x ∈ set))).filter (fun t => !t.isEmpty)) ∧
      (∀ t ∈ (s.splitOnP (fun x => decide (x ∈ set))).filter (fun t => !t.isEmpty),
        t ≠ [] ∧ ∀ x ∈ t, x ∉ set) ∧
      ((s.splitOnP (fun x => decide (x ∈ set))).filter (fun t => !t.isEmpty)).flatten =
        s.filter (fun x => decide (x ∉ set)) := by
  refine ⟨?_, ?_, ?_⟩
  · have hb := calls_bounds (fun x => decide (x ∈ set)) s s.length (Nat.le_refl _) _ 0 0
      (Nat.le_refl _) (Nat.zero_le _) rfl
    rw [SplitBySet, SplitString_pred (TSetDelimiter set) (TSkipEmptyTokens TContainerConsumer)
      (fun x => decide (x ∈ set)) s s.length (Nat.le_refl _)
      (fun b _ => TSetDelimiter_Find set s b s.length (Nat.le_refl _)) fuel 0 [] (Nat.zero_le _)
      (by omega),
      feed_skip s _ [] (fun t ht => ⟨(hb t ht).2.1, by have := hb t ht; omega⟩),
      calls_tokens (fun x => decide (x ∈ set)) s s.length _ 0 0 (Nat.le_refl _) rfl, seg_self,
      seg_whole]
    have hm : (List.splitOnP (fun x => decide (x ∈ set)) s).modifyHead (fun t => [] ++ t) =
        List.splitOnP (fun x => decide (x ∈ set)) s := by
      cases List.splitOnP (fun x => decide (x ∈ set)) s <;> simp [List.modifyHead]
    rw [hm]
    rfl
  · intro t ht
    rw [List.mem_filter] at ht
    refine ⟨?_, ?_⟩
    · rintro rfl
      simp at ht
    · intro x hx hset
      exact splitOnP_no_delim (fun x => decide (x ∈ set)) s t ht.1 x hx (by simpa using hset)
  · rw [flatten_filter_nonempty, splitOnP_flatten]
    congr 1
    funext x
    simp

/-- C16 at the inputs of `TestSplit` and `TestCharSkipEmty`, with a `res` that
is not empty before the call. -/
theorem split_by_set_runs_witness :
    SplitBySet 16 "qw ab qwababcab".toList "ab".toList ["old".toList] =
        some (3, ["qw ".toList, " qw".toList, "c".toList]) ∧
      SplitBySet 16 "qw ab  qwabcab ".toList " ".toList [] =
        some (3, ["qw".toList, "ab".toList, "qwabcab".toList]) := by
  refine ⟨?_, ?_⟩
  · rw [(split_by_set_runs "qw ab qwababcab".toList "ab".toList ["old".toList] 16
      (by decide)).1]
    decide
  · rw [(split_by_set_runs "qw ab  qwabcab ".toList " ".toList [] 16 (by decide)).1]
    decide

/-- C13: for a string `s` without the zero character, stored with its
terminating zero, the zero-terminated form `SplitString(b, d, c)` and the
range form `SplitString(b, e, d, c)` leave the same tokens in a container
consumer (and both end), for a character delimiter other than zero, for a
non-empty string delimiter and for a set delimiter. -/
theorem nul_form_agrees_with_range [DecidableEq α] (nul : α) (s : List α) (hs : nul ∉ s)
    (C : List (List α)) (fuel : Nat) (hf : s.length < fuel) :
    (∀ c, c ≠ nul →
      SplitStringZ fuel (TCharDelimiter c) TContainerConsumer nul (s ++ [nul]) 0 C =
          SplitString fuel (TCharDelimiter c) TContainerConsumer (s ++ [nul]) 0 s.length C ∧
        (SplitString fuel (TCharDelimiter c) TContainerConsumer (s ++ [nul]) 0 s.length
          C).isSome = true) ∧
    (∀ d, d ≠ [] → nul ∉ d →
      SplitStringZ fuel (TStringDelimiter d) TContainerConsumer nul (s ++ [nul]) 0 C =
          SplitString fuel (TStringDelimiter d) TContainerConsumer (s ++ [nul]) 0 s.length C ∧
        (SplitString fuel (TStringDelimiter d) TContainerConsumer (s ++ [nul]) 0 s.length
          C).isSome = true) ∧
    (∀ set,
      SplitStringZ fuel (TSetDelimiter set) TContainerConsumer nul (s ++ [nul]) 0 C =
          SplitString fuel (TSetDelimiter set) TContainerConsumer (s ++ [nul]) 0 s.length C ∧
        (SplitString fuel (TSetDelimiter set) TContainerConsumer (s ++ [nul]) 0 s.length
          C).isSome = true) := by
  have he : s.length ≤ (s ++ [nul]).length := by simp
  refine ⟨?_, ?_, ?_⟩
  · intro c hc
    have hd := fun b (hb : b ≤ s.length) => TCharDelimiter_Find c (s ++ [nul]) b s.length hb
    refine ⟨SplitStringZ_eq _ _ nul _ s.length
      (fun b hb => TCharDelimiter_FindZ nul c hc s hs b hb)
      (pred_Find_bounds _ _ _ _ he hd) fuel 0 C (Nat.zero_le _), ?_⟩
    rw [SplitString_pred _ _ _ _ _ he hd fuel 0 C (Nat.zero_le _) (by omega)]
    rfl
  · intro d hd hnul
    have hb := fun b (hb : b ≤ s.length) =>
      TStringDelimiter_Find_bounds d hd (s ++ [nul]) b s.length hb he
    exact ⟨SplitStringZ_eq _ _ nul _ s.length
      (fun b hb => TStringDelimiter_FindZ nul d hd hnul s hs b hb)
      (fun b h => (hb b h).1) fuel 0 C (Nat.zero_le _),
      SplitString_isSome _ _ _ _ (fun b h => (hb b h).1) (fun b h => (hb b h).2) fuel 0 C
        (Nat.zero_le _) (by omega)⟩
  · intro set
    have hd := fun b (_ : b ≤ s.length) => TSetDelimiter_Find set (s ++ [nul]) b s.length he
    refine ⟨SplitStringZ_eq _ _ nul _ s.length
      (fun b hb => TSetDelimiter_FindZ nul set s hs b hb)
      (pred_Find_bounds _ _ _ _ he hd) fuel 0 C (Nat.zero_le _), ?_⟩
    rw [SplitString_pred _ _ _ _ _ he hd fuel 0 C (Nat.zero_le _) (by omega)]
    rfl

/-- C13 at the input of `TestCharStringDelimiter`. -/
theorem nul_form_agrees_with_range_witness :
    SplitStringZ 16 (TStringDelimiter "ab".toList) TContainerConsumer (Char.ofNat 0)
        ("qw ab qwababcab".toList ++ [Char.ofNat 0]) 0 [] =
      some ["qw ".toList, " qw".toList, [], "c".toList, []] ∧
    SplitString 16 (TStringDelimiter "ab".toList) TContainerConsumer
        ("qw ab qwababcab".toList ++ [Char.ofNat 0]) 0 15 [] =
      some ["qw ".toList, " qw".toList, [], "c".toList, []] := by
  have h := ((nul_form_agrees_with_range (Char.ofNat 0) "qw ab qwababcab".toList (by decide)
    [] 16 (by decide)).2.1 "ab".toList (by decide) (by decide)).1
  refine ⟨?_, by decide⟩
  rw [h]
  decide

/-- C14: splitting the range `[b, e)` by the character `c` with
`TKeepDelimiters` around a container consumer appends `2k + 1` pieces, `k`
the number of occurrences of `c`: the pieces at even positions are the fields
in order, those at odd positions are the delimiter `c`, and the pieces
concatenated give the range back. -/
theorem keep_delimiters_preserves_input [DecidableEq α] (buf : List α) (b e : Nat) (c : α)
    (C : List (List α)) (fuel : Nat) (hb : b ≤ e) (he : e ≤ buf.length) (hf : e - b < fuel) :
    SplitString fuel (TCharDelimiter c) (TKeepDelimiters TContainerConsumer) buf b e C =
        some (C ++ ((seg buf b e).splitOn c).intersperse [c]) ∧
      (((seg buf b e).splitOn c).intersperse [c]).length = 2 * (seg buf b e).count c + 1 ∧
      (∀ i, (((seg buf b e).splitOn c).intersperse [c])[2 * i]? = ((seg buf b e).splitOn c)[i]?) ∧
      (∀ i, 2 * i + 1 < (((seg buf b e).splitOn c).intersperse [c]).length →
        (((seg buf b e).splitOn c).intersperse [c])[2 * i + 1]? = some [c]) ∧
      (∀ t ∈ (seg buf b e).splitOn c, c ∉ t) ∧
      (((seg buf b e).splitOn c).intersperse [c]).flatten = seg buf b e := by
  refine ⟨?_, ?_, intersperse_even _ _, intersperse_odd _ _, ?_, List.intercalate_splitOn _ c⟩
  · rw [SplitString_pred (TCharDelimiter c) (TKeepDelimiters TContainerConsumer)
      (fun x => x == c) buf e he (fun b hb => TCharDelimiter_Find c buf b e hb) fuel b C hb hf,
      feed_keep, calls_pieces c buf e _ b b (Nat.le_refl _) rfl, seg_self]
    congr 2
    show List.modifyHead _ (List.intersperse [c] (List.splitOn c (seg buf b e))) = _
    cases List.intersperse [c] (List.splitOn c (seg buf b e)) <;> simp [List.modifyHead]
  · have h1 := intersperse_length [c] ((seg buf b e).splitOn c) (List.splitOnP_ne_nil _ _)
    have h2 : ((seg buf b e).splitOn c).length = (seg buf b e).count c + 1 :=
      splitOnP_length _ _
    omega
  · intro t ht hc
    exact splitOnP_no_delim (fun x => x == c) _ t ht c hc (by simp)

/-- C14 at the input of `TestCharKeepDelimiters`. -/
theorem keep_delimiters_preserves_input_witness :
    SplitString 16 (TCharDelimiter ' ') (TKeepDelimiters TContainerConsumer)
        "qw ab  qwabcab ".toList 0 15 [] =
      some ["qw".toList, " ".toList, "ab".toList, " ".toList, [], " ".toList,
        "qwabcab".toList, " ".toList, []] := by
  rw [(keep_delimiters_preserves_input "qw ab  qwabcab ".toList 0 15 ' ' [] 16
    (by decide) (by decide) (by decide)).1]
  decide

/-- C15: with `TLimitingConsumer(n, slave)` over a container that holds `C`,
splitting the range `[b, e)` by the character `c`: for `n ≥ 1` and at least
`n` tokens the slave receives exactly the first `n - 1` tokens and `Last` is
the position where the `n`-th token starts, so that `[Last, e)` is the rest of
the range, the `n`-th and later tokens joined by `c`; for `n = 0` (and a range
shorter than `Max<size_t>()`) every token is forwarded and `Last` stays null. -/
theorem limiting_consumer_stops [DecidableEq α] (buf : List α) (b e : Nat) (c : α)
    (C : List (List α)) (n fuel : Nat) (hb : b ≤ e) (he : e ≤ buf.length) (hf : e - b < fuel) :
    (1 ≤ n → n ≤ ((seg buf b e).splitOn c).length →
      ∃ last, SplitString fuel (TCharDelimiter c) (TLimitingConsumer TContainerConsumer)
          buf b e (TLimiting.create n C) =
          some ⟨0, some last, C ++ ((seg buf b e).splitOn c).take (n - 1)⟩ ∧
        b ≤ last ∧ last ≤ e ∧
        (seg buf last e).splitOn c = ((seg buf b e).splitOn c).drop (n - 1) ∧
        seg buf last e = [c].intercalate (((seg buf b e).splitOn c).drop (n - 1))) ∧
    (n = 0 → e - b + 1 < MtpQueue.SizeMod →
      SplitString fuel (TCharDelimiter c) (TLimitingConsumer TContainerConsumer)
          buf b e (TLimiting.create n C) =
        some ⟨MtpQueue.SizeMod - 1 - ((seg buf b e).splitOn c).length, none,
          C ++ (seg buf b e).splitOn c⟩) := by
  have hrun := fun st => SplitString_pred (TCharDelimiter c)
    (TLimitingConsumer TContainerConsumer) (fun x => x == c) buf e he
    (fun b hb => TCharDelimiter_Find c buf b e hb) fuel b st hb hf
  have htok : (calls (fun x => x == c) b b (seg buf b e)).map (fun t => seg buf t.1 t.2.1) =
      (seg buf b e).splitOn c := calls_tokens_self _ buf b e
  have hlen : (calls (fun x => x == c) b b (seg buf b e)).length =
      ((seg buf b e).splitOn c).length := by
    rw [← htok, List.length_map]
  refine ⟨?_, ?_⟩
  · intro hn hT
    have hk : n - 1 < (calls (fun x => x == c) b b (seg buf b e)).length := by omega
    obtain ⟨t, ht⟩ : ∃ t, (calls (fun x => x == c) b b (seg buf b e))[n - 1]? = some t :=
      ⟨_, List.getElem?_eq_getElem hk⟩
    have hcreate : TLimiting.create n C = ⟨n - 1, none, C⟩ := by
      have : n ≠ 0 := by omega
      simp [TLimiting.create, this]
    have hsplit : (seg buf t.1 e).splitOn c = ((seg buf b e).splitOn c).drop (n - 1) ∧
        b ≤ t.1 ∧ t.1 ≤ e := by
      rcases calls_drop (fun x => x == c) buf e _ b b rfl (n - 1) t ht with ⟨h0, h1⟩ | ⟨h1, h2, h3⟩
      · rw [h0, h1]
        exact ⟨rfl, Nat.le_refl _, hb⟩
      · refine ⟨?_, by omega, h2⟩
        rw [← htok, ← List.map_drop, h3]
        exact (calls_tokens_self _ buf t.1 e).symm
    refine ⟨t.1, ?_, hsplit.2.1, hsplit.2.2, hsplit.1, ?_⟩
    · rw [hrun, hcreate, feed_limit, if_neg (by omega), ht, List.map_take, htok]
      rfl
    · rw [← hsplit.1]
      exact (List.intercalate_splitOn _ c).symm
  · intro hn hsz
    have hcount : ((seg buf b e).splitOn c).length = (seg buf b e).count c + 1 :=
      splitOnP_length _ _
    have hle : (seg buf b e).count c ≤ (seg buf b e).length := List.count_le_length _ _
    rw [seg_length buf b e he] at hle
    have hcreate : TLimiting.create n C = ⟨MtpQueue.SizeMod - 1, none, C⟩ := by
      simp [TLimiting.create, hn]
    simp only [MtpQueue.SizeMod] at hsz hcreate ⊢
    rw [hrun, hcreate, feed_limit, if_pos (by omega), htok, hlen]

/-- C15 at the input of `TestCharLimit`: the slave gets `qw` and `ab`, and
`Last` is position 6, where the rest ` qwabcab ` starts. -/
theorem limiting_consumer_stops_witness :
    SplitString 16 (TCharDelimiter ' ') (TLimitingConsumer TContainerConsumer)
        "qw ab  qwabcab ".toList 0 15 (TLimiting.create 3 []) =
      some ⟨0, some 6, ["qw".toList, "ab".toList]⟩ ∧
    seg "qw ab  qwabcab ".toList 6 15 = " qwabcab ".toList := by
  obtain ⟨last, h1, _, _, _, h2⟩ := (limiting_consumer_stops "qw ab  qwabcab ".toList 0 15 ' '
    [] 3 16 (by decide) (by decide) (by decide)).1 (by decide) (by decide)
  refine ⟨?_, by decide⟩
  rw [h1]
  have h3 : last = 6 := by
    have hl := congrArg List.length h2
    rw [seg_length _ _ _ (by decide)] at hl
    have : ([' '].intercalate ((List.splitOn ' ' (seg "qw ab  qwabcab ".toList 0 15)).drop
      (3 - 1))).length = 9 := by decide
    rw [this] at hl
    omega
  subst h3
  decide

/-- C17: the variadic `Split(s, delim, p1, p2, other...)` on a string `s`, with
`F` the number of its delimiter-separated fields.  In general it is the
field-count check `fieldCheck`.  With `k` plain arguments followed by `m`
`TMaybe` arguments it raises "less" when `F < k`, raises "more" when
`k + m < F`, and otherwise succeeds, giving the fields to the first `F`
arguments and clearing the `TMaybe` arguments left over; so with plain
arguments only it succeeds exactly when `F` is their number. -/
theorem split_field_count [DecidableEq α] (s : List α) (d : α) (p1 p2 : TParam)
    (other : List TParam) :
    SplitArgs (some s) d p1 p2 other = fieldCheck (s.splitOn d) (p1 :: p2 :: other) ∧
    (∀ k m, p1 :: p2 :: other = List.replicate k TParam.plain ++ List.replicate m TParam.maybe →
      SplitArgs (some s) d p1 p2 other =
        if (s.splitOn d).length < k then Except.error lessMsg
        else if k + m < (s.splitOn d).length then Except.error moreMsg
        else Except.ok ((s.splitOn d).map some ++
          List.replicate (k + m - (s.splitOn d).length) none)) ∧
    ((∀ p ∈ p1 :: p2 :: other, p = TParam.plain) →
      SplitArgs (some s) d p1 p2 other =
        if (s.splitOn d).length < other.length + 2 then Except.error lessMsg
        else if other.length + 2 < (s.splitOn d).length then Except.error moreMsg
        else Except.ok ((s.splitOn d).map some)) := by
  have hmain : SplitArgs (some s) d p1 p2 other = fieldCheck (s.splitOn d) (p1 :: p2 :: other) :=
    SplitArgs_fieldCheck d other (some s) p1 p2
  have hkm : ∀ k m, p1 :: p2 :: other =
      List.replicate k TParam.plain ++ List.replicate m TParam.maybe →
      SplitArgs (some s) d p1 p2 other =
        if (s.splitOn d).length < k then Except.error lessMsg
        else if k + m < (s.splitOn d).length then Except.error moreMsg
        else Except.ok ((s.splitOn d).map some ++
          List.replicate (k + m - (s.splitOn d).length) none) := by
    intro k m hps
    rw [hmain, hps, fieldCheck]
    have hmem : TParam.plain ∈ (List.replicate k TParam.plain ++
        List.replicate m TParam.maybe).drop (s.splitOn d).length ↔ (s.splitOn d).length < k := by
      rw [List.drop_append_eq_append_drop, List.mem_append, List.drop_replicate,
        List.drop_replicate, List.mem_replicate, List.mem_replicate]
      simp only [ne_eq, and_true, reduceCtorEq, and_false, or_false, List.length_replicate]
      omega
    simp only [hmem, List.length_append, List.length_replicate]
  refine ⟨hmain, hkm, ?_⟩
  intro hall
  have hps : p1 :: p2 :: other =
      List.replicate (other.length + 2) TParam.plain ++ List.replicate 0 TParam.maybe := by
    rw [List.replicate_zero, List.append_nil]
    exact List.eq_replicate_iff.mpr ⟨by simp, hall⟩
  rw [hkm (other.length + 2) 0 hps]
  by_cases h1 : (s.splitOn d).length < other.length + 2
  · simp [h1]
  · by_cases h2 : other.length + 2 < (s.splitOn d).length
    · simp [h1, h2]
    · have h3 : other.length + 2 - (s.splitOn d).length = 0 := by omega
      simp [h1, h2, h3]

/-- C17 at the inputs of `ConvenientSplitTestExceptions` and
`ConvenientSplitTestMaybeExceptions`. -/
theorem split_field_count_witness :
    SplitArgs (some "abc 22 33".toList) ' ' TParam.plain TParam.plain [] =
        Except.error moreMsg ∧
      SplitArgs (some "abc 22 33".toList) ' ' TParam.plain TParam.plain [TParam.plain] =
        Except.ok [some "abc".toList, some "22".toList, some "33".toList] ∧
      SplitArgs (some "abc 22 33".toList) ' ' TParam.plain TParam.plain
          [TParam.plain, TParam.plain] = Except.error lessMsg ∧
      SplitArgs (some "abc 22 33".toList) ' ' TParam.plain TParam.plain
          [TParam.maybe, TParam.maybe] =
        Except.ok [some "abc".toList, some "22".toList, some "33".toList, none] ∧
      SplitArgs (some "abc 22 33".toList) ' ' TParam.maybe TParam.maybe
          [TParam.plain, TParam.plain] = Except.error lessMsg := by
  refine ⟨?_, ?_, ?_, ?_, ?_⟩
  · rw [(split_field_count "abc 22 33".toList ' ' TParam.plain TParam.plain []).2.2
      (by decide)]
    rfl
  · rw [(split_field_count "abc 22 33".toList ' ' TParam.plain TParam.plain
      [TParam.plain]).2.2 (by decide)]
    rfl
  · rw [(split_field_count "abc 22 33".toList ' ' TParam.plain TParam.plain
      [TParam.plain, TParam.plain]).2.2 (by decide)]
    rfl
  · rw [(split_field_count "abc 22 33".toList ' ' TParam.plain TParam.plain
      [TParam.maybe, TParam.maybe]).2.1 2 2 rfl]
    rfl
  · rw [(split_field_count "abc 22 33".toList ' ' TParam.maybe TParam.maybe
      [TParam.plain, TParam.plain]).1]
    rfl

end Split
